import Mathlib

/-! # Bagged forests of identification trees (`idtrees/forest.go`)

A shallow embedding of `forest.go` and a verification of its resampling and
aggregation behaviour.

Conventions of the embedding.

* A Go `int` is an `Int` (no loop of the file can overflow: every index stays below a
  slice length).
* A Go `float64` is a value of `F64`: a finite number, an infinity or NaN, with the
  operations rounded to nearest, ties to even.
* A Go `map[Class]float64` is a key-distinct association list, `GoMap`.  `Forest.Classify`
  is written once, for any type of numbers: at `F64` it is the program, at `ℚ` it is the
  program with the weights taken as exact numbers.
* The default attribute count is embedded in exact arithmetic (`defaultNAttrs`) and in
  `float64` arithmetic (`defaultNAttrsF64`); the two agree for every length below `2^48`.
* What a slice holds is a list.  In `BuildForest`, where the caller's slices and the
  working copies must be told apart, the arrays live in a memory and a slice variable is
  the address of its array; `make` allocates at an address not in use.
* `make(Forest, n)` panics for `n < 0` and for `n` above the largest length the runtime
  allocates; that length is the parameter `maxLen` of `BuildForest`.
* The shared random source of `math/rand` is an explicit state, `Rand`.
* A run-time panic is a value of `Panic`; a function that may panic returns the state
  it had reached together with the panic.
* `Tree`, `Sample`, `Attr`, `Class` and `AttrMap` are declared in other files of the
  package.  They are type parameters here, `(*Tree).Classify` is a function parameter,
  and the training function `g` is a function of the two subsets it is given.
-/

namespace idtrees

/-! ## The type `float64` -/

/-- A value of Go type `float64`: a finite number (given by the rational it denotes), an
infinity with its sign, or NaN.  The two zeros are one value here and so are all NaNs;
Go's `==` does not tell the zeros apart either. -/
inductive F64 where
  /-- A finite value. -/
  | fin (q : ℚ)
  /-- The value `-Inf` (`neg` true) or `+Inf`. -/
  | inf (neg : Bool)
  /-- The value NaN. -/
  | nan
  deriving DecidableEq

namespace F64

/-- The `float64` nearest to the rational `q`, ties to even: `q` is rounded to a multiple
of its unit in the last place `2^p`, where `p` is 52 below the binary exponent of `q` and
not below `-1074` (subnormal numbers); a result of magnitude `2^1024` overflows to an
infinity. -/
def round (q : ℚ) : F64 :=
  if q = 0 then .fin 0
  else
    let e : ℤ := Int.log 2 |q|
    let p : ℤ := max (e - 52) (-1074)
    let t : ℚ := |q| / 2 ^ p
    let f : ℕ := ⌊t⌋₊
    let m : ℕ := if t - f < 1 / 2 then f else if 1 / 2 < t - f then f + 1
      else if f % 2 = 0 then f else f + 1
    let a : ℚ := m * 2 ^ p
    if 2 ^ 1024 ≤ a then .inf (decide (q < 0))
    else .fin (if q < 0 then -a else a)

/-- The operator `+` of `float64`. -/
def add : F64 → F64 → F64
  | fin a, fin b => round (a + b)
  | fin _, inf s => inf s
  | inf s, fin _ => inf s
  | inf s, inf t => if s = t then inf s else nan
  | _, _ => nan

/-- The operator `*` of `float64`. -/
def mul : F64 → F64 → F64
  | fin a, fin b => round (a * b)
  | fin a, inf s => if a = 0 then nan else inf (s != decide (a < 0))
  | inf s, fin b => if b = 0 then nan else inf (s != decide (b < 0))
  | inf s, inf t => inf (s != t)
  | _, _ => nan

/-- The operator `/` of `float64`; a zero divisor is read as `+0`. -/
def div : F64 → F64 → F64
  | fin a, fin b =>
    if b = 0 then (if a = 0 then nan else inf (decide (a < 0))) else round (a / b)
  | fin _, inf _ => fin 0
  | inf s, fin b => inf (s != decide (b < 0))
  | _, _ => nan

/-- The conversion `float64(n)` of a non-negative `int`. -/
def ofNat (n : ℕ) : F64 := round n

instance : Zero F64 := ⟨fin 0⟩
instance : One F64 := ⟨fin 1⟩
instance : Add F64 := ⟨add⟩
instance : Mul F64 := ⟨mul⟩
instance : Div F64 := ⟨div⟩
instance : NatCast F64 := ⟨ofNat⟩

/-- The value is one that `float64` holds: an infinity, NaN, or a finite number that
rounding leaves unchanged. -/
def Valid : F64 → Prop
  | fin q => round q = fin q
  | _ => True

/-- The value is non-negative: a finite number that is at least 0, or `+Inf`. -/
def NonNeg : F64 → Prop
  | fin q => 0 ≤ q
  | inf neg => neg = false
  | nan => False

end F64

/-! ## Go maps -/

/-- A value of Go type `map[K]W`: its entries, with pairwise distinct keys. -/
structure GoMap (K W : Type) where
  entries : List (K × W)
  nodupKeys : (entries.map Prod.fst).Nodup

namespace GoMap

variable {K W : Type} [DecidableEq K]

/-- The map literal `map[K]W{}`. -/
def empty : GoMap K W := ⟨[], List.nodup_nil⟩

/-- The key set of a map. -/
def keys (m : GoMap K W) : List K := m.entries.map Prod.fst

/-- The two-valued lookup `v, ok := m[k]`. -/
def get? (m : GoMap K W) (k : K) : Option W :=
  (m.entries.find? (fun e => decide (e.1 = k))).map Prod.snd

/-- The expression `m[k]`: the stored value, or the zero value for a missing key. -/
def get [Zero W] (m : GoMap K W) (k : K) : W := (m.get? k).getD 0

/-- The assignment `m[k] = v`: overwrite the entry of `k`, or add one. -/
def set (m : GoMap K W) (k : K) (v : W) : GoMap K W :=
  if h : k ∈ m.keys then
    ⟨m.entries.map (fun e => if e.1 = k then (k, v) else e), by
      have hk : (m.entries.map (fun e => if e.1 = k then (k, v) else e)).map Prod.fst
          = m.entries.map Prod.fst := by
        rw [List.map_map]
        apply List.map_congr_left
        intro e _
        by_cases he : e.1 = k <;> simp [he]
      rw [hk]
      exact m.nodupKeys⟩
  else
    ⟨m.entries ++ [(k, v)], by
      rw [List.map_append]
      refine List.Nodup.append m.nodupKeys (by simp) ?_
      intro a ha hb
      simp only [List.map_cons, List.map_nil, List.mem_singleton] at hb
      subst hb
      exact h ha⟩

end GoMap

/-! ## `Forest.Classify` -/

/-- The type `Forest`: a list of bagged trees. -/
abbrev Forest (Tree : Type) := List Tree

section Classify

variable {Tree AttrMap Class W : Type} [DecidableEq Class]

/-- The inner loop of `Classify`: `for k, v := range x { res[k] += v }`. -/
def accumulate [Zero W] [Add W] (res x : GoMap Class W) : GoMap Class W :=
  x.entries.foldl (fun res e => res.set e.1 (res.get e.1 + e.2)) res

/-- The last loop of `Classify`: `for k, v := range res { res[k] = v * scaler }`.
Only keys already present are assigned, so the loop visits each entry of `res` once. -/
def rescale [Mul W] (res : GoMap Class W) (scaler : W) : GoMap Class W :=
  res.entries.foldl (fun m e => m.set e.1 (e.2 * scaler)) res

/-- The method `Forest.Classify`, for weights of type `W`: `F64` for the program as it
is, `ℚ` for the program with weights taken as exact numbers.  `classify t s` stands for
the call `t.Classify(s)` of the tree method, which this file does not define, and
`(f.length : W)` for the conversion `float64(len(f))`.  For an empty forest the scaler is
`1 / 0` (`+Inf` in `float64`, `0` in `ℚ`); no entry is scaled then. -/
def Forest.Classify [Zero W] [One W] [Add W] [Mul W] [Div W] [NatCast W]
    (classify : Tree → AttrMap → GoMap Class W) (f : Forest Tree)
    (s : AttrMap) : GoMap Class W :=
  let res := f.foldl (fun res t => accumulate res (classify t s)) GoMap.empty
  let scaler : W := 1 / (f.length : W)
  rescale res scaler

/-- The accumulated weight of class `c`, as the first loop of `Classify` computes it: the
additions `res[c] += v` of the members that predict `c`, in forest order, starting from
the zero value. -/
def weightSum [Zero W] [Add W] (classify : Tree → AttrMap → GoMap Class W)
    (f : Forest Tree) (s : AttrMap) (c : Class) : W :=
  f.foldl (fun acc t =>
    match (classify t s).get? c with
    | some v => acc + v
    | none => acc) 0

end Classify

/-! ## Panics and the random source -/

/-- The run-time panics the statements of `forest.go` can raise. -/
inductive Panic where
  /-- `rand.Intn(n)` with `n <= 0`. -/
  | intnInvalidArgument
  /-- An index expression `s[i]` with `i` outside `[0, len(s))`. -/
  | indexOutOfRange
  /-- A slice expression `s[:n]` with `n` outside `[0, cap(s)]`. -/
  | sliceBoundsOutOfRange
  /-- A call `make([]T, n)` with `n < 0` or `n` above the length the runtime can
  allocate. -/
  | makeLenOutOfRange
  deriving DecidableEq, Repr

/-- The shared random source: the raw values the generator delivers, in order, and the
number of values drawn so far. -/
structure Rand where
  source : ℕ → ℕ
  drawn : ℕ

/-- The call `rand.Intn(n)`: panics for `n <= 0`, else consumes one raw value and
returns a number of `[0, n)`. -/
def Rand.Intn (r : Rand) (n : Int) : Except Panic (ℕ × Rand) :=
  if n ≤ 0 then .error .intnInvalidArgument
  else .ok (r.source r.drawn % n.toNat, ⟨r.source, r.drawn + 1⟩)

/-! ## The resampler -/

section Resampler

variable {α Sample Attr : Type}

/-- The parallel assignment `s[i], s[j] = s[j], s[i]`: both operands are read first
(either read panics when out of range), then `s[i]` and `s[j]` are written in turn. -/
def swap (s : List α) (i j : ℕ) : Except Panic (List α) :=
  match s[i]?, s[j]? with
  | some a, some b => .ok ((s.set i b).set j a)
  | _, _ => .error .indexOutOfRange

/-- The loop of `randomizeSamples`, entered with counter `i` and `todo` iterations left
(`todo` is `n - i`).  It returns the slice contents and the random source as they are
when the loop ends or panics. -/
def randomizeSamples.loop : ℕ → ℕ → List Sample → Rand → Option Panic × List Sample × Rand
  | 0, _, s, r => (none, s, r)
  | todo + 1, i, s, r =>
    match r.Intn ((s.length : Int) - (i : Int)) with
    | .error p => (some p, s, r)
    | .ok (d, r1) =>
      let idx := d + i
      match swap s i idx with
      | .error p => (some p, s, r1)
      | .ok s1 => randomizeSamples.loop todo (i + 1) s1 r1

/-- The function `randomizeSamples(s, n)`: `for i := 0; i < n; i++ { ... }`. -/
def randomizeSamples (s : List Sample) (n : Int) (r : Rand) :
    Option Panic × List Sample × Rand :=
  randomizeSamples.loop n.toNat 0 s r

/-- The loop of `randomizeAttrs`, entered with counter `i` and `todo` iterations left. -/
def randomizeAttrs.loop : ℕ → ℕ → List Attr → Rand → Option Panic × List Attr × Rand
  | 0, _, a, r => (none, a, r)
  | todo + 1, i, a, r =>
    match r.Intn ((a.length : Int) - (i : Int)) with
    | .error p => (some p, a, r)
    | .ok (d, r1) =>
      let idx := d + i
      match swap a i idx with
      | .error p => (some p, a, r1)
      | .ok a1 => randomizeAttrs.loop todo (i + 1) a1 r1

/-- The function `randomizeAttrs(a, n)`: `for i := 0; i < n; i++ { ... }`. -/
def randomizeAttrs (a : List Attr) (n : Int) (r : Rand) :
    Option Panic × List Attr × Rand :=
  randomizeAttrs.loop n.toNat 0 a r

end Resampler

/-! ## `BuildForest` -/

section Build

variable {α Sample Attr Tree : Type}

/-- The type `TreeGen`. -/
abbrev TreeGen (Sample Attr Tree : Type) := List Sample → List Attr → Tree

/-- The expression `int(math.Sqrt(float64(len)) + 0.5)` in exact arithmetic: the floor
of `√len + 1/2`, which is the floor of `(√(4·len) + 1) / 2`. -/
def defaultNAttrs (len : ℕ) : ℕ := (Nat.sqrt (4 * len) + 1) / 2

/-- The float64 nearest to a rational `q` with `1 ≤ q < 2^53`, ties to even: `q` is
rounded to a multiple of its unit in the last place, `2^(-d)`.  On this range it is the
rounding `F64.round`. -/
def roundF64 (q : ℚ) : ℚ :=
  let d := 52 - Nat.log 2 ⌊q⌋₊
  let t := q * 2 ^ d
  let f := ⌊t⌋₊
  let m := if t - f < 1 / 2 then f else if 1 / 2 < t - f then f + 1
    else if f % 2 = 0 then f else f + 1
  (m : ℚ) / 2 ^ d

/-- The call `math.Sqrt(float64(n))` for `0 < n < 2^53`: the float64 nearest to `√n`. -/
def sqrtF64 (n : ℕ) : ℚ :=
  let d := 52 - Nat.log 2 n / 2
  let M := n * 4 ^ d
  let s := Nat.sqrt M
  let m := if M ≤ s * s + s then s else s + 1
  (m : ℚ) / 2 ^ d

/-- The first statement of `BuildForest`: `if nAttrs == 0 { nAttrs = ... }`. -/
def effectiveNAttrs (attrs : List Attr) (nAttrs : Int) : Int :=
  if nAttrs = 0 then (defaultNAttrs attrs.length : Int) else nAttrs

/-- The slice expression `s[:n]` on a slice whose capacity is its length. -/
def slicePrefix (s : List α) (n : Int) : Except Panic (List α) :=
  if 0 ≤ n ∧ n ≤ (s.length : Int) then .ok (s.take n.toNat)
  else .error .sliceBoundsOutOfRange

/-- The memory and trace of a run of `BuildForest`.  Every slice of `forest.go` spans its
whole backing array, so a slice variable is held as the address of its array in the
memory of its element type, and what the slice holds is read from that memory. -/
structure BuildState (Sample Attr Tree : Type) where
  /-- The arrays of samples in memory, by address. -/
  sampleArrays : List (List Sample)
  /-- The arrays of attributes in memory, by address. -/
  attrArrays : List (List Attr)
  /-- The address of the array of the caller's `samples`. -/
  samplesAddr : ℕ
  /-- The address of the array of the caller's `attrs`. -/
  attrsAddr : ℕ
  /-- The address of the array of `sampleCopy`. -/
  sampleCopyAddr : ℕ
  /-- The address of the array of `attrCopy`. -/
  attrCopyAddr : ℕ
  /-- The shared random source. -/
  rand : Rand
  /-- The arguments of the calls made to `g` so far, oldest first. -/
  calls : List (List Sample × List Attr)
  /-- The members stored so far, `res[0], ..., res[i-1]`. -/
  res : List Tree

/-- The items of the caller's `samples`, as memory holds them. -/
def BuildState.samples (st : BuildState Sample Attr Tree) : List Sample :=
  st.sampleArrays.getD st.samplesAddr []

/-- The items of the caller's `attrs`, as memory holds them. -/
def BuildState.attrs (st : BuildState Sample Attr Tree) : List Attr :=
  st.attrArrays.getD st.attrsAddr []

/-- The items of `sampleCopy`, as memory holds them. -/
def BuildState.sampleCopy (st : BuildState Sample Attr Tree) : List Sample :=
  st.sampleArrays.getD st.sampleCopyAddr []

/-- The items of `attrCopy`, as memory holds them. -/
def BuildState.attrCopy (st : BuildState Sample Attr Tree) : List Attr :=
  st.attrArrays.getD st.attrCopyAddr []

/-- The writes made through the slice `sampleCopy`: its array now holds `items`. -/
def BuildState.writeSampleCopy (st : BuildState Sample Attr Tree) (items : List Sample) :
    BuildState Sample Attr Tree :=
  { st with sampleArrays := st.sampleArrays.set st.sampleCopyAddr items }

/-- The writes made through the slice `attrCopy`: its array now holds `items`. -/
def BuildState.writeAttrCopy (st : BuildState Sample Attr Tree) (items : List Attr) :
    BuildState Sample Attr Tree :=
  { st with attrArrays := st.attrArrays.set st.attrCopyAddr items }

/-- The working copies of a state have arrays of their own: their addresses are in use
and are not those of the caller's slices. -/
def BuildState.Separate (st : BuildState Sample Attr Tree) : Prop :=
  st.sampleCopyAddr < st.sampleArrays.length ∧ st.attrCopyAddr < st.attrArrays.length ∧
  st.samplesAddr ≠ st.sampleCopyAddr ∧ st.attrsAddr ≠ st.attrCopyAddr

/-- The statements `c := make([]T, len(s)); copy(c, s)` for the slice `s` at address `a`
of the memory `mem`: `make` allocates a new array, at the first address not in use, and
`copy` fills it with the items of `s`.  The result is the address of `c` and the memory. -/
def makeCopy (mem : List (List α)) (a : ℕ) : ℕ × List (List α) :=
  (mem.length, mem ++ [mem.getD a []])

/-- The body of the loop of `BuildForest`, for one member.  Each resampler works on the
array of the slice it is given: it reads the items there and its swaps are written
there. -/
def BuildForest.body (nSamples nAttrs : Int) (g : TreeGen Sample Attr Tree)
    (st : BuildState Sample Attr Tree) : Option Panic × BuildState Sample Attr Tree :=
  match randomizeSamples st.sampleCopy nSamples st.rand with
  | (some p, sc, r1) => (some p, { st.writeSampleCopy sc with rand := r1 })
  | (none, sc, r1) =>
    match randomizeAttrs (st.writeSampleCopy sc).attrCopy nAttrs r1 with
    | (some p, ac, r2) =>
      (some p, { (st.writeSampleCopy sc).writeAttrCopy ac with rand := r2 })
    | (none, ac, r2) =>
      match slicePrefix ((st.writeSampleCopy sc).writeAttrCopy ac).sampleCopy nSamples with
      | .error p => (some p, { (st.writeSampleCopy sc).writeAttrCopy ac with rand := r2 })
      | .ok ss =>
        match slicePrefix ((st.writeSampleCopy sc).writeAttrCopy ac).attrCopy nAttrs with
        | .error p => (some p, { (st.writeSampleCopy sc).writeAttrCopy ac with rand := r2 })
        | .ok as =>
          (none, { (st.writeSampleCopy sc).writeAttrCopy ac with
                     rand := r2,
                     calls := st.calls ++ [(ss, as)], res := st.res ++ [g ss as] })

/-- The loop `for i := 0; i < n; i++ { ... }` of `BuildForest` with `todo` iterations
left. -/
def BuildForest.loop (nSamples nAttrs : Int) (g : TreeGen Sample Attr Tree) :
    ℕ → BuildState Sample Attr Tree → Option Panic × BuildState Sample Attr Tree
  | 0, st => (none, st)
  | todo + 1, st =>
    match BuildForest.body nSamples nAttrs g st with
    | (some p, st1) => (some p, st1)
    | (none, st1) => BuildForest.loop nSamples nAttrs g todo st1

/-- The state of `BuildForest` when `sampleCopy` and `attrCopy` have been made.  On entry
memory holds the caller's two arrays, each at address 0 of the memory of its element
type. -/
def BuildForest.init (samples : List Sample) (attrs : List Attr) (rand : Rand) :
    BuildState Sample Attr Tree :=
  { sampleArrays := (makeCopy [samples] 0).2, attrArrays := (makeCopy [attrs] 0).2,
    samplesAddr := 0, attrsAddr := 0,
    sampleCopyAddr := (makeCopy [samples] 0).1, attrCopyAddr := (makeCopy [attrs] 0).1,
    rand := rand, calls := [], res := [] }

/-- The function `BuildForest`, run from the random source `rand`.  The result is the
returned forest or the panic, with the final memory and trace.  `maxLen` is the largest
length for which `make(Forest, n)` returns: the runtime panics for a length above its
allocation limit divided by the size of an item (`2^45` for the pointers of a `Forest` on
64-bit Linux; less where memory is short, a run that exhausts memory ending there as
well).  The limit is a constant of the runtime, not of `forest.go`.  The two working
copies have the lengths of slices that exist, so their `make` is within the limit. -/
def BuildForest (maxLen : ℕ) (n : Int) (samples : List Sample) (attrs : List Attr)
    (nSamples nAttrs : Int) (g : TreeGen Sample Attr Tree) (rand : Rand) :
    Except Panic (Forest Tree) × BuildState Sample Attr Tree :=
  let nAttrs := effectiveNAttrs attrs nAttrs
  let st0 : BuildState Sample Attr Tree := BuildForest.init samples attrs rand
  if n < 0 ∨ (maxLen : Int) < n then (.error .makeLenOutOfRange, st0)
  else
    match BuildForest.loop nSamples nAttrs g n.toNat st0 with
    | (some p, st) => (.error p, st)
    | (none, st) => (.ok st.res, st)

end Build

/-! ## Predicates used to state the properties of the resampler -/

section Predicates

variable {α : Type}

/-- The slice `out` holds the slots of `pool` in another order: the two have the same
length and position `p` of `out` holds slot `σ p` of `pool`, for a permutation `σ` of the
slot indices. -/
def Rearranges (pool out : List α) : Prop :=
  out.length = pool.length ∧ ∃ σ : Equiv.Perm ℕ, ∀ p, out[p]? = pool[σ p]?

/-- The items of `chosen` come from pairwise distinct slots of `pool`: an injective map
sends each position of `chosen` to a slot of `pool` that holds the same item. -/
def FromDistinctSlots (pool chosen : List α) : Prop :=
  ∃ f : Fin chosen.length → Fin pool.length,
    Function.Injective f ∧ ∀ p, chosen.get p = pool.get (f p)

end Predicates

/-! ## The run of `BuildForest`, member by member -/

section Members

variable {Sample Attr Tree : Type}

/-- The memory and trace of a run of `BuildForest` when its loop has made `i` iterations
(or has panicked before that). -/
def BuildForest.stateAfter (samples : List Sample) (attrs : List Attr)
    (nSamples nAttrs : Int) (g : TreeGen Sample Attr Tree) (rand : Rand) (i : ℕ) :
    BuildState Sample Attr Tree :=
  (BuildForest.loop nSamples (effectiveNAttrs attrs nAttrs) g i
    (BuildForest.init samples attrs rand)).2

/-- One member's resampling as the specification words it: the sample resampler, then the
attribute resampler, each on the buffer as the previous member left it. -/
def resampleBuffers (nSamples nAttrs : Int) (b : List Sample × List Attr × Rand) :
    List Sample × List Attr × Rand :=
  ((randomizeSamples b.1 nSamples b.2.2).2.1,
    (randomizeAttrs b.2.1 nAttrs (randomizeSamples b.1 nSamples b.2.2).2.2).2.1,
    (randomizeAttrs b.2.1 nAttrs (randomizeSamples b.1 nSamples b.2.2).2.2).2.2)

/-- The buffers after `i` members as the specification words them: the `i`-fold
sequential composition of the resampling, applied to the initial copies. -/
def carriedBuffers (nSamples nAttrs : Int) (samples : List Sample) (attrs : List Attr)
    (rand : Rand) (i : ℕ) : List Sample × List Attr × Rand :=
  (resampleBuffers nSamples nAttrs)^[i] (samples, attrs, rand)

/-- The subsets a member would get from a fresh copy of the original pools, drawn from
the random source at position `r`.  The code does not do this; it is here for
comparison. -/
def freshBuffers (nSamples nAttrs : Int) (samples : List Sample) (attrs : List Attr)
    (r : Rand) : List Sample × List Attr × Rand :=
  resampleBuffers nSamples nAttrs (samples, attrs, r)

end Members

/-! ## Draw sequences and arrangements of slots -/

section Draws
variable {α : Type}

/-- The swaps of the resampler for given drawn indices: step `i` swaps positions `i` and
`j`, for the successive `j` of the list. -/
def applyDraws (s : List α) (i : ℕ) : List ℕ → List α
  | [] => s
  | j :: js =>
    match swap s i j with
    | .ok s1 => applyDraws s1 (i + 1) js
    | .error _ => s

/-- The indices a resampling of `todo` steps draws from the source `r`, entered with
counter `i` on a slice of length `len`. -/
def drawnIndices (r : Rand) (len i todo : ℕ) : List ℕ :=
  (List.range todo).map (fun t => r.source (r.drawn + t) % (len - (i + t)) + (i + t))

/-- The random source whose successive draws give the indices `js`: its `t`-th raw value
is `js[t] - t`, so that step `t` of a resampling draws the index `js[t]`. -/
def drawSource (js : List ℕ) : Rand := ⟨fun t => js.getD t 0 - t, 0⟩

/-- The draws `js` are admissible from step `i` on a slice of length `len`: the draw of
step `i + t` lies in `[i + t, len - 1]`. -/
def AdmissibleFrom (len i : ℕ) (js : List ℕ) : Prop :=
  ∀ t (h : t < js.length), i + t ≤ js[t] ∧ js[t] < len

/-- The draws `js` are admissible for a pool of `N` slots: the draw of step `t` lies in
`[t, N - 1]`. -/
def AdmissibleDraws (N : ℕ) (js : List ℕ) : Prop :=
  ∀ t (h : t < js.length), t ≤ js[t] ∧ js[t] < N

/-- The list `l` is an ordered arrangement of `k` distinct slots of a pool of `N` slots. -/
def Arrangement (N k : ℕ) (l : List ℕ) : Prop :=
  l.length = k ∧ l.Nodup ∧ ∀ x ∈ l, x < N

/-- The slots the resampler chooses: the prefix it leaves when run on the pool
`[0, ..., N - 1]` of the slot indices. -/
def chosenSlots (N k : ℕ) (r : Rand) : List ℕ :=
  (randomizeSamples (List.range N) (k : Int) r).2.1.take k

end Draws

/-! ## Concrete inputs used to exercise the theorems -/

section Examples

/-- The prediction `{class1: 1.0}`, for weights of type `W`. -/
def predA {W : Type} [One W] : GoMap String W := ⟨[("class1", 1)], by simp⟩

/-- The prediction `{class1: 0.0, class2: 1.0}`, for weights of type `W`. -/
def predB {W : Type} [Zero W] [One W] : GoMap String W :=
  ⟨[("class1", 0), ("class2", 1)], by simp⟩

/-- A tree method for trees that are their own prediction, whatever the query. -/
def constClassify {W : Type} (t : GoMap String W) (_ : Unit) : GoMap String W := t

/-- The trees of the examples: tree `0` predicts `{class1: 1.0}` and every other tree
`{class1: 0.0, class2: 1.0}`, whatever the query. -/
def exampleClassify {W : Type} [Zero W] [One W] (t : ℕ) (_ : Unit) : GoMap String W :=
  if t = 0 then predA else predB

/-- The largest length of a `Forest` on 64-bit Linux: the allocation limit `2^48` of the
runtime divided by the 8 bytes of a pointer. -/
def exampleMaxLen : ℕ := 2 ^ 45

/-- A random source whose raw values start 3, 1, 4, 1, 5, 9, 2, 6 and go on with 0. -/
def exampleRand : Rand := ⟨fun i => [3, 1, 4, 1, 5, 9, 2, 6].getD i 0, 0⟩

/-- A pool of four items. -/
def examplePool : List ℕ := [10, 20, 30, 40]

/-- A pool of four attributes. -/
def exampleAttrs : List String := ["a", "b", "c", "d"]

/-- A training function that records the subsets it is given. -/
def exampleGen : TreeGen ℕ String (List ℕ × List String) := fun s a => (s, a)

end Examples

/-! ## Lemmas on Go maps -/

namespace GoMap

variable {K W : Type} [DecidableEq K]

/-- The first value stored under key `a` in a list of entries. -/
theorem find_map_update (l : List (K × W)) (k a : K) (v : W) :
    ((l.map (fun e => if e.1 = k then (k, v) else e)).find?
        (fun e => decide (e.1 = a))).map Prod.snd
      = if a = k then (if k ∈ l.map Prod.fst then some v else none)
        else (l.find? (fun e => decide (e.1 = a))).map Prod.snd := by
  induction l with
  | nil => simp
  | cons e l ih =>
    by_cases hek : e.1 = k
    · by_cases hak : a = k
      · subst hak
        simp [hek, List.find?_cons]
      · have hka : ¬ k = a := fun h => hak h.symm
        have hea : ¬ e.1 = a := fun h => hak (h.symm.trans hek)
        simp only [List.map_cons, hek, if_true, List.find?_cons, hka, decide_False, hea]
        simpa [hak] using ih
    · by_cases hak : a = k
      · subst hak
        have hne : ¬ a = e.1 := fun h => hek h.symm
        simp only [List.map_cons, hek, if_false, List.find?_cons, decide_False,
          List.mem_cons, hne, false_or]
        simpa using ih
      · by_cases hea : e.1 = a
        · simp [hek, hak, hea, List.find?_cons]
        · simp only [List.map_cons, hek, if_false, List.find?_cons, hea, decide_False, hak]
          simpa [hak] using ih

theorem find_eq_none_of_not_mem (l : List (K × W)) (a : K) (h : a ∉ l.map Prod.fst) :
    l.find? (fun e => decide (e.1 = a)) = none := by
  rw [List.find?_eq_none]
  intro e he hea
  apply h
  simp only [decide_eq_true_eq] at hea
  exact List.mem_map.2 ⟨e, he, hea⟩

theorem find_isSome_of_mem (l : List (K × W)) (a : K) (h : a ∈ l.map Prod.fst) :
    (l.find? (fun e => decide (e.1 = a))).isSome = true := by
  rw [List.find?_isSome]
  obtain ⟨e, he, hea⟩ := List.mem_map.1 h
  exact ⟨e, he, by simpa using hea⟩

theorem mem_keys_set (m : GoMap K W) (k a : K) (v : W) :
    a ∈ (m.set k v).keys ↔ a = k ∨ a ∈ m.keys := by
  unfold set
  split
  · rename_i h
    have hk : (m.entries.map (fun e => if e.1 = k then (k, v) else e)).map Prod.fst
        = m.entries.map Prod.fst := by
      rw [List.map_map]
      apply List.map_congr_left
      intro e _
      by_cases he : e.1 = k <;> simp [he]
    simp only [keys, hk]
    constructor
    · exact Or.inr
    · rintro (h1 | h1)
      · subst h1; exact h
      · exact h1
  · simp only [keys, List.map_append, List.map_cons, List.map_nil, List.mem_append,
      List.mem_singleton]
    exact or_comm

theorem get?_set (m : GoMap K W) (k a : K) (v : W) :
    (m.set k v).get? a = if a = k then some v else m.get? a := by
  unfold set
  split
  · rename_i h
    simp only [get?]
    rw [find_map_update]
    have h1 : k ∈ m.entries.map Prod.fst := h
    simp [h1]
  · rename_i h
    simp only [get?, List.find?_append]
    by_cases hak : a = k
    · subst hak
      rw [find_eq_none_of_not_mem _ _ h]
      simp
    · have hka : ¬ k = a := fun h => hak h.symm
      simp [hak, hka, List.find?_cons]

theorem get_set [Zero W] (m : GoMap K W) (k a : K) (v : W) :
    (m.set k v).get a = if a = k then v else m.get a := by
  unfold get
  rw [get?_set]
  split <;> rfl

theorem get?_eq_none_iff (m : GoMap K W) (a : K) : m.get? a = none ↔ a ∉ m.keys := by
  constructor
  · intro h hmem
    have := find_isSome_of_mem m.entries a hmem
    simp only [get?, Option.map_eq_none'] at h
    rw [h] at this
    exact absurd this (by simp)
  · intro h
    simp [get?, find_eq_none_of_not_mem _ _ h]

theorem get?_eq_some_get [Zero W] (m : GoMap K W) (a : K) (h : a ∈ m.keys) :
    m.get? a = some (m.get a) := by
  cases hg : m.get? a with
  | none => exact absurd h ((get?_eq_none_iff m a).1 hg)
  | some v => simp [get, hg]

theorem get_eq_zero_of_not_mem [Zero W] (m : GoMap K W) (a : K) (h : a ∉ m.keys) :
    m.get a = 0 := by
  simp [get, (get?_eq_none_iff m a).2 h]

theorem get_empty [Zero W] (a : K) : (empty : GoMap K W).get a = 0 :=
  get_eq_zero_of_not_mem _ _ (by simp [empty, keys])

/-- An entry of a map is what the lookup of its key returns. -/
theorem find_of_mem (l : List (K × W)) (hl : (l.map Prod.fst).Nodup) (e : K × W)
    (he : e ∈ l) : l.find? (fun x => decide (x.1 = e.1)) = some e := by
  induction l with
  | nil => exact absurd he (List.not_mem_nil e)
  | cons a l ih =>
    rw [List.map_cons, List.nodup_cons] at hl
    rcases List.mem_cons.1 he with h | h
    · subst h
      simp [List.find?_cons]
    · have hne : ¬ a.1 = e.1 := by
        intro heq
        apply hl.1
        rw [heq]
        exact List.mem_map.2 ⟨e, h, rfl⟩
      simp only [List.find?_cons, hne, decide_False]
      exact ih hl.2 h

theorem get_of_mem_entries [Zero W] (m : GoMap K W) (e : K × W) (he : e ∈ m.entries) :
    m.get e.1 = e.2 := by
  simp [get, get?, find_of_mem m.entries m.nodupKeys e he]

/-- The sum of the values of a map is the sum of its lookups over the keys. -/
theorem sum_entries (m : GoMap K ℚ) :
    (m.entries.map Prod.snd).sum = (m.keys.map m.get).sum := by
  have h : m.entries.map Prod.snd = m.keys.map m.get := by
    rw [keys, List.map_map]
    apply List.map_congr_left
    intro e he
    exact (get_of_mem_entries m e he).symm
  rw [h]

/-- Summing the lookups over any duplicate-free list that contains the keys gives the sum
of the values: a missing key reads as zero. -/
theorem sum_get_superset (m : GoMap K ℚ) (ks : List K) (hks : ks.Nodup)
    (hsub : ∀ c ∈ m.keys, c ∈ ks) :
    (ks.map m.get).sum = (m.entries.map Prod.snd).sum := by
  have hk : m.keys.Nodup := m.nodupKeys
  rw [sum_entries, ← List.sum_toFinset m.get hks, ← List.sum_toFinset m.get hk]
  symm
  apply Finset.sum_subset
  · intro c hc
    rw [List.mem_toFinset] at hc ⊢
    exact hsub c hc
  · intro c _ hc
    rw [List.mem_toFinset] at hc
    exact get_eq_zero_of_not_mem m c hc

/-- A lookup is non-negative when all stored values are. -/
theorem get_nonneg (m : GoMap K ℚ) (hm : ∀ e ∈ m.entries, 0 ≤ e.2) (c : K) : 0 ≤ m.get c := by
  by_cases hc : c ∈ m.keys
  · obtain ⟨e, he, hec⟩ := List.mem_map.1 hc
    rw [← hec, get_of_mem_entries m e he]
    exact hm e he
  · rw [get_eq_zero_of_not_mem m c hc]

end GoMap

/-! ## Lemmas on `Forest.Classify` -/

section ClassifyLemmas

variable {Tree AttrMap Class W : Type} [DecidableEq Class]

/-- Keys after adding a list of entries into `res`. -/
theorem mem_keys_foldl_add [Zero W] [Add W] (l : List (Class × W)) (res : GoMap Class W)
    (c : Class) :
    c ∈ (l.foldl (fun res e => res.set e.1 (res.get e.1 + e.2)) res).keys
      ↔ c ∈ res.keys ∨ c ∈ l.map Prod.fst := by
  induction l generalizing res with
  | nil => simp
  | cons e l ih =>
    rw [List.foldl_cons, ih, GoMap.mem_keys_set]
    simp only [List.map_cons, List.mem_cons]
    tauto

/-- Values after adding a key-distinct list of entries into `res`. -/
theorem get_foldl_add (l : List (Class × ℚ)) (hl : (l.map Prod.fst).Nodup)
    (res : GoMap Class ℚ) (c : Class) :
    (l.foldl (fun res e => res.set e.1 (res.get e.1 + e.2)) res).get c
      = res.get c + ((l.find? (fun e => decide (e.1 = c))).map Prod.snd).getD 0 := by
  induction l generalizing res with
  | nil => simp
  | cons e l ih =>
    rw [List.map_cons, List.nodup_cons] at hl
    rw [List.foldl_cons, ih hl.2, GoMap.get_set]
    by_cases hce : c = e.1
    · subst hce
      rw [GoMap.find_eq_none_of_not_mem l _ hl.1]
      simp [List.find?_cons]
    · have hec : ¬ e.1 = c := fun h => hce h.symm
      simp [hce, hec, List.find?_cons]

theorem mem_keys_accumulate [Zero W] [Add W] (res x : GoMap Class W) (c : Class) :
    c ∈ (accumulate res x).keys ↔ c ∈ res.keys ∨ c ∈ x.keys :=
  mem_keys_foldl_add x.entries res c

theorem get_accumulate (res x : GoMap Class ℚ) (c : Class) :
    (accumulate res x).get c = res.get c + x.get c :=
  get_foldl_add x.entries x.nodupKeys res c

/-- Keys after the accumulation loop over the members. -/
theorem mem_keys_foldl_accumulate [Zero W] [Add W]
    (classify : Tree → AttrMap → GoMap Class W)
    (f : Forest Tree) (s : AttrMap) (res : GoMap Class W) (c : Class) :
    c ∈ (f.foldl (fun res t => accumulate res (classify t s)) res).keys
      ↔ c ∈ res.keys ∨ ∃ t ∈ f, c ∈ (classify t s).keys := by
  induction f generalizing res with
  | nil => simp
  | cons t f ih =>
    rw [List.foldl_cons, ih, mem_keys_accumulate]
    simp only [List.mem_cons, exists_eq_or_imp]
    tauto

/-- Values after the accumulation loop over the members. -/
theorem get_foldl_accumulate (classify : Tree → AttrMap → GoMap Class ℚ)
    (f : Forest Tree) (s : AttrMap) (res : GoMap Class ℚ) (c : Class) :
    (f.foldl (fun res t => accumulate res (classify t s)) res).get c
      = res.get c + (f.map (fun t => (classify t s).get c)).sum := by
  induction f generalizing res with
  | nil => simp
  | cons t f ih =>
    rw [List.foldl_cons, ih, get_accumulate, List.map_cons, List.sum_cons, add_assoc]

/-- Keys after assigning scaled values for a list of entries. -/
theorem mem_keys_foldl_scale [Mul W] (l : List (Class × W)) (scaler : W)
    (m : GoMap Class W) (c : Class) :
    c ∈ (l.foldl (fun m e => m.set e.1 (e.2 * scaler)) m).keys
      ↔ c ∈ m.keys ∨ c ∈ l.map Prod.fst := by
  induction l generalizing m with
  | nil => simp
  | cons e l ih =>
    rw [List.foldl_cons, ih, GoMap.mem_keys_set]
    simp only [List.map_cons, List.mem_cons]
    tauto

/-- Values after assigning scaled values for a key-distinct list of entries. -/
theorem get?_foldl_scale [Mul W] (l : List (Class × W)) (hl : (l.map Prod.fst).Nodup)
    (scaler : W) (m : GoMap Class W) (c : Class) :
    (l.foldl (fun m e => m.set e.1 (e.2 * scaler)) m).get? c
      = if c ∈ l.map Prod.fst then
          ((l.find? (fun e => decide (e.1 = c))).map Prod.snd).map (fun v => v * scaler)
        else m.get? c := by
  induction l generalizing m with
  | nil => simp
  | cons e l ih =>
    rw [List.map_cons, List.nodup_cons] at hl
    rw [List.foldl_cons, ih hl.2, GoMap.get?_set]
    by_cases hce : c = e.1
    · subst hce
      simp [hl.1, List.find?_cons]
    · have hec : ¬ e.1 = c := fun h => hce h.symm
      by_cases hm : c ∈ l.map Prod.fst
      · have hm2 : c ∈ (e :: l).map Prod.fst := List.mem_cons_of_mem _ hm
        rw [if_neg hce, if_pos hm, if_pos hm2]
        simp only [List.find?_cons, hec, decide_False]
      · have hm2 : c ∉ (e :: l).map Prod.fst := by
          simp only [List.map_cons, List.mem_cons, not_or]
          exact ⟨hce, hm⟩
        rw [if_neg hce, if_neg hm, if_neg hm2]

theorem mem_keys_rescale [Mul W] (res : GoMap Class W) (scaler : W) (c : Class) :
    c ∈ (rescale res scaler).keys ↔ c ∈ res.keys := by
  unfold rescale
  rw [mem_keys_foldl_scale]
  exact or_iff_left_of_imp id

theorem get?_rescale [Mul W] (res : GoMap Class W) (scaler : W) (c : Class) :
    (rescale res scaler).get? c = (res.get? c).map (fun v => v * scaler) := by
  unfold rescale
  rw [get?_foldl_scale _ res.nodupKeys]
  by_cases h : c ∈ res.entries.map Prod.fst
  · simp [h, GoMap.get?]
  · have h2 : res.get? c = none := (GoMap.get?_eq_none_iff res c).2 h
    simp [h, h2]

/-- Key set of the result of `Classify`. -/
theorem mem_keys_Classify [Zero W] [One W] [Add W] [Mul W] [Div W] [NatCast W]
    (classify : Tree → AttrMap → GoMap Class W) (f : Forest Tree)
    (s : AttrMap) (c : Class) :
    c ∈ (Forest.Classify classify f s).keys ↔ ∃ t ∈ f, c ∈ (classify t s).keys := by
  unfold Forest.Classify
  simp only [mem_keys_rescale, mem_keys_foldl_accumulate]
  simp [GoMap.empty, GoMap.keys]

/-- Value of a key in the result of `Classify`. -/
theorem get?_Classify (classify : Tree → AttrMap → GoMap Class ℚ) (f : Forest Tree)
    (s : AttrMap) (c : Class) (hc : c ∈ (Forest.Classify classify f s).keys) :
    (Forest.Classify classify f s).get? c
      = some ((f.map (fun t => (classify t s).get c)).sum * (1 / (f.length : ℚ))) := by
  have hc1 : c ∈ (f.foldl (fun res t => accumulate res (classify t s)) GoMap.empty).keys := by
    unfold Forest.Classify at hc
    exact (mem_keys_rescale _ _ c).1 hc
  unfold Forest.Classify
  simp only [get?_rescale]
  rw [GoMap.get?_eq_some_get _ _ hc1, get_foldl_accumulate, GoMap.get_empty]
  simp

/-- The lookup of any class in the result of `Classify`. -/
theorem get?_Classify_eq (classify : Tree → AttrMap → GoMap Class ℚ) (f : Forest Tree)
    (s : AttrMap) (c : Class) :
    (Forest.Classify classify f s).get? c
      = if ∃ t ∈ f, c ∈ (classify t s).keys then
          some ((f.map (fun t => (classify t s).get c)).sum * (1 / (f.length : ℚ)))
        else none := by
  by_cases h : ∃ t ∈ f, c ∈ (classify t s).keys
  · rw [if_pos h]
    exact get?_Classify classify f s c ((mem_keys_Classify classify f s c).2 h)
  · rw [if_neg h, GoMap.get?_eq_none_iff, mem_keys_Classify]
    exact h

/-- The zero-default lookup of any class in the result of `Classify`. -/
theorem get_Classify (classify : Tree → AttrMap → GoMap Class ℚ) (f : Forest Tree)
    (s : AttrMap) (c : Class) :
    (Forest.Classify classify f s).get c
      = (f.map (fun t => (classify t s).get c)).sum * (1 / (f.length : ℚ)) := by
  rw [GoMap.get, get?_Classify_eq]
  by_cases h : ∃ t ∈ f, c ∈ (classify t s).keys
  · rw [if_pos h]
    rfl
  · rw [if_neg h]
    have hz : (f.map (fun t => (classify t s).get c)).sum = 0 := by
      apply List.sum_eq_zero
      intro x hx
      obtain ⟨t, ht, rfl⟩ := List.mem_map.1 hx
      exact GoMap.get_eq_zero_of_not_mem _ _ (fun hmem => h ⟨t, ht, hmem⟩)
    rw [hz]
    simp

/-- Sums over the classes and over the members can be exchanged. -/
theorem sum_map_sum_comm {A B : Type} (ks : List B) (f : List A) (w : A → B → ℚ) :
    (ks.map (fun c => (f.map (fun t => w t c)).sum)).sum
      = (f.map (fun t => (ks.map (fun c => w t c)).sum)).sum := by
  induction f with
  | nil => simp
  | cons t f ih =>
    simp only [List.map_cons, List.sum_cons]
    rw [List.sum_map_add, ih]

end ClassifyLemmas

/-! ## Lemmas on `float64` -/

namespace F64

/-- The binary exponent of a positive rational, from its two bounds. -/
theorem log_eq (q : ℚ) (e : ℤ) (h1 : (2 : ℚ) ^ e ≤ q) (h2 : q < (2 : ℚ) ^ (e + 1)) :
    Int.log 2 q = e := by
  have hq : 0 < q := lt_of_lt_of_le (by positivity) h1
  apply le_antisymm
  · have := (@Int.lt_zpow_iff_log_lt ℚ _ _ 2 (by norm_num) (e + 1) q hq).1
      (by exact_mod_cast h2)
    omega
  · exact (@Int.zpow_le_iff_le_log ℚ _ _ 2 (by norm_num) e q hq).1 (by exact_mod_cast h1)

/-- The rounding of a positive rational whose binary exponent `e` and whose number `f` of
whole units in the last place are known. -/
theorem round_eval (q : ℚ) (e : ℤ) (f : ℕ) (h1 : (2 : ℚ) ^ e ≤ q)
    (h2 : q < (2 : ℚ) ^ (e + 1))
    (hf1 : (f : ℚ) ≤ q / 2 ^ (max (e - 52) (-1074)))
    (hf2 : q / 2 ^ (max (e - 52) (-1074)) < f + 1) :
    round q =
      if 2 ^ 1024 ≤ (((if q / 2 ^ (max (e - 52) (-1074)) - f < 1 / 2 then f
          else if 1 / 2 < q / 2 ^ (max (e - 52) (-1074)) - f then f + 1
          else if f % 2 = 0 then f else f + 1 : ℕ) : ℚ)) * 2 ^ (max (e - 52) (-1074))
      then .inf false
      else .fin ((((if q / 2 ^ (max (e - 52) (-1074)) - f < 1 / 2 then f
          else if 1 / 2 < q / 2 ^ (max (e - 52) (-1074)) - f then f + 1
          else if f % 2 = 0 then f else f + 1 : ℕ) : ℚ)) * 2 ^ (max (e - 52) (-1074))) := by
  have hq : 0 < q := lt_of_lt_of_le (by positivity) h1
  have habs : |q| = q := abs_of_pos hq
  have hfl : ⌊q / 2 ^ (max (e - 52) (-1074))⌋₊ = f := by
    rw [Nat.floor_eq_iff (le_trans (Nat.cast_nonneg f) hf1)]
    exact ⟨hf1, hf2⟩
  unfold round
  simp only [habs, log_eq q e h1 h2, hfl, hq.ne', if_false, not_lt.2 hq.le, decide_False]

/-- A number `M · 2^P` with `M < 2^53` and `P ≥ -1074`, below `2^1024`, is a `float64`:
rounding leaves it unchanged. -/
theorem round_of_dyadic (M : ℕ) (P : ℤ) (hM : M < 2 ^ 53) (hP : -1074 ≤ P)
    (hlt : (M : ℚ) * 2 ^ P < 2 ^ 1024) :
    round ((M : ℚ) * 2 ^ P) = .fin ((M : ℚ) * 2 ^ P) := by
  rcases Nat.eq_zero_or_pos M with h0 | hpos
  · subst h0
    simp [round]
  · have hMq : (0 : ℚ) < M := by exact_mod_cast hpos
    have h2P : (0 : ℚ) < 2 ^ P := by positivity
    have hq : 0 < (M : ℚ) * 2 ^ P := mul_pos hMq h2P
    have he1 : ((2 : ℕ) : ℚ) ^ (Int.log 2 ((M : ℚ) * 2 ^ P)) ≤ (M : ℚ) * 2 ^ P :=
      Int.zpow_log_le_self (by norm_num) hq
    have hlog : Int.log 2 ((M : ℚ) * 2 ^ P) - 52 ≤ P := by
      have h3 : (M : ℚ) * 2 ^ P < 2 ^ (53 + P) := by
        rw [zpow_add₀ (by norm_num : (2 : ℚ) ≠ 0)]
        apply mul_lt_mul_of_pos_right _ h2P
        exact_mod_cast hM
      have h4 : (2 : ℚ) ^ (Int.log 2 ((M : ℚ) * 2 ^ P)) < 2 ^ (53 + P) :=
        lt_of_le_of_lt (by exact_mod_cast he1) h3
      have h5 := (zpow_lt_zpow_iff_right₀ (by norm_num : (1 : ℚ) < 2)).1 h4
      omega
    have hp : max (Int.log 2 ((M : ℚ) * 2 ^ P) - 52) (-1074) ≤ P := max_le hlog hP
    unfold round
    simp only [abs_of_pos hq, hq.ne', if_false]
    generalize max (Int.log 2 ((M : ℚ) * 2 ^ P) - 52) (-1074) = p at hp ⊢
    obtain ⟨d, hd⟩ : ∃ d : ℕ, P = p + d := ⟨(P - p).toNat, by omega⟩
    have h2p : (0 : ℚ) < 2 ^ p := by positivity
    have hPp : (2 : ℚ) ^ P = 2 ^ p * 2 ^ d := by
      rw [hd, zpow_add₀ (by norm_num : (2 : ℚ) ≠ 0), zpow_natCast]
    have ht : (M : ℚ) * 2 ^ P / 2 ^ p = ((M * 2 ^ d : ℕ) : ℚ) := by
      rw [div_eq_iff h2p.ne', hPp]
      push_cast
      ring
    have hres : ((M * 2 ^ d : ℕ) : ℚ) * 2 ^ p = (M : ℚ) * 2 ^ P := by
      rw [← ht]
      field_simp
    have hhalf : (0 : ℚ) < 1 / 2 := by norm_num
    simp only [ht, Nat.floor_natCast, sub_self, hhalf, if_true, hres, not_le.2 hlt,
      not_lt.2 hq.le, if_false]

/-- A natural number below `2^53` is a `float64`. -/
theorem round_natCast (n : ℕ) (hn : n < 2 ^ 53) : round (n : ℚ) = .fin n := by
  have h := round_of_dyadic n 0 hn (by norm_num) (by
    simp only [zpow_zero, mul_one]
    have : (n : ℚ) < 2 ^ 53 := by exact_mod_cast hn
    exact lt_trans this (by norm_num))
  simpa using h

theorem zero_def : (0 : F64) = .fin 0 := rfl

theorem one_def : (1 : F64) = .fin 1 := rfl

theorem fin_add_fin (a b : ℚ) : (F64.fin a) + (F64.fin b) = round (a + b) := rfl

theorem fin_mul_fin (a b : ℚ) : (F64.fin a) * (F64.fin b) = round (a * b) := rfl

theorem fin_div_fin (a b : ℚ) (hb : b ≠ 0) : (F64.fin a) / (F64.fin b) = round (a / b) := by
  show div (.fin a) (.fin b) = _
  simp [div, hb]

/-- The conversion `float64(n)` is exact below `2^53`. -/
theorem natCast_eq (n : ℕ) (hn : n < 2 ^ 53) : ((n : ℕ) : F64) = .fin n :=
  round_natCast n hn

/-- Adding a `float64` to zero gives it back. -/
theorem zero_add_valid (v : F64) (hv : v.Valid) : (0 : F64) + v = v := by
  cases v with
  | fin q =>
    rw [zero_def, fin_add_fin, zero_add]
    exact hv
  | inf s => rfl
  | nan => rfl

/-- The scaler of a forest of one member is 1. -/
theorem recip_one : (1 : F64) / ((1 : ℕ) : F64) = 1 := by
  rw [natCast_eq 1 (by norm_num), one_def, fin_div_fin _ _ (by norm_num)]
  have h := round_natCast 1 (by norm_num)
  simpa using h

/-- Multiplying a `float64` by 1 gives it back. -/
theorem mul_one_valid (v : F64) (hv : v.Valid) : v * (1 : F64) = v := by
  cases v with
  | fin q =>
    rw [one_def, fin_mul_fin, mul_one]
    exact hv
  | inf s =>
    show mul (.inf s) (.fin 1) = _
    have h : decide ((1 : ℚ) < 0) = false := by norm_num
    cases s <;> simp [mul, h]
  | nan => rfl

/-- The value `1/49` in `float64`. -/
theorem recip_49 :
    (1 : F64) / ((49 : ℕ) : F64) = .fin (5882252574524729 / 288230376151711744) := by
  rw [natCast_eq 49 (by norm_num), one_def, fin_div_fin _ _ (by norm_num),
    round_eval _ (-6) 5882252574524729 (by norm_num) (by norm_num) (by norm_num)
      (by norm_num)]
  norm_num

/-- The product of 49 and the `float64` value of `1/49` is not 1. -/
theorem mul_recip_49 :
    (F64.fin 49) * ((1 : F64) / ((49 : ℕ) : F64)) = .fin (1 - 1 / 2 ^ 53) := by
  rw [recip_49, fin_mul_fin,
    round_eval _ (-1) 9007199254740991 (by norm_num) (by norm_num) (by norm_num)
      (by norm_num)]
  norm_num

theorem round_zero : round 0 = .fin 0 := by simp [round]

theorem round_one : round 1 = .fin 1 := by
  have h := round_natCast 1 (by norm_num)
  simpa using h

theorem round_half : round (1 / 2) = .fin (1 / 2) := by
  have h := round_of_dyadic 1 (-1) (by norm_num) (by norm_num) (by norm_num)
  norm_num at h
  simpa using h

/-- Adding 1.0 for each item of a list of `k` equal items, starting from `j`, gives
`j + k`, as long as the numbers stay below `2^53`. -/
theorem foldl_replicate_add_one {α : Type} (a : α) (g : F64 → α → F64)
    (hg : ∀ acc, g acc a = acc + 1) (k j : ℕ) (h : j + k < 2 ^ 53) :
    (List.replicate k a).foldl g (.fin j) = .fin ((j + k : ℕ)) := by
  induction k generalizing j with
  | zero => simp
  | succ k ih =>
    rw [List.replicate_succ, List.foldl_cons, hg, one_def, fin_add_fin]
    have h1 : ((j : ℚ) + 1) = ((j + 1 : ℕ) : ℚ) := by push_cast; ring
    rw [h1, round_natCast (j + 1) (by omega), ih (j + 1) (by omega)]
    congr 2
    omega

/-- On `[1, 2^53)` the rounding of `F64` is the rounding `roundF64` used for the default
attribute count. -/
theorem round_eq_roundF64 (q : ℚ) (h1 : 1 ≤ q) (h2 : q < 2 ^ 53) :
    round q = .fin (roundF64 q) := by
  have hq : 0 < q := lt_of_lt_of_le one_pos h1
  have hlog : Int.log 2 q = (Nat.log 2 ⌊q⌋₊ : ℤ) := Int.log_of_one_le_right 2 h1
  have hfl : ⌊q⌋₊ < 2 ^ 53 := by
    have : (⌊q⌋₊ : ℚ) < 2 ^ 53 := lt_of_le_of_lt (Nat.floor_le hq.le) h2
    exact_mod_cast this
  have hl : Nat.log 2 ⌊q⌋₊ < 53 := by
    rcases Nat.eq_zero_or_pos ⌊q⌋₊ with h0 | hpos
    · rw [h0]
      simp
    · exact Nat.log_lt_of_lt_pow hpos.ne' hfl
  obtain ⟨d, hd⟩ : ∃ d : ℕ, d = 52 - Nat.log 2 ⌊q⌋₊ := ⟨_, rfl⟩
  have hp : max (Int.log 2 q - 52) (-1074) = -(d : ℤ) := by
    rw [hlog, hd]
    omega
  have h2d : (0 : ℚ) < 2 ^ d := by positivity
  have ht : q / 2 ^ (-(d : ℤ)) = q * 2 ^ d := by
    rw [zpow_neg, zpow_natCast, div_eq_mul_inv, inv_inv]
  have hmul : ∀ m : ℕ, (m : ℚ) * 2 ^ (-(d : ℤ)) = (m : ℚ) / 2 ^ d := by
    intro m
    rw [zpow_neg, zpow_natCast, div_eq_mul_inv]
  have hd52 : d ≤ 52 := by omega
  have hbound : ∀ m : ℕ, (m : ℚ) ≤ q * 2 ^ d + 1 → ¬ (2 : ℚ) ^ 1024 ≤ (m : ℚ) / 2 ^ d := by
    intro m hm
    rw [not_le, div_lt_iff₀ h2d]
    have h3 : q * 2 ^ d < 2 ^ 53 * 2 ^ d := mul_lt_mul_of_pos_right h2 h2d
    have h4 : (1 : ℚ) ≤ 2 ^ d := one_le_pow₀ (by norm_num)
    have h5 : (2 : ℚ) ^ 53 * 2 ^ d + 2 ^ d ≤ 2 ^ 1024 * 2 ^ d := by
      have : (2 : ℚ) ^ 53 + 1 ≤ 2 ^ 1024 := by norm_num
      nlinarith
    linarith
  have hfle : (⌊q * 2 ^ d⌋₊ : ℚ) ≤ q * 2 ^ d := Nat.floor_le (by positivity)
  unfold round roundF64
  simp only [abs_of_pos hq, hq.ne', if_false, hp, ht, ← hd, hmul, not_lt.2 hq.le]
  split_ifs
  all_goals first
    | rfl
    | exact absurd ‹(2 : ℚ) ^ 1024 ≤ _› (hbound _ (by push_cast; linarith))

/-- A non-negative number, or `+Inf` in its place, is a non-negative value. -/
theorem nonNeg_ite (x big : ℚ) (hx : 0 ≤ x) :
    (if big ≤ x then F64.inf false else F64.fin x).NonNeg := by
  split
  · exact rfl
  · exact hx

/-- Rounding a non-negative number gives a non-negative value. -/
theorem round_nonNeg (q : ℚ) (h : 0 ≤ q) : (round q).NonNeg := by
  by_cases h0 : q = 0
  · subst h0
    rw [round_zero]
    exact le_refl (0 : ℚ)
  · unfold round
    simp only [h0, if_false, not_lt.2 h, decide_False]
    exact nonNeg_ite _ _ (mul_nonneg (Nat.cast_nonneg _) (by positivity))

/-- A sum of non-negative values is non-negative. -/
theorem add_nonNeg (a b : F64) (ha : a.NonNeg) (hb : b.NonNeg) : (a + b).NonNeg := by
  cases a with
  | fin x =>
    cases b with
    | fin y => exact round_nonNeg _ (add_nonneg ha hb)
    | inf t => exact hb
    | nan => exact hb
  | inf s =>
    cases b with
    | fin y => exact ha
    | inf t =>
      have hs : s = false := ha
      have ht : t = false := hb
      subst hs ht
      exact rfl
    | nan => exact hb
  | nan => exact absurd ha id

/-- The product of a non-negative value and a positive finite one is non-negative. -/
theorem mul_nonNeg (a : F64) (r : ℚ) (ha : a.NonNeg) (hr : 0 < r) :
    (a * F64.fin r).NonNeg := by
  cases a with
  | fin x => exact round_nonNeg _ (mul_nonneg ha hr.le)
  | inf s =>
    have hs : s = false := ha
    subst hs
    show (mul (.inf false) (.fin r)).NonNeg
    simp [mul, hr.ne', NonNeg, not_lt.2 hr.le]
  | nan => exact absurd ha id

/-- In the range of the normal numbers rounding gives a finite value, between half and
twice the number rounded. -/
theorem round_normal (q : ℚ) (h1 : (2 : ℚ) ^ (-1022 : ℤ) ≤ q) (h2 : q < 2 ^ (1023 : ℤ)) :
    ∃ a : ℚ, q / 2 ≤ a ∧ a ≤ 2 * q ∧ round q = .fin a := by
  have hq : 0 < q := lt_of_lt_of_le (by positivity) h1
  have he1 : ((2 : ℕ) : ℚ) ^ (Int.log 2 q) ≤ q := Int.zpow_log_le_self (by norm_num) hq
  have he2 : q < ((2 : ℕ) : ℚ) ^ (Int.log 2 q + 1) := Int.lt_zpow_succ_log_self (by norm_num) _
  have hlo : -1022 ≤ Int.log 2 q :=
    (@Int.zpow_le_iff_le_log ℚ _ _ 2 (by norm_num) (-1022) q hq).1 (by
      rw [Nat.cast_ofNat]; exact h1)
  have hhi : Int.log 2 q < 1023 :=
    (@Int.lt_zpow_iff_log_lt ℚ _ _ 2 (by norm_num) 1023 q hq).1 (by
      rw [Nat.cast_ofNat]; exact h2)
  rw [Nat.cast_ofNat] at he1 he2
  have hp : max (Int.log 2 q - 52) (-1074) = Int.log 2 q - 52 := by omega
  have h2p : (0 : ℚ) < 2 ^ (Int.log 2 q - 52) := by positivity
  have h3 : (2 : ℚ) ^ (Int.log 2 q - 52) * 2 ^ 52 = 2 ^ (Int.log 2 q) := by
    rw [← zpow_natCast (2 : ℚ) 52, ← zpow_add₀ (by norm_num : (2 : ℚ) ≠ 0)]
    congr 1
    omega
  have hpe : (2 : ℚ) ^ (Int.log 2 q + 1) = 2 ^ (Int.log 2 q - 52) * 2 ^ 53 := by
    rw [← zpow_natCast (2 : ℚ) 53, ← zpow_add₀ (by norm_num : (2 : ℚ) ≠ 0)]
    congr 1
    omega
  have hmax : (2 : ℚ) ^ (Int.log 2 q + 1) ≤ 2 ^ (1023 : ℤ) :=
    zpow_le_zpow_right₀ (by norm_num) (by omega)
  have h15 : (2 : ℚ) ^ (1023 : ℤ) < 2 ^ 1024 := by
    rw [← zpow_natCast (2 : ℚ) 1024]
    exact zpow_lt_zpow_right₀ (by norm_num) (by norm_num)
  rw [← h3] at he1
  rw [hpe] at he2 hmax
  unfold round
  simp only [abs_of_pos hq, hq.ne', if_false, hp, not_lt.2 hq.le, decide_False]
  generalize (2 : ℚ) ^ (Int.log 2 q - 52) = u at h2p he1 he2 hmax ⊢
  generalize (2 : ℚ) ^ 1024 = big at h15 ⊢
  generalize (2 : ℚ) ^ (1023 : ℤ) = mid at h15 hmax
  have hfl : (⌊q / u⌋₊ : ℚ) ≤ q / u := Nat.floor_le (by positivity)
  have hfl2 : q / u < ⌊q / u⌋₊ + 1 := Nat.lt_floor_add_one _
  generalize ⌊q / u⌋₊ = f at hfl hfl2 ⊢
  generalize hMdef :
    (if q / u - (f : ℚ) < 1 / 2 then f else if 1 / 2 < q / u - (f : ℚ) then f + 1
      else if f % 2 = 0 then f else f + 1) = M
  have hM : M ≤ f + 1 ∧ f ≤ M := by
    rw [← hMdef]
    split_ifs <;> omega
  have h9 : q / u < 2 ^ 53 := by
    rw [div_lt_iff₀ h2p]
    linarith
  have h11 : f < 2 ^ 53 := by
    have h10 : (f : ℚ) < 2 ^ 53 := lt_of_le_of_lt hfl h9
    exact_mod_cast h10
  have hm1q : (M : ℚ) ≤ (f : ℚ) + 1 := by exact_mod_cast hM.1
  have hm2q : (f : ℚ) ≤ M := by exact_mod_cast hM.2
  have h4 : q - u < (M : ℚ) * u := by
    have : q / u - 1 < M := by linarith
    have h5 := mul_lt_mul_of_pos_right this h2p
    rw [sub_mul, div_mul_cancel₀ _ h2p.ne', one_mul] at h5
    exact h5
  have h6 : (M : ℚ) * u ≤ q + u := by
    have : (M : ℚ) ≤ q / u + 1 := by linarith
    have h5 := mul_le_mul_of_nonneg_right this h2p.le
    rw [add_mul, div_mul_cancel₀ _ h2p.ne', one_mul] at h5
    exact h5
  have h7 : u ≤ q / 2 := by linarith
  have hm3 : (M : ℚ) ≤ 2 ^ 53 := by
    have h13 : M ≤ 2 ^ 53 := by omega
    exact_mod_cast h13
  have h8 : (M : ℚ) * u ≤ u * 2 ^ 53 := by
    rw [mul_comm u]
    exact mul_le_mul_of_nonneg_right hm3 h2p.le
  have hnot : ¬ big ≤ (M : ℚ) * u := by
    rw [not_le]
    linarith
  exact ⟨(M : ℚ) * u, by linarith, by linarith, if_neg hnot⟩

/-- The scaler `1 / float64(n)` of a forest of `n` members, `1 ≤ n < 2^63`, is finite and
positive. -/
theorem recip_pos (n : ℕ) (h1 : 1 ≤ n) (h2 : n < 2 ^ 63) :
    ∃ r : ℚ, 0 < r ∧ (1 : F64) / ((n : ℕ) : F64) = .fin r := by
  have hn1 : (1 : ℚ) ≤ n := by exact_mod_cast h1
  have hn2 : (n : ℚ) < 2 ^ 63 := by exact_mod_cast h2
  have hlow : (2 : ℚ) ^ (-1022 : ℤ) ≤ 1 := zpow_le_one_of_nonpos₀ (by norm_num) (by norm_num)
  have hhigh : (2 : ℚ) ^ 63 < 2 ^ (1023 : ℤ) := by
    rw [← zpow_natCast (2 : ℚ) 63]
    exact zpow_lt_zpow_right₀ (by norm_num) (by norm_num)
  obtain ⟨a, ha1, ha2, ha3⟩ := round_normal (n : ℚ) (le_trans hlow hn1) (lt_trans hn2 hhigh)
  have hapos : 0 < a := by linarith
  have hinv1 : (2 : ℚ) ^ (-1022 : ℤ) ≤ 1 / a := by
    have h3 : a ≤ 2 ^ 64 := by linarith
    have h4 : (1 : ℚ) / 2 ^ 64 ≤ 1 / a := one_div_le_one_div_of_le hapos h3
    have h5 : (2 : ℚ) ^ (-1022 : ℤ) ≤ 2 ^ (-64 : ℤ) :=
      zpow_le_zpow_right₀ (by norm_num) (by norm_num)
    have h6 : (2 : ℚ) ^ (-64 : ℤ) = 1 / 2 ^ 64 := by
      rw [one_div, ← zpow_natCast (2 : ℚ) 64, ← zpow_neg]
      congr 1
    linarith
  have hinv2 : 1 / a < 2 ^ (1023 : ℤ) := by
    have h3 : (1 : ℚ) / a ≤ 1 / (1 / 2) := one_div_le_one_div_of_le (by norm_num) (by linarith)
    have h4 : (2 : ℚ) ^ (1 : ℤ) < 2 ^ (1023 : ℤ) :=
      zpow_lt_zpow_right₀ (by norm_num) (by norm_num)
    have h5 : (1 : ℚ) / (1 / 2) = 2 ^ (1 : ℤ) := by norm_num
    linarith
  obtain ⟨r, hr1, _, hr3⟩ := round_normal (1 / a) hinv1 hinv2
  refine ⟨r, ?_, ?_⟩
  · have : 0 < 1 / a := by positivity
    linarith
  · show div (.fin 1) (round (n : ℚ)) = _
    rw [ha3]
    simp only [div, hapos.ne', if_false]
    exact hr3

/-- A left fold of a function that keeps values non-negative ends on a non-negative
value. -/
theorem foldl_nonNeg {α : Type} (g : F64 → α → F64) (l : List α) (acc : F64)
    (hacc : acc.NonNeg) (hg : ∀ a t, t ∈ l → a.NonNeg → (g a t).NonNeg) :
    (l.foldl g acc).NonNeg := by
  induction l generalizing acc with
  | nil => exact hacc
  | cons t l ih =>
    rw [List.foldl_cons]
    exact ih _ (hg acc t (List.mem_cons_self _ _) hacc)
      (fun a t2 ht2 ha => hg a t2 (List.mem_cons_of_mem _ ht2) ha)

end F64

/-! ## Lemmas on `Forest.Classify` for any numbers -/

section ClassifyAny

variable {Tree AttrMap Class W : Type} [DecidableEq Class]

/-- Values after adding a key-distinct list of entries into `res`. -/
theorem get_foldl_add_any [Zero W] [Add W] (l : List (Class × W))
    (hl : (l.map Prod.fst).Nodup) (res : GoMap Class W) (c : Class) :
    (l.foldl (fun res e => res.set e.1 (res.get e.1 + e.2)) res).get c
      = match (l.find? (fun e => decide (e.1 = c))).map Prod.snd with
        | some v => res.get c + v
        | none => res.get c := by
  induction l generalizing res with
  | nil => simp
  | cons e l ih =>
    rw [List.map_cons, List.nodup_cons] at hl
    rw [List.foldl_cons, ih hl.2, GoMap.get_set]
    by_cases hce : c = e.1
    · subst hce
      rw [GoMap.find_eq_none_of_not_mem l _ hl.1]
      simp [List.find?_cons]
    · have hec : ¬ e.1 = c := fun h => hce h.symm
      simp [hce, hec, List.find?_cons]

theorem get_accumulate_any [Zero W] [Add W] (res x : GoMap Class W) (c : Class) :
    (accumulate res x).get c
      = match x.get? c with
        | some v => res.get c + v
        | none => res.get c :=
  get_foldl_add_any x.entries x.nodupKeys res c

/-- Values after the accumulation loop over the members. -/
theorem get_foldl_accumulate_any [Zero W] [Add W]
    (classify : Tree → AttrMap → GoMap Class W)
    (f : Forest Tree) (s : AttrMap) (res : GoMap Class W) (c : Class) :
    (f.foldl (fun res t => accumulate res (classify t s)) res).get c
      = f.foldl (fun acc t =>
          match (classify t s).get? c with
          | some v => acc + v
          | none => acc) (res.get c) := by
  induction f generalizing res with
  | nil => simp
  | cons t f ih =>
    rw [List.foldl_cons, ih, get_accumulate_any, List.foldl_cons]

/-- Value of a key in the result of `Classify`: the accumulated weight times the scaler. -/
theorem get?_Classify_any [Zero W] [One W] [Add W] [Mul W] [Div W] [NatCast W]
    (classify : Tree → AttrMap → GoMap Class W) (f : Forest Tree)
    (s : AttrMap) (c : Class) (hc : c ∈ (Forest.Classify classify f s).keys) :
    (Forest.Classify classify f s).get? c
      = some (weightSum classify f s c * (1 / (f.length : W))) := by
  have hc1 : c ∈ (f.foldl (fun res t => accumulate res (classify t s)) GoMap.empty).keys := by
    unfold Forest.Classify at hc
    exact (mem_keys_rescale _ _ c).1 hc
  unfold Forest.Classify weightSum
  simp only [get?_rescale]
  rw [GoMap.get?_eq_some_get _ _ hc1, get_foldl_accumulate_any, GoMap.get_empty]
  rfl

/-- A map whose only key is `a` has one entry. -/
theorem entries_eq_singleton (m : GoMap Class W) (a : Class) (v : W)
    (hk : ∀ c, c ∈ m.keys ↔ c = a) (hv : m.get? a = some v) : m.entries = [(a, v)] := by
  have hnd : (m.entries.map Prod.fst).Nodup := m.nodupKeys
  have hmem : ∀ c, c ∈ m.entries.map Prod.fst ↔ c = a := hk
  cases hm : m.entries with
  | nil =>
    rw [hm] at hmem
    exact absurd ((hmem a).2 rfl) (List.not_mem_nil a)
  | cons e l =>
    rw [hm] at hnd hmem
    rw [List.map_cons, List.nodup_cons] at hnd
    have he : e.1 = a := (hmem e.1).1 (List.mem_cons_self _ _)
    have hl : l = [] := by
      cases l with
      | nil => rfl
      | cons e2 l2 =>
        have h2 : e2.1 = a := (hmem e2.1).1 (by simp)
        exact absurd (by rw [he, ← h2]; simp) hnd.1
    subst hl
    have hgv : e.2 = v := by
      simp only [GoMap.get?, hm, List.find?_cons, he, decide_True, Option.map_some',
        Option.some.injEq] at hv
      exact hv
    rw [← he, ← hgv]

/-- The forest of 49 members that each predict `{class1: 1.0}`: in `float64` the value of
`class1` is `1 - 2^-53`. -/
theorem get?_Classify_replicate_49 :
    (Forest.Classify (exampleClassify : ℕ → Unit → GoMap String F64)
        (List.replicate 49 0) ()).get? "class1" = some (F64.fin (1 - 1 / 2 ^ 53)) := by
  have hk : "class1" ∈ (Forest.Classify (exampleClassify : ℕ → Unit → GoMap String F64)
      (List.replicate 49 0) ()).keys := by
    rw [mem_keys_Classify]
    exact ⟨0, by simp, by simp [exampleClassify, predA, GoMap.keys]⟩
  rw [get?_Classify_any _ _ _ _ hk]
  have hw : weightSum (exampleClassify : ℕ → Unit → GoMap String F64)
      (List.replicate 49 0) () "class1" = F64.fin 49 := by
    unfold weightSum
    have h := F64.foldl_replicate_add_one (0 : ℕ)
      (fun acc t =>
        match (exampleClassify t () : GoMap String F64).get? "class1" with
        | some v => acc + v
        | none => acc)
      (by intro acc; simp [exampleClassify, predA, GoMap.get?]) 49 0 (by norm_num)
    rw [F64.zero_def]
    simpa using h
  have hl : (((List.replicate 49 (0 : ℕ)).length : ℕ) : F64) = ((49 : ℕ) : F64) := by
    rw [List.length_replicate]
  rw [hw, hl, F64.mul_recip_49]

end ClassifyAny

section ClassifyNonNeg

variable {Tree AttrMap Class : Type} [DecidableEq Class]

/-- A value the lookup returns is the value of an entry. -/
theorem mem_entries_of_get? {W : Type} (m : GoMap Class W) (c : Class) (v : W)
    (h : m.get? c = some v) : ∃ e ∈ m.entries, e.2 = v := by
  unfold GoMap.get? at h
  cases hf : m.entries.find? (fun e => decide (e.1 = c)) with
  | none => rw [hf] at h; exact absurd h (by simp)
  | some e =>
    rw [hf] at h
    exact ⟨e, List.mem_of_find?_eq_some hf, by simpa using h⟩

/-- The accumulated weight of non-negative weights is non-negative. -/
theorem weightSum_nonNeg (classify : Tree → AttrMap → GoMap Class F64) (f : Forest Tree)
    (s : AttrMap) (c : Class)
    (hnn : ∀ t ∈ f, ∀ e ∈ (classify t s).entries, e.2.NonNeg) :
    (weightSum classify f s c).NonNeg := by
  unfold weightSum
  apply F64.foldl_nonNeg
  · exact le_refl (0 : ℚ)
  · intro a t ht ha
    cases hg : (classify t s).get? c with
    | none =>
      simp only [hg]
      exact ha
    | some v =>
      simp only [hg]
      obtain ⟨e, he, hev⟩ := mem_entries_of_get? _ _ _ hg
      have hv : v.NonNeg := by rw [← hev]; exact hnn t ht e he
      exact F64.add_nonNeg _ _ ha hv

/-- In `float64`, for a forest of at least one and fewer than `2^63` members whose
weights are non-negative, the values `Classify` returns are non-negative. -/
theorem Classify_nonNeg (classify : Tree → AttrMap → GoMap Class F64) (f : Forest Tree)
    (s : AttrMap) (hf : f ≠ []) (hlen : f.length < 2 ^ 63)
    (hnn : ∀ t ∈ f, ∀ e ∈ (classify t s).entries, e.2.NonNeg) :
    ∀ e ∈ (Forest.Classify classify f s).entries, e.2.NonNeg := by
  intro e he
  have hk : e.1 ∈ (Forest.Classify classify f s).keys := List.mem_map.2 ⟨e, he, rfl⟩
  have hg : (Forest.Classify classify f s).get? e.1 = some e.2 := by
    rw [GoMap.get?_eq_some_get _ _ hk, GoMap.get_of_mem_entries _ e he]
  rw [get?_Classify_any classify f s e.1 hk] at hg
  obtain ⟨r, hr, hrec⟩ := F64.recip_pos f.length (List.length_pos.2 hf) hlen
  rw [hrec] at hg
  rw [← Option.some.inj hg]
  exact F64.mul_nonNeg _ r (weightSum_nonNeg classify f s e.1 hnn) hr

end ClassifyNonNeg

/-! ## Lemmas on rearrangements -/

section RearrangeLemmas

variable {α : Type}

theorem Rearranges.refl (s : List α) : Rearranges s s :=
  ⟨rfl, Equiv.refl ℕ, fun _ => rfl⟩

theorem Rearranges.trans {a b c : List α} (hab : Rearranges a b) (hbc : Rearranges b c) :
    Rearranges a c := by
  obtain ⟨hl1, σ1, h1⟩ := hab
  obtain ⟨hl2, σ2, h2⟩ := hbc
  refine ⟨hl2.trans hl1, σ2.trans σ1, fun p => ?_⟩
  rw [h2 p, h1 (σ2 p)]
  rfl

/-- The index map of a rearrangement sends positions of `out` to slots of `pool`. -/
theorem Rearranges.index_lt {pool out : List α} {σ : Equiv.Perm ℕ}
    (h : ∀ p, out[p]? = pool[σ p]?) {p : ℕ} (hp : p < out.length) : σ p < pool.length := by
  by_contra hcon
  have h1 : pool[σ p]? = none := List.getElem?_eq_none (Nat.le_of_not_lt hcon)
  have h2 : out[p]? = some out[p] := List.getElem?_eq_getElem hp
  rw [h p, h1] at h2
  exact absurd h2 (by simp)

/-- Every prefix of a rearrangement of `pool` is drawn from distinct slots of `pool`. -/
theorem Rearranges.fromDistinctSlots_take {pool out : List α} (h : Rearranges pool out)
    (k : ℕ) : FromDistinctSlots pool (out.take k) := by
  obtain ⟨_, σ, hσ⟩ := h
  have hlt : ∀ p : Fin (out.take k).length, (p : ℕ) < out.length := fun p =>
    lt_of_lt_of_le p.2 (by rw [List.length_take]; exact Nat.min_le_right _ _)
  refine ⟨fun p => ⟨σ p, Rearranges.index_lt hσ (hlt p)⟩, ?_, ?_⟩
  · intro p q hpq
    have h1 : σ (p : ℕ) = σ (q : ℕ) := congrArg Fin.val hpq
    exact Fin.ext (σ.injective h1)
  · intro p
    have h1 : out[(p : ℕ)]? = some ((out.take k).get p) := by
      rw [List.getElem?_eq_getElem (hlt p), List.get_eq_getElem, List.getElem_take]
    have h2 : pool[σ (p : ℕ)]? = some (pool.get ⟨σ p, Rearranges.index_lt hσ (hlt p)⟩) := by
      rw [List.getElem?_eq_getElem (Rearranges.index_lt hσ (hlt p)), List.get_eq_getElem]
    rw [hσ, h2] at h1
    exact (Option.some.inj h1).symm

/-- A rearrangement of `pool` is a permutation of it, as a list. -/
theorem Rearranges.perm {pool out : List α} (h : Rearranges pool out) : out.Perm pool := by
  obtain ⟨hlen, σ, hσ⟩ := h
  have hlt : ∀ p : Fin pool.length, σ p < pool.length := fun p =>
    Rearranges.index_lt hσ (by rw [hlen]; exact p.2)
  let τ : Fin pool.length → Fin pool.length := fun p => ⟨σ p, hlt p⟩
  have hinj : Function.Injective τ := by
    intro p q hpq
    have h1 : σ (p : ℕ) = σ (q : ℕ) := congrArg Fin.val hpq
    exact Fin.ext (σ.injective h1)
  let e : Equiv.Perm (Fin pool.length) :=
    Equiv.ofBijective τ (Finite.injective_iff_bijective.1 hinj)
  have hout : out = List.ofFn (pool.get ∘ e) := by
    apply List.ext_get
    · rw [List.length_ofFn, hlen]
    · intro n h1 h2
      have h3 : n < pool.length := by rw [← hlen]; exact h1
      have h4 : out[n]? = some (out.get ⟨n, h1⟩) := by
        rw [List.getElem?_eq_getElem h1, List.get_eq_getElem]
      have h5 : pool[σ n]? = some (pool.get (τ ⟨n, h3⟩)) := by
        rw [List.getElem?_eq_getElem (hlt ⟨n, h3⟩), List.get_eq_getElem]
      rw [hσ, h5] at h4
      have h6 : (List.ofFn (pool.get ∘ e)).get ⟨n, h2⟩ = pool.get (τ ⟨n, h3⟩) := by
        rw [List.get_eq_getElem, List.getElem_ofFn]
        rfl
      rw [h6]
      exact (Option.some.inj h4).symm
  have hperm := Equiv.Perm.ofFn_comp_perm e pool.get
  rw [List.ofFn_get] at hperm
  rw [hout]
  exact hperm

end RearrangeLemmas

/-! ## Lemmas on the resampler -/

section ResamplerLemmas

variable {α : Type}

theorem Rand.Intn_pos (r : Rand) (n : Int) (hn : 0 < n) :
    r.Intn n = .ok (r.source r.drawn % n.toNat, ⟨r.source, r.drawn + 1⟩) := by
  simp [Rand.Intn, not_le.2 hn]

theorem Rand.Intn_nonpos (r : Rand) (n : Int) (hn : n ≤ 0) :
    r.Intn n = .error .intnInvalidArgument := by
  simp [Rand.Intn, hn]

/-- In range, the swap does not panic. -/
theorem swap_ok (s : List α) (i j : ℕ) (hi : i < s.length) (hj : j < s.length) :
    swap s i j = .ok ((s.set i s[j]).set j s[i]) := by
  simp [swap, List.getElem?_eq_getElem hi, List.getElem?_eq_getElem hj]

/-- The swapped slice holds at position `p` the old slot `Equiv.swap i j p`. -/
theorem getElem?_set_set (s : List α) (i j : ℕ) (hi : i < s.length) (hj : j < s.length)
    (p : ℕ) : ((s.set i s[j]).set j s[i])[p]? = s[Equiv.swap i j p]? := by
  rw [List.getElem?_set, List.getElem?_set, List.length_set, Equiv.swap_apply_def]
  by_cases hpj : j = p
  · subst hpj
    by_cases hij : j = i
    · subst hij
      simp [hj]
    · simp [hj, hij, List.getElem?_eq_getElem hi]
  · have hpj2 : ¬ p = j := fun h => hpj h.symm
    by_cases hpi : i = p
    · subst hpi
      simp [hpj, hi, List.getElem?_eq_getElem hj]
    · have hpi2 : ¬ p = i := fun h => hpi h.symm
      simp [hpj, hpi, hpj2, hpi2]

theorem rearranges_set_set (s : List α) (i j : ℕ) (hi : i < s.length) (hj : j < s.length) :
    Rearranges s ((s.set i s[j]).set j s[i]) :=
  ⟨by simp, Equiv.swap i j, getElem?_set_set s i j hi hj⟩

/-- The index drawn at step `i` is a slot of the slice. -/
theorem draw_lt (src len i : ℕ) (hi : i < len) :
    src % ((len : Int) - (i : Int)).toNat + i < len := by
  have h1 : ((len : Int) - (i : Int)).toNat = len - i := by omega
  rw [h1]
  have h2 : src % (len - i) < len - i := Nat.mod_lt _ (by omega)
  omega

/-- With enough slots left, the loop of the resampler ends normally, after one draw for
each iteration, on a rearrangement of the slice. -/
theorem randomizeSamples_loop_ok (todo i : ℕ) (s : List α) (r : Rand)
    (h : i + todo ≤ s.length) :
    ∃ s1, randomizeSamples.loop todo i s r = (none, s1, ⟨r.source, r.drawn + todo⟩)
      ∧ Rearranges s s1 := by
  induction todo generalizing i s r with
  | zero => exact ⟨s, rfl, Rearranges.refl s⟩
  | succ todo ih =>
    have hi : i < s.length := by omega
    have hpos : (0 : Int) < (s.length : Int) - (i : Int) := by omega
    have hj := draw_lt (r.source r.drawn) s.length i hi
    obtain ⟨s1, h1, h2⟩ := ih (i + 1)
      ((s.set i s[r.source r.drawn % ((s.length : Int) - (i : Int)).toNat + i]).set
        (r.source r.drawn % ((s.length : Int) - (i : Int)).toNat + i) s[i])
      ⟨r.source, r.drawn + 1⟩ (by simp only [List.length_set]; omega)
    refine ⟨s1, ?_, (rearranges_set_set s i _ hi hj).trans h2⟩
    rw [randomizeSamples.loop, Rand.Intn_pos r _ hpos]
    simp only [swap_ok s i _ hi hj]
    rw [h1]
    simp only [Nat.add_assoc, Nat.add_comm 1 todo]

/-- With too few slots, the loop of the resampler panics in `rand.Intn`, after one draw
for each slot from `i` on. -/
theorem randomizeSamples_loop_panic (todo i : ℕ) (s : List α) (r : Rand)
    (hi : i ≤ s.length) (h : s.length < i + todo) :
    ∃ s1, randomizeSamples.loop todo i s r
        = (some Panic.intnInvalidArgument, s1, ⟨r.source, r.drawn + (s.length - i)⟩)
      ∧ Rearranges s s1 := by
  induction todo generalizing i s r with
  | zero => omega
  | succ todo ih =>
    by_cases hlt : i < s.length
    · have hpos : (0 : Int) < (s.length : Int) - (i : Int) := by omega
      have hj := draw_lt (r.source r.drawn) s.length i hlt
      obtain ⟨s1, h1, h2⟩ := ih (i + 1)
        ((s.set i s[r.source r.drawn % ((s.length : Int) - (i : Int)).toNat + i]).set
          (r.source r.drawn % ((s.length : Int) - (i : Int)).toNat + i) s[i])
        ⟨r.source, r.drawn + 1⟩ (by simp only [List.length_set]; omega)
        (by simp only [List.length_set]; omega)
      refine ⟨s1, ?_, (rearranges_set_set s i _ hlt hj).trans h2⟩
      rw [randomizeSamples.loop, Rand.Intn_pos r _ hpos]
      simp only [swap_ok s i _ hlt hj]
      rw [h1]
      simp only [List.length_set]
      have h3 : r.drawn + 1 + (s.length - (i + 1)) = r.drawn + (s.length - i) := by omega
      rw [h3]
    · have heq : i = s.length := by omega
      refine ⟨s, ?_, Rearranges.refl s⟩
      rw [randomizeSamples.loop, Rand.Intn_nonpos r _ (by omega)]
      simp [heq]

/-- The two resamplers are the same function. -/
theorem randomizeAttrs_loop_eq (todo i : ℕ) (a : List α) (r : Rand) :
    randomizeAttrs.loop todo i a r = randomizeSamples.loop todo i a r := by
  induction todo generalizing i a r with
  | zero => rfl
  | succ todo ih =>
    rw [randomizeAttrs.loop, randomizeSamples.loop]
    cases r.Intn ((a.length : Int) - (i : Int)) with
    | error p => rfl
    | ok v =>
      obtain ⟨d, r1⟩ := v
      simp only
      cases swap a i (d + i) with
      | error p => rfl
      | ok a1 => exact ih (i + 1) a1 r1

theorem randomizeAttrs_eq (a : List α) (n : Int) (r : Rand) :
    randomizeAttrs a n r = randomizeSamples a n r :=
  randomizeAttrs_loop_eq n.toNat 0 a r

/-- For `n ≤ len(s)` the resampler returns normally after `n` draws (none for a negative
`n`), on a rearrangement of the slice. -/
theorem randomizeSamples_ok (s : List α) (n : Int) (r : Rand) (hn : n ≤ (s.length : Int)) :
    ∃ s1, randomizeSamples s n r = (none, s1, ⟨r.source, r.drawn + n.toNat⟩)
      ∧ Rearranges s s1 :=
  randomizeSamples_loop_ok n.toNat 0 s r (by omega)

/-- For `n > len(s)` the resampler panics in `rand.Intn` after `len(s)` draws. -/
theorem randomizeSamples_panic (s : List α) (n : Int) (r : Rand) (hn : (s.length : Int) < n) :
    ∃ s1, randomizeSamples s n r
        = (some Panic.intnInvalidArgument, s1, ⟨r.source, r.drawn + s.length⟩)
      ∧ Rearranges s s1 :=
  randomizeSamples_loop_panic n.toNat 0 s r (by omega) (by omega)

/-- The first `a` iterations of a longer resampling loop are the loop of `a`
iterations. -/
theorem randomizeSamples_loop_add (a b i : ℕ) (s : List α) (r : Rand) :
    randomizeSamples.loop (a + b) i s r =
      match randomizeSamples.loop a i s r with
      | (some p, s1, r1) => (some p, s1, r1)
      | (none, s1, r1) => randomizeSamples.loop b (i + a) s1 r1 := by
  induction a generalizing i s r with
  | zero => simp [randomizeSamples.loop]
  | succ a ih =>
    rw [Nat.add_right_comm, randomizeSamples.loop, randomizeSamples.loop]
    cases r.Intn ((s.length : Int) - (i : Int)) with
    | error p => rfl
    | ok v =>
      obtain ⟨d, r1⟩ := v
      simp only
      cases swap s i (d + i) with
      | error p => rfl
      | ok s1 =>
        simp only
        rw [ih (i + 1) s1 r1, Nat.add_assoc i 1 a, Nat.add_comm 1 a]

/-- One iteration of the resampling loop, in range: one draw, then one swap, which changes
no position other than `i` and the drawn index. -/
theorem randomizeSamples_loop_one (i : ℕ) (s : List α) (r : Rand) (hi : i < s.length) :
    ∃ s1, swap s i (r.source r.drawn % ((s.length : Int) - (i : Int)).toNat + i) = .ok s1 ∧
      randomizeSamples.loop 1 i s r = (none, s1, ⟨r.source, r.drawn + 1⟩) ∧
      s1.length = s.length ∧
      ∀ p, p ≠ i → p ≠ r.source r.drawn % ((s.length : Int) - (i : Int)).toNat + i →
        s1[p]? = s[p]? := by
  have hpos : (0 : Int) < (s.length : Int) - (i : Int) := by omega
  have hj := draw_lt (r.source r.drawn) s.length i hi
  refine ⟨_, swap_ok s i _ hi hj, ?_, by simp, ?_⟩
  · rw [randomizeSamples.loop, Rand.Intn_pos r _ hpos]
    simp only [swap_ok s i _ hi hj]
    rfl
  · intro p hp1 hp2
    rw [List.getElem?_set_ne (fun h => hp2 h.symm), List.getElem?_set_ne (fun h => hp1 h.symm)]

end ResamplerLemmas

/-! ## Lemmas on draw sequences -/

section DrawLemmas
variable {α : Type}

theorem drawnIndices_succ (r : Rand) (len i todo : ℕ) :
    drawnIndices r len i (todo + 1)
      = (r.source r.drawn % (len - i) + i)
        :: drawnIndices ⟨r.source, r.drawn + 1⟩ len (i + 1) todo := by
  unfold drawnIndices
  rw [List.range_succ_eq_map, List.map_cons, List.map_map]
  simp only [Nat.add_zero, List.cons.injEq, true_and]
  apply List.map_congr_left
  intro t _
  simp only [Function.comp, Nat.succ_eq_add_one]
  have h1 : r.drawn + (t + 1) = r.drawn + 1 + t := by omega
  have h2 : i + (t + 1) = i + 1 + t := by omega
  rw [h1, h2]

/-- The resampling loop applies the swaps of the indices it draws. -/
theorem randomizeSamples_loop_eq_applyDraws (todo i : ℕ) (s : List α) (r : Rand)
    (h : i + todo ≤ s.length) :
    randomizeSamples.loop todo i s r
      = (none, applyDraws s i (drawnIndices r s.length i todo),
          ⟨r.source, r.drawn + todo⟩) := by
  induction todo generalizing i s r with
  | zero => rfl
  | succ todo ih =>
    have hi : i < s.length := by omega
    have hpos : (0 : Int) < (s.length : Int) - (i : Int) := by omega
    have hj := draw_lt (r.source r.drawn) s.length i hi
    have hsub : ((s.length : Int) - (i : Int)).toNat = s.length - i := by omega
    rw [randomizeSamples.loop, Rand.Intn_pos r _ hpos, drawnIndices_succ]
    simp only [swap_ok s i _ hi hj, applyDraws, hsub]
    rw [hsub] at hj
    rw [swap_ok s i _ hi hj]
    simp only
    rw [ih (i + 1) _ ⟨r.source, r.drawn + 1⟩ (by simp only [List.length_set]; omega)]
    simp only [List.length_set, Nat.add_assoc, Nat.add_comm 1 todo]


/-- The source built from admissible draws draws them. -/
theorem drawnIndices_drawSource (len : ℕ) (js : List ℕ) (h : AdmissibleFrom len 0 js) :
    drawnIndices (drawSource js) len 0 js.length = js := by
  apply List.ext_getElem
  · simp [drawnIndices]
  · intro t h1 h2
    obtain ⟨h3, h4⟩ := h t h2
    simp only [drawnIndices, drawSource, List.getElem_map, List.getElem_range, Nat.zero_add]
    rw [List.getD_eq_getElem _ _ h2]
    rw [Nat.zero_add] at h3
    rw [Nat.mod_eq_of_lt (by omega)]
    omega

theorem admissibleFrom_cons (len i j : ℕ) (js : List ℕ) :
    AdmissibleFrom len i (j :: js) ↔ (i ≤ j ∧ j < len) ∧ AdmissibleFrom len (i + 1) js := by
  constructor
  · intro h
    refine ⟨by simpa using h 0 (by simp), ?_⟩
    intro t ht
    have h1 := h (t + 1) (by simp only [List.length_cons]; omega)
    simp only [List.getElem_cons_succ] at h1
    constructor
    · omega
    · exact h1.2
  · rintro ⟨h0, h1⟩ t ht
    cases t with
    | zero => simpa using h0
    | succ t =>
      have h2 := h1 t (by simp only [List.length_cons] at ht; omega)
      simp only [List.getElem_cons_succ]
      constructor
      · omega
      · exact h2.2

theorem applyDraws_cons_ok (s : List α) (i j : ℕ) (js : List ℕ) (hi : i < s.length)
    (hj : j < s.length) :
    applyDraws s i (j :: js) = applyDraws ((s.set i s[j]).set j s[i]) (i + 1) js := by
  rw [applyDraws, swap_ok s i j hi hj]

/-- Admissible draws leave the length of the slice unchanged. -/
theorem length_applyDraws (s : List α) (i : ℕ) (js : List ℕ)
    (hlen : i + js.length ≤ s.length) (h : AdmissibleFrom s.length i js) :
    (applyDraws s i js).length = s.length := by
  induction js generalizing s i with
  | nil => rfl
  | cons j js ih =>
    obtain ⟨⟨h1, h2⟩, h3⟩ := (admissibleFrom_cons _ _ _ _).1 h
    simp only [List.length_cons] at hlen
    rw [applyDraws_cons_ok s i j js (by omega) h2]
    rw [ih _ (i + 1) (by simp only [List.length_set]; omega)
      (by simpa only [List.length_set] using h3)]
    simp

/-- Admissible draws from step `i` on leave the positions before `i` unchanged. -/
theorem getElem?_applyDraws_lt (s : List α) (i : ℕ) (js : List ℕ)
    (hlen : i + js.length ≤ s.length) (h : AdmissibleFrom s.length i js) (p : ℕ)
    (hp : p < i) : (applyDraws s i js)[p]? = s[p]? := by
  induction js generalizing s i with
  | nil => rfl
  | cons j js ih =>
    obtain ⟨⟨h1, h2⟩, h3⟩ := (admissibleFrom_cons _ _ _ _).1 h
    simp only [List.length_cons] at hlen
    rw [applyDraws_cons_ok s i j js (by omega) h2]
    rw [ih _ (i + 1) (by simp only [List.length_set]; omega)
      (by simpa only [List.length_set] using h3) (by omega)]
    rw [List.getElem?_set_ne (by omega), List.getElem?_set_ne (by omega)]

theorem mem_drop_iff_getElem? (s : List α) (n : ℕ) (y : α) :
    y ∈ s.drop n ↔ ∃ p, n ≤ p ∧ s[p]? = some y := by
  rw [List.mem_iff_getElem?]
  constructor
  · rintro ⟨m, hm⟩
    rw [List.getElem?_drop] at hm
    exact ⟨n + m, Nat.le_add_right _ _, hm⟩
  · rintro ⟨p, hp, hy⟩
    refine ⟨p - n, ?_⟩
    rw [List.getElem?_drop]
    have : n + (p - n) = p := by omega
    rw [this]
    exact hy


/-- The prefix produced by one drawn index followed by admissible draws: the item of the
drawn slot, then what the later draws produce. -/
theorem applyDraws_cons_take (s : List α) (i j : ℕ) (js : List ℕ) (todo : ℕ)
    (hlen : i + (todo + 1) ≤ s.length) (hj : j < s.length)
    (hjs : js.length = todo) (hadm : AdmissibleFrom s.length (i + 1) js) :
    ((applyDraws s i (j :: js)).drop i).take (todo + 1)
      = s[j] :: ((applyDraws ((s.set i s[j]).set j s[i]) (i + 1) js).drop (i + 1)).take
          todo := by
  have hi : i < s.length := by omega
  rw [applyDraws_cons_ok s i j js hi hj]
  have hl1 : ((s.set i s[j]).set j s[i]).length = s.length := by simp
  have hadm1 : AdmissibleFrom ((s.set i s[j]).set j s[i]).length (i + 1) js := by
    rw [hl1]
    exact hadm
  have hlenR := length_applyDraws ((s.set i s[j]).set j s[i]) (i + 1) js
    (by rw [hl1, hjs]; omega) hadm1
  have hiR : i < (applyDraws ((s.set i s[j]).set j s[i]) (i + 1) js).length := by
    rw [hlenR, hl1]
    exact hi
  have hget := getElem?_applyDraws_lt ((s.set i s[j]).set j s[i]) (i + 1) js
    (by rw [hl1, hjs]; omega) hadm1 i (by omega)
  rw [getElem?_set_set s i j hi hj, Equiv.swap_apply_left, List.getElem?_eq_getElem hiR,
    List.getElem?_eq_getElem hj] at hget
  rw [List.drop_eq_getElem_cons hiR, List.take_succ_cons, Option.some.inj hget]

/-- For a duplicate-free slice, the admissible draw sequences of `todo` steps from step
`i` correspond one to one to the arrangements of `todo` distinct items of the slice from
position `i` on: each arrangement is produced by exactly one draw sequence. -/
theorem applyDraws_existsUnique (todo : ℕ) :
    ∀ (s : List α) (i : ℕ), s.Nodup → i + todo ≤ s.length →
    ∀ l : List α, l.length = todo → l.Nodup → (∀ x ∈ l, x ∈ s.drop i) →
    ∃! js : List ℕ, js.length = todo ∧ AdmissibleFrom s.length i js ∧
      ((applyDraws s i js).drop i).take todo = l := by
  induction todo with
  | zero =>
    intro s i _ _ l hl _ _
    refine ⟨[], ⟨rfl, fun t ht => absurd ht (Nat.not_lt_zero _), ?_⟩, ?_⟩
    · rw [List.take_zero]
      exact (List.length_eq_zero.1 hl).symm
    · rintro js ⟨h1, _, _⟩
      exact List.length_eq_zero.1 h1
  | succ todo ih =>
    intro s i hnd hlen l hl hlnd hmem
    obtain ⟨x, l1, rfl⟩ : ∃ x l1, l = x :: l1 := by
      cases l with
      | nil => simp at hl
      | cons x l1 => exact ⟨x, l1, rfl⟩
    have hl1 : l1.length = todo := by simpa using hl
    rw [List.nodup_cons] at hlnd
    obtain ⟨j, hij, hjx⟩ :=
      (mem_drop_iff_getElem? s i x).1 (hmem x (List.mem_cons_self _ _))
    obtain ⟨hjlt, hjx2⟩ := List.getElem?_eq_some.1 hjx
    have hi : i < s.length := by omega
    have hs1get : ∀ p, ((s.set i s[j]).set j s[i])[p]? = s[Equiv.swap i j p]? :=
      getElem?_set_set s i j hi hjlt
    have hs1len : ((s.set i s[j]).set j s[i]).length = s.length := by simp
    have hs1nd : ((s.set i s[j]).set j s[i]).Nodup :=
      ((rearranges_set_set s i j hi hjlt).perm.nodup_iff).2 hnd
    have hmem1 : ∀ y ∈ l1, y ∈ ((s.set i s[j]).set j s[i]).drop (i + 1) := by
      intro y hy
      obtain ⟨q, hq, hqy⟩ :=
        (mem_drop_iff_getElem? s i y).1 (hmem y (List.mem_cons_of_mem _ hy))
      have hqj : q ≠ j := by
        intro h
        subst h
        rw [hjx] at hqy
        have hxy : x = y := Option.some.inj hqy
        subst hxy
        exact hlnd.1 hy
      rw [mem_drop_iff_getElem?]
      refine ⟨Equiv.swap i j q, ?_, ?_⟩
      · by_cases hqi : q = i
        · subst hqi
          rw [Equiv.swap_apply_left]
          omega
        · rw [Equiv.swap_apply_of_ne_of_ne hqi hqj]
          omega
      · rw [hs1get, Equiv.swap_apply_self]
        exact hqy
    obtain ⟨js1, ⟨hjs1, hjs2, hjs3⟩, huniq⟩ :=
      ih ((s.set i s[j]).set j s[i]) (i + 1) hs1nd (by rw [hs1len]; omega) l1 hl1 hlnd.2
        hmem1
    rw [hs1len] at hjs2
    refine ⟨j :: js1, ⟨by simp [hjs1], ?_, ?_⟩, ?_⟩
    · exact (admissibleFrom_cons _ _ _ _).2 ⟨⟨hij, hjlt⟩, hjs2⟩
    · rw [applyDraws_cons_take s i j js1 todo hlen hjlt hjs1 hjs2, hjs3, hjx2]
    · rintro js2 ⟨h1, h2, h3⟩
      cases js2 with
      | nil => simp at h1
      | cons j2 js2 =>
        have h1b : js2.length = todo := by simpa using h1
        obtain ⟨⟨h4, h5⟩, h6⟩ := (admissibleFrom_cons _ _ _ _).1 h2
        rw [applyDraws_cons_take s i j2 js2 todo hlen h5 h1b h6] at h3
        obtain ⟨h7, h8⟩ := List.cons.inj h3
        have hjj : j2 = j := (hnd.getElem_inj_iff).1 (h7.trans hjx2.symm)
        subst hjj
        have h9 := huniq js2 ⟨h1b, by rw [hs1len]; exact h6, h8⟩
        rw [h9]


theorem admissibleDraws_iff (N : ℕ) (js : List ℕ) :
    AdmissibleDraws N js ↔ AdmissibleFrom N 0 js := by
  unfold AdmissibleDraws AdmissibleFrom
  simp only [Nat.zero_add]

/-- The chosen slots are the prefix left by the swaps of the drawn indices. -/
theorem chosenSlots_eq (N k : ℕ) (r : Rand) (hk : k ≤ N) :
    chosenSlots N k r = (applyDraws (List.range N) 0 (drawnIndices r N 0 k)).take k := by
  unfold chosenSlots randomizeSamples
  rw [Int.toNat_ofNat,
    randomizeSamples_loop_eq_applyDraws k 0 (List.range N) r (by simpa using hk),
    List.length_range]

/-- The indices any source draws are admissible. -/
theorem admissibleDraws_drawnIndices (N k : ℕ) (r : Rand) (hk : k ≤ N) :
    (drawnIndices r N 0 k).length = k ∧ AdmissibleDraws N (drawnIndices r N 0 k) := by
  refine ⟨by simp [drawnIndices], ?_⟩
  intro t ht
  have ht2 : t < k := by simpa [drawnIndices] using ht
  simp only [drawnIndices, List.getElem_map, List.getElem_range, Nat.zero_add]
  have h1 : r.source (r.drawn + t) % (N - t) < N - t := Nat.mod_lt _ (by omega)
  omega

theorem chosenSlots_drawSource (N k : ℕ) (js : List ℕ) (hk : k ≤ N) (hjs : js.length = k)
    (h : AdmissibleDraws N js) :
    chosenSlots N k (drawSource js) = (applyDraws (List.range N) 0 js).take k := by
  rw [chosenSlots_eq N k _ hk, ← hjs,
    drawnIndices_drawSource N js ((admissibleDraws_iff N js).1 h)]

/-- Whatever the source, the chosen slots are an arrangement. -/
theorem arrangement_chosenSlots (N k : ℕ) (r : Rand) (hk : k ≤ N) :
    Arrangement N k (chosenSlots N k r) := by
  obtain ⟨s1, h1, h2⟩ := randomizeSamples_ok (List.range N) (k : Int) r (by simpa using hk)
  unfold chosenSlots
  rw [h1]
  have hperm := h2.perm
  refine ⟨?_, ?_, ?_⟩
  · rw [List.length_take, h2.1, List.length_range]
    omega
  · exact ((hperm.nodup_iff).2 (List.nodup_range N)).sublist (List.take_sublist k s1)
  · intro x hx
    exact List.mem_range.1 ((hperm.mem_iff).1 (List.mem_of_mem_take hx))

/-- Each arrangement of `k` distinct slots is chosen by exactly one admissible draw
sequence. -/
theorem chosenSlots_existsUnique (N k : ℕ) (hk : k ≤ N) (l : List ℕ)
    (hl : Arrangement N k l) :
    ∃! js : List ℕ, js.length = k ∧ AdmissibleDraws N js ∧
      chosenSlots N k (drawSource js) = l := by
  obtain ⟨hl1, hl2, hl3⟩ := hl
  obtain ⟨js, ⟨h1, h2, h3⟩, huniq⟩ :=
    applyDraws_existsUnique k (List.range N) 0 (List.nodup_range N)
      (by simpa using hk) l hl1 hl2
      (by
        intro x hx
        rw [List.drop_zero]
        exact List.mem_range.2 (hl3 x hx))
  rw [List.length_range] at h2
  rw [List.drop_zero] at h3
  have h2b := (admissibleDraws_iff N js).2 h2
  refine ⟨js, ⟨h1, h2b, ?_⟩, ?_⟩
  · rw [chosenSlots_drawSource N k js hk h1 h2b]
    exact h3
  · rintro js2 ⟨h4, h5, h6⟩
    apply huniq
    refine ⟨h4, ?_, ?_⟩
    · rw [List.length_range]
      exact (admissibleDraws_iff N js2).1 h5
    · rw [List.drop_zero, ← chosenSlots_drawSource N k js2 hk h4 h5]
      exact h6


/-- The swap of items commutes with a map applied to every item. -/
theorem swap_map {β : Type} (f : α → β) (s : List α) (i j : ℕ) :
    swap (s.map f) i j = (swap s i j).map (List.map f) := by
  unfold swap
  rw [List.getElem?_map, List.getElem?_map]
  cases s[i]? with
  | none => rfl
  | some a =>
    cases s[j]? with
    | none => rfl
    | some b =>
      simp only [Option.map_some', Except.map, List.map_set]

/-- The resampler treats the items as tokens: it commutes with a map applied to every
item. -/
theorem randomizeSamples_loop_map {β : Type} (f : α → β) (todo i : ℕ) (s : List α)
    (r : Rand) :
    randomizeSamples.loop todo i (s.map f) r
      = ((randomizeSamples.loop todo i s r).1,
          (randomizeSamples.loop todo i s r).2.1.map f,
          (randomizeSamples.loop todo i s r).2.2) := by
  induction todo generalizing i s r with
  | zero => rfl
  | succ todo ih =>
    rw [randomizeSamples.loop, randomizeSamples.loop, List.length_map]
    cases r.Intn ((s.length : Int) - (i : Int)) with
    | error p => rfl
    | ok v =>
      obtain ⟨d, r1⟩ := v
      simp only
      rw [swap_map]
      cases swap s i (d + i) with
      | error p => rfl
      | ok s1 => exact ih (i + 1) s1 r1

/-- On any pool, the prefix holds the items of the chosen slots. -/
theorem prefix_eq_chosenSlots (pool : List α) (k : ℕ) (r : Rand) :
    ((randomizeSamples pool (k : Int) r).2.1.take k).map some
      = (chosenSlots pool.length k r).map (fun i => pool[i]?) := by
  have hpool : pool.map some = (List.range pool.length).map (fun i => pool[i]?) := by
    apply List.ext_getElem?
    intro n
    rw [List.getElem?_map, List.getElem?_map]
    by_cases hn : n < pool.length
    · rw [List.getElem?_range hn, List.getElem?_eq_getElem hn]
      simp [List.getElem?_eq_getElem hn]
    · rw [List.getElem?_eq_none (Nat.le_of_not_lt hn),
        List.getElem?_eq_none (by rw [List.length_range]; exact Nat.le_of_not_lt hn)]
      rfl
  have h1 := randomizeSamples_loop_map (some : α → Option α) (k : Int).toNat 0 pool r
  have h2 := randomizeSamples_loop_map (fun i => pool[i]?) (k : Int).toNat 0
    (List.range pool.length) r
  rw [hpool, h2] at h1
  have h3 := congrArg (fun x => x.2.1) h1
  simp only at h3
  unfold chosenSlots randomizeSamples
  rw [List.map_take, List.map_take, h3]

end DrawLemmas

/-! ## Lemmas on the default attribute count -/

section DefaultLemmas

/-- The default count `r` for a non-empty pool of `N` attributes: `r² - r < N ≤ r² + r`. -/
theorem defaultNAttrs_bounds (N : ℕ) (hN : 0 < N) :
    defaultNAttrs N * defaultNAttrs N < N + defaultNAttrs N ∧
    N ≤ defaultNAttrs N * defaultNAttrs N + defaultNAttrs N := by
  have h1 : Nat.sqrt (4 * N) * Nat.sqrt (4 * N) ≤ 4 * N := Nat.sqrt_le (4 * N)
  have h2 : 4 * N < (Nat.sqrt (4 * N) + 1) * (Nat.sqrt (4 * N) + 1) := Nat.lt_succ_sqrt (4 * N)
  unfold defaultNAttrs
  generalize Nat.sqrt (4 * N) = m at h1 h2
  rcases Nat.even_or_odd' m with ⟨t, ht | ht⟩
  · subst ht
    have h3 : (2 * t + 1) / 2 = t := by omega
    rw [h3]
    constructor <;> nlinarith
  · subst ht
    have h3 : (2 * t + 1 + 1) / 2 = t + 1 := by omega
    rw [h3]
    constructor <;> nlinarith

theorem defaultNAttrs_zero : defaultNAttrs 0 = 0 := by
  norm_num [defaultNAttrs]

/-- The value `sqrtF64 n` is a float64 nearest to `√n`: it is `m / 2^d` for a significand
`m` with `2^52 ≤ m ≤ 2^53` and `|m - √(n · 4^d)| < 1/2`, that is
`m² - m < n · 4^d ≤ m² + m`. -/
theorem sqrtF64_nearest (n : ℕ) (hn : 0 < n) (hn2 : n < 2 ^ 106) :
    ∃ m : ℕ, sqrtF64 n = (m : ℚ) / 2 ^ (52 - Nat.log 2 n / 2) ∧
      2 ^ 52 ≤ m ∧ m ≤ 2 ^ 53 ∧
      m * m < n * 4 ^ (52 - Nat.log 2 n / 2) + m ∧
      n * 4 ^ (52 - Nat.log 2 n / 2) ≤ m * m + m := by
  have hne : n ≠ 0 := Nat.pos_iff_ne_zero.1 hn
  have hlog : Nat.log 2 n < 106 := Nat.log_lt_of_lt_pow hne hn2
  have hlo : 2 ^ Nat.log 2 n ≤ n := Nat.pow_log_le_self 2 hne
  have hhi : n < 2 ^ (Nat.log 2 n + 1) := Nat.lt_pow_succ_log_self (by norm_num) n
  obtain ⟨e, he⟩ : ∃ e, e = Nat.log 2 n / 2 := ⟨_, rfl⟩
  have he52 : e ≤ 52 := by omega
  have h4e : 4 ^ e ≤ n := by
    have h1 : (4 : ℕ) ^ e = 2 ^ (2 * e) := by rw [pow_mul]; norm_num
    rw [h1]
    exact (Nat.pow_le_pow_right (by norm_num) (by omega)).trans hlo
  have h4e1 : n < 4 ^ (e + 1) := by
    have h1 : (4 : ℕ) ^ (e + 1) = 2 ^ (2 * (e + 1)) := by rw [pow_mul]; norm_num
    rw [h1]
    exact lt_of_lt_of_le hhi (Nat.pow_le_pow_right (by norm_num) (by omega))
  have hMlo : 4 ^ 52 ≤ n * 4 ^ (52 - e) := by
    have h1 : (4 : ℕ) ^ 52 = 4 ^ e * 4 ^ (52 - e) := by
      rw [← pow_add]
      congr 1
      omega
    rw [h1]
    exact Nat.mul_le_mul_right _ h4e
  have hMhi : n * 4 ^ (52 - e) < 4 ^ 53 := by
    have h1 : (4 : ℕ) ^ 53 = 4 ^ (e + 1) * 4 ^ (52 - e) := by
      rw [← pow_add]
      congr 1
      omega
    rw [h1]
    exact Nat.mul_lt_mul_of_pos_right h4e1 (by positivity)
  unfold sqrtF64
  simp only
  rw [← he]
  generalize n * 4 ^ (52 - e) = M at hMlo hMhi
  have hs1 : Nat.sqrt M * Nat.sqrt M ≤ M := Nat.sqrt_le M
  have hs2 : M < (Nat.sqrt M + 1) * (Nat.sqrt M + 1) := Nat.lt_succ_sqrt M
  have hs3 : 2 ^ 52 ≤ Nat.sqrt M := by
    rw [Nat.le_sqrt]
    have h1 : (2 : ℕ) ^ 52 * 2 ^ 52 = 4 ^ 52 := by norm_num
    rw [h1]
    exact hMlo
  have hs4 : Nat.sqrt M < 2 ^ 53 := by
    rw [Nat.sqrt_lt]
    have h1 : (2 : ℕ) ^ 53 * 2 ^ 53 = 4 ^ 53 := by norm_num
    rw [h1]
    exact hMhi
  by_cases hc : M ≤ Nat.sqrt M * Nat.sqrt M + Nat.sqrt M
  · rw [if_pos hc]
    refine ⟨Nat.sqrt M, rfl, hs3, hs4.le, ?_, hc⟩
    have : 0 < Nat.sqrt M := lt_of_lt_of_le (by positivity) hs3
    omega
  · rw [if_neg hc]
    refine ⟨Nat.sqrt M + 1, rfl, Nat.le_succ_of_le hs3, hs4, ?_, ?_⟩
    · have := not_le.1 hc
      nlinarith
    · nlinarith

/-- The value `roundF64 q` is a float64 nearest to `q`, for `1 ≤ q < 2^53`: it is
`m / 2^d` for a significand `m` with `2^52 ≤ m ≤ 2^53` and `|m - q · 2^d| ≤ 1/2`. -/
theorem roundF64_nearest (q : ℚ) (hq1 : 1 ≤ q) (hq2 : q < 2 ^ 53) :
    ∃ m : ℕ, roundF64 q = (m : ℚ) / 2 ^ (52 - Nat.log 2 ⌊q⌋₊) ∧
      2 ^ 52 ≤ m ∧ m ≤ 2 ^ 53 ∧
      |(m : ℚ) - q * 2 ^ (52 - Nat.log 2 ⌊q⌋₊)| ≤ 1 / 2 := by
  have hq0 : (0 : ℚ) ≤ q := by linarith
  have hfl1 : 1 ≤ ⌊q⌋₊ := Nat.le_floor (by exact_mod_cast hq1)
  have hfl2 : ⌊q⌋₊ < 2 ^ 53 := by
    rw [Nat.floor_lt hq0]
    exact_mod_cast hq2
  have hne : ⌊q⌋₊ ≠ 0 := by omega
  have hlog : Nat.log 2 ⌊q⌋₊ < 53 := Nat.log_lt_of_lt_pow hne hfl2
  have hlo : 2 ^ Nat.log 2 ⌊q⌋₊ ≤ ⌊q⌋₊ := Nat.pow_log_le_self 2 hne
  have hhi : ⌊q⌋₊ < 2 ^ (Nat.log 2 ⌊q⌋₊ + 1) := Nat.lt_pow_succ_log_self (by norm_num) _
  have hqlo : ((2 ^ Nat.log 2 ⌊q⌋₊ : ℕ) : ℚ) ≤ q :=
    le_trans (by exact_mod_cast hlo) (Nat.floor_le hq0)
  have hqhi : q < ((2 ^ (Nat.log 2 ⌊q⌋₊ + 1) : ℕ) : ℚ) := by
    have h1 : q < (⌊q⌋₊ : ℚ) + 1 := Nat.lt_floor_add_one q
    have h2 : ((⌊q⌋₊ + 1 : ℕ) : ℚ) ≤ ((2 ^ (Nat.log 2 ⌊q⌋₊ + 1) : ℕ) : ℚ) := by
      exact_mod_cast hhi
    push_cast at h2 ⊢
    linarith
  unfold roundF64
  simp only
  generalize Nat.log 2 ⌊q⌋₊ = e at hlog hqlo hqhi
  have hpos : (0 : ℚ) < 2 ^ (52 - e) := by positivity
  have htlo : (2 : ℚ) ^ 52 ≤ q * 2 ^ (52 - e) := by
    have h1 : (2 : ℚ) ^ 52 = 2 ^ e * 2 ^ (52 - e) := by
      rw [← pow_add]
      congr 1
      omega
    rw [h1]
    push_cast at hqlo
    exact mul_le_mul_of_nonneg_right hqlo hpos.le
  have hthi : q * 2 ^ (52 - e) < (2 : ℚ) ^ 53 := by
    have h1 : (2 : ℚ) ^ 53 = 2 ^ (e + 1) * 2 ^ (52 - e) := by
      rw [← pow_add]
      congr 1
      omega
    rw [h1]
    push_cast at hqhi
    exact mul_lt_mul_of_pos_right hqhi hpos
  generalize q * 2 ^ (52 - e) = t at htlo hthi
  have ht0 : (0 : ℚ) ≤ t := le_trans (by positivity) htlo
  have hf1 : ((⌊t⌋₊ : ℕ) : ℚ) ≤ t := Nat.floor_le ht0
  have hf2 : t < (⌊t⌋₊ : ℚ) + 1 := Nat.lt_floor_add_one t
  have hf3 : 2 ^ 52 ≤ ⌊t⌋₊ := Nat.le_floor (by exact_mod_cast htlo)
  have hf4 : ⌊t⌋₊ < 2 ^ 53 := by
    rw [Nat.floor_lt ht0]
    exact_mod_cast hthi
  split_ifs with c1 c2 c3
  · refine ⟨⌊t⌋₊, rfl, hf3, hf4.le, ?_⟩
    rw [abs_le]
    constructor <;> linarith
  · refine ⟨⌊t⌋₊ + 1, by push_cast; rfl, Nat.le_succ_of_le hf3, hf4, ?_⟩
    rw [abs_le]
    push_cast
    constructor <;> linarith
  · refine ⟨⌊t⌋₊, rfl, hf3, hf4.le, ?_⟩
    rw [abs_le]
    constructor <;> linarith
  · refine ⟨⌊t⌋₊ + 1, by push_cast; rfl, Nat.le_succ_of_le hf3, hf4, ?_⟩
    rw [abs_le]
    push_cast
    constructor <;> linarith

/-- The default count is a valid size: at most `N`, and at least 1 for a non-empty pool. -/
theorem defaultNAttrs_le (N : ℕ) : defaultNAttrs N ≤ N := by
  rcases Nat.eq_zero_or_pos N with h0 | hpos
  · subst h0
    rw [defaultNAttrs_zero]
  · obtain ⟨h1, _⟩ := defaultNAttrs_bounds N hpos
    generalize defaultNAttrs N = r at h1
    by_contra hcon
    have h3 : N + 1 ≤ r := by omega
    nlinarith

theorem one_le_defaultNAttrs (N : ℕ) (hN : 1 ≤ N) : 1 ≤ defaultNAttrs N := by
  obtain ⟨_, h2⟩ := defaultNAttrs_bounds N hN
  generalize defaultNAttrs N = r at h2
  rcases Nat.eq_zero_or_pos r with h0 | hpos
  · subst h0
    omega
  · exact hpos

end DefaultLemmas

/-! ## Lemmas on `BuildForest` -/

section BuildLemmas

variable {α Sample Attr Tree : Type}

theorem slicePrefix_ok (s : List α) (n : Int) (h0 : 0 ≤ n) (hn : n ≤ (s.length : Int)) :
    slicePrefix s n = .ok (s.take n.toNat) := by
  simp [slicePrefix, h0, hn]

theorem slicePrefix_error (s : List α) (n : Int) (h : n < 0 ∨ (s.length : Int) < n) :
    slicePrefix s n = .error .sliceBoundsOutOfRange := by
  have h1 : ¬ (0 ≤ n ∧ n ≤ (s.length : Int)) := by omega
  simp [slicePrefix, h1]

/-- Reading the array that was just written gives what was written. -/
theorem getD_set_self (mem : List (List α)) (a : ℕ) (x : List α) (h : a < mem.length) :
    (mem.set a x).getD a [] = x := by
  simp [List.getD_eq_getElem?_getD, List.getElem?_set_self h]

/-- A write to one array leaves the array at any other address as it was. -/
theorem getD_set_ne (mem : List (List α)) (a b : ℕ) (x : List α) (h : b ≠ a) :
    (mem.set a x).getD b [] = mem.getD b [] := by
  simp [List.getD_eq_getElem?_getD, List.getElem?_set_ne (Ne.symm h)]

/-- A state after writes through `sampleCopy` only: the caller's arrays and `attrCopy`
hold what they held. -/
theorem view_sampleCopy_written (st st1 : BuildState Sample Attr Tree) (hsep : st.Separate)
    (sc : List Sample) (r : Rand)
    (h1 : st1 = { st.writeSampleCopy sc with rand := r }) :
    st1.sampleCopy = sc ∧ st1.attrCopy = st.attrCopy ∧ st1.samples = st.samples ∧
    st1.attrs = st.attrs ∧ st1.Separate ∧ st1.rand = r ∧ st1.calls = st.calls ∧
    st1.res = st.res := by
  obtain ⟨h2, h3, h4, h5⟩ := hsep
  subst h1
  refine ⟨getD_set_self _ _ _ h2, rfl, getD_set_ne _ _ _ _ h4, rfl, ⟨?_, h3, h4, h5⟩, rfl,
    rfl, rfl⟩
  simpa [BuildState.writeSampleCopy] using h2

/-- A state after writes through both working copies: the caller's arrays hold what they
held. -/
theorem view_copies_written (st st1 : BuildState Sample Attr Tree) (hsep : st.Separate)
    (sc : List Sample) (ac : List Attr) (r : Rand) (c : List (List Sample × List Attr))
    (t : List Tree)
    (h1 : st1 = { (st.writeSampleCopy sc).writeAttrCopy ac with
      rand := r, calls := c, res := t }) :
    st1.sampleCopy = sc ∧ st1.attrCopy = ac ∧ st1.samples = st.samples ∧
    st1.attrs = st.attrs ∧ st1.Separate ∧ st1.rand = r ∧ st1.calls = c ∧ st1.res = t := by
  obtain ⟨h2, h3, h4, h5⟩ := hsep
  subst h1
  refine ⟨getD_set_self _ _ _ h2, getD_set_self _ _ _ h3, getD_set_ne _ _ _ _ h4,
    getD_set_ne _ _ _ _ h5, ⟨?_, ?_, h4, h5⟩, rfl, rfl, rfl⟩
  · simpa [BuildState.writeSampleCopy, BuildState.writeAttrCopy] using h2
  · simpa [BuildState.writeSampleCopy, BuildState.writeAttrCopy] using h3

/-- The state in which the loop of `BuildForest` starts. -/
theorem init_view (samples : List Sample) (attrs : List Attr) (rand : Rand) :
    (BuildForest.init samples attrs rand : BuildState Sample Attr Tree).sampleCopy = samples ∧
    (BuildForest.init samples attrs rand : BuildState Sample Attr Tree).attrCopy = attrs ∧
    (BuildForest.init samples attrs rand : BuildState Sample Attr Tree).samples = samples ∧
    (BuildForest.init samples attrs rand : BuildState Sample Attr Tree).attrs = attrs ∧
    (BuildForest.init samples attrs rand : BuildState Sample Attr Tree).Separate ∧
    (BuildForest.init samples attrs rand : BuildState Sample Attr Tree).rand = rand ∧
    (BuildForest.init samples attrs rand : BuildState Sample Attr Tree).calls = [] ∧
    (BuildForest.init samples attrs rand : BuildState Sample Attr Tree).res = [] :=
  ⟨rfl, rfl, rfl, rfl, ⟨by simp [BuildForest.init, makeCopy], by simp [BuildForest.init, makeCopy],
    by simp [BuildForest.init, makeCopy], by simp [BuildForest.init, makeCopy]⟩, rfl, rfl, rfl⟩

/-- The body never writes to the caller's arrays, and leaves the working copies on arrays
of their own. -/
theorem body_frame (nSamples nAttrs : Int) (g : TreeGen Sample Attr Tree)
    (st : BuildState Sample Attr Tree) (hsep : st.Separate) :
    (BuildForest.body nSamples nAttrs g st).2.samples = st.samples ∧
    (BuildForest.body nSamples nAttrs g st).2.attrs = st.attrs ∧
    (BuildForest.body nSamples nAttrs g st).2.Separate := by
  obtain ⟨h2, h3, h4, h5⟩ := hsep
  unfold BuildForest.body
  split
  · simp only [BuildState.samples, BuildState.attrs, BuildState.Separate,
      BuildState.writeSampleCopy, List.length_set]
    exact ⟨getD_set_ne _ _ _ _ h4, trivial, h2, h3, h4, h5⟩
  · split
    · simp only [BuildState.samples, BuildState.attrs, BuildState.Separate,
        BuildState.writeSampleCopy, BuildState.writeAttrCopy, List.length_set]
      exact ⟨getD_set_ne _ _ _ _ h4, getD_set_ne _ _ _ _ h5, h2, h3, h4, h5⟩
    · split
      · simp only [BuildState.samples, BuildState.attrs, BuildState.Separate,
          BuildState.writeSampleCopy, BuildState.writeAttrCopy, List.length_set]
        exact ⟨getD_set_ne _ _ _ _ h4, getD_set_ne _ _ _ _ h5, h2, h3, h4, h5⟩
      · split
        · simp only [BuildState.samples, BuildState.attrs, BuildState.Separate,
            BuildState.writeSampleCopy, BuildState.writeAttrCopy, List.length_set]
          exact ⟨getD_set_ne _ _ _ _ h4, getD_set_ne _ _ _ _ h5, h2, h3, h4, h5⟩
        · simp only [BuildState.samples, BuildState.attrs, BuildState.Separate,
            BuildState.writeSampleCopy, BuildState.writeAttrCopy, List.length_set]
          exact ⟨getD_set_ne _ _ _ _ h4, getD_set_ne _ _ _ _ h5, h2, h3, h4, h5⟩

/-- The loop never writes to the caller's arrays. -/
theorem loop_frame (nSamples nAttrs : Int) (g : TreeGen Sample Attr Tree) (todo : ℕ)
    (st : BuildState Sample Attr Tree) (hsep : st.Separate) :
    (BuildForest.loop nSamples nAttrs g todo st).2.samples = st.samples ∧
    (BuildForest.loop nSamples nAttrs g todo st).2.attrs = st.attrs ∧
    (BuildForest.loop nSamples nAttrs g todo st).2.Separate := by
  induction todo generalizing st with
  | zero => exact ⟨rfl, rfl, hsep⟩
  | succ todo ih =>
    have hb := body_frame nSamples nAttrs g st hsep
    rw [BuildForest.loop]
    split
    · rename_i p st1 heq
      rw [heq] at hb
      exact hb
    · rename_i st1 heq
      rw [heq] at hb
      have h2 := ih st1 hb.2.2
      exact ⟨h2.1.trans hb.1, h2.2.1.trans hb.2.1, h2.2.2⟩

/-- With valid sizes, the body in full: both resamplers run on the working copies as they
are, the sample resampler first, and `g` gets the two prefixes. -/
theorem body_run (nSamples nAttrs : Int) (g : TreeGen Sample Attr Tree)
    (st : BuildState Sample Attr Tree) (hsep : st.Separate)
    (hs0 : 0 ≤ nSamples) (hs : nSamples ≤ (st.sampleCopy.length : Int))
    (ha0 : 0 ≤ nAttrs) (ha : nAttrs ≤ (st.attrCopy.length : Int)) :
    ∃ st1, BuildForest.body nSamples nAttrs g st = (none, st1) ∧ st1.Separate ∧
      (st1.sampleCopy, st1.attrCopy, st1.rand)
        = resampleBuffers nSamples nAttrs (st.sampleCopy, st.attrCopy, st.rand) ∧
      st1.calls = st.calls ++
        [(st1.sampleCopy.take nSamples.toNat, st1.attrCopy.take nAttrs.toNat)] ∧
      st1.res = st.res ++
        [g (st1.sampleCopy.take nSamples.toNat) (st1.attrCopy.take nAttrs.toNat)] := by
  obtain ⟨sc, h1, h2⟩ := randomizeSamples_ok st.sampleCopy nSamples st.rand hs
  obtain ⟨ac, h3, h4⟩ := randomizeSamples_ok st.attrCopy nAttrs
    ⟨st.rand.source, st.rand.drawn + nSamples.toNat⟩ ha
  have hs2 : nSamples ≤ (sc.length : Int) := by rw [h2.1]; exact hs
  have ha2 : nAttrs ≤ (ac.length : Int) := by rw [h4.1]; exact ha
  have hv := view_copies_written st _ hsep sc ac
    ⟨st.rand.source, st.rand.drawn + nSamples.toNat + nAttrs.toNat⟩ st.calls st.res rfl
  have hac : (st.writeSampleCopy sc).attrCopy = st.attrCopy := rfl
  have hb : BuildForest.body nSamples nAttrs g st
      = (none, { (st.writeSampleCopy sc).writeAttrCopy ac with
          rand := ⟨st.rand.source, st.rand.drawn + nSamples.toNat + nAttrs.toNat⟩,
          calls := st.calls ++ [(sc.take nSamples.toNat, ac.take nAttrs.toNat)],
          res := st.res ++ [g (sc.take nSamples.toNat) (ac.take nAttrs.toNat)] }) := by
    have hsc : ((st.writeSampleCopy sc).writeAttrCopy ac).sampleCopy = sc := hv.1
    have hacc : ((st.writeSampleCopy sc).writeAttrCopy ac).attrCopy = ac := hv.2.1
    unfold BuildForest.body
    simp only [h1, hac, randomizeAttrs_eq, h3, hsc, hacc,
      slicePrefix_ok sc nSamples hs0 hs2, slicePrefix_ok ac nAttrs ha0 ha2]
  obtain ⟨v1, v2, _, _, v5, v6, v7, v8⟩ := view_copies_written st _ hsep sc ac
    ⟨st.rand.source, st.rand.drawn + nSamples.toNat + nAttrs.toNat⟩
    (st.calls ++ [(sc.take nSamples.toNat, ac.take nAttrs.toNat)])
    (st.res ++ [g (sc.take nSamples.toNat) (ac.take nAttrs.toNat)]) rfl
  refine ⟨_, hb, v5, ?_, ?_, ?_⟩
  · rw [v1, v2, v6]
    unfold resampleBuffers
    simp only [h1, randomizeAttrs_eq, h3]
  · rw [v7, v1, v2]
  · rw [v8, v1, v2]

/-- With an invalid size the body panics before `g` is called. -/
theorem body_invalid (nSamples nAttrs : Int) (g : TreeGen Sample Attr Tree)
    (st : BuildState Sample Attr Tree) (hsep : st.Separate)
    (h : nSamples < 0 ∨ (st.sampleCopy.length : Int) < nSamples ∨
      nAttrs < 0 ∨ (st.attrCopy.length : Int) < nAttrs) :
    ∃ p st1, BuildForest.body nSamples nAttrs g st = (some p, st1) ∧
      st1.calls = st.calls ∧ st1.res = st.res := by
  have hac : ∀ sc, (st.writeSampleCopy sc).attrCopy = st.attrCopy := fun _ => rfl
  by_cases hs : (st.sampleCopy.length : Int) < nSamples
  · obtain ⟨sc, h1, _⟩ := randomizeSamples_panic st.sampleCopy nSamples st.rand hs
    have hb : BuildForest.body nSamples nAttrs g st
        = (some Panic.intnInvalidArgument, { st.writeSampleCopy sc with
            rand := ⟨st.rand.source, st.rand.drawn + st.sampleCopy.length⟩ }) := by
      unfold BuildForest.body
      simp only [h1]
    exact ⟨_, _, hb, rfl, rfl⟩
  · obtain ⟨sc, h1, h2⟩ := randomizeSamples_ok st.sampleCopy nSamples st.rand (by omega)
    by_cases ha : (st.attrCopy.length : Int) < nAttrs
    · obtain ⟨ac, h3, _⟩ := randomizeSamples_panic st.attrCopy nAttrs
        ⟨st.rand.source, st.rand.drawn + nSamples.toNat⟩ ha
      have hb : BuildForest.body nSamples nAttrs g st
          = (some Panic.intnInvalidArgument, { (st.writeSampleCopy sc).writeAttrCopy ac with
              rand := ⟨st.rand.source,
                st.rand.drawn + nSamples.toNat + st.attrCopy.length⟩ }) := by
        unfold BuildForest.body
        simp only [h1, hac, randomizeAttrs_eq, h3]
      exact ⟨_, _, hb, rfl, rfl⟩
    · obtain ⟨ac, h3, h4⟩ := randomizeSamples_ok st.attrCopy nAttrs
        ⟨st.rand.source, st.rand.drawn + nSamples.toNat⟩ (by omega)
      have hv := view_copies_written st _ hsep sc ac
        ⟨st.rand.source, st.rand.drawn + nSamples.toNat + nAttrs.toNat⟩ st.calls st.res rfl
      have hsc : ((st.writeSampleCopy sc).writeAttrCopy ac).sampleCopy = sc := hv.1
      have hacc : ((st.writeSampleCopy sc).writeAttrCopy ac).attrCopy = ac := hv.2.1
      have hb : ∃ p, BuildForest.body nSamples nAttrs g st
          = (some p, { (st.writeSampleCopy sc).writeAttrCopy ac with
              rand := ⟨st.rand.source,
                st.rand.drawn + nSamples.toNat + nAttrs.toNat⟩ }) := by
        by_cases hs0 : nSamples < 0
        · refine ⟨Panic.sliceBoundsOutOfRange, ?_⟩
          unfold BuildForest.body
          simp only [h1, hac, randomizeAttrs_eq, h3, hsc,
            slicePrefix_error sc nSamples (Or.inl hs0)]
        · have ha0 : nAttrs < 0 := by omega
          have hs2 : nSamples ≤ (sc.length : Int) := by rw [h2.1]; omega
          refine ⟨Panic.sliceBoundsOutOfRange, ?_⟩
          unfold BuildForest.body
          simp only [h1, hac, randomizeAttrs_eq, h3, hsc, hacc,
            slicePrefix_ok sc nSamples (by omega) hs2,
            slicePrefix_error ac nAttrs (Or.inl ha0)]
      obtain ⟨p, hp⟩ := hb
      exact ⟨_, _, hp, rfl, rfl⟩

/-- With `nSamples > len(sampleCopy)` the body panics in the sample resampler, after one
draw for each slot of the copy and before `g` is called. -/
theorem body_oversized_samples (nSamples nAttrs : Int) (g : TreeGen Sample Attr Tree)
    (st : BuildState Sample Attr Tree) (hs : (st.sampleCopy.length : Int) < nSamples) :
    ∃ st1, BuildForest.body nSamples nAttrs g st = (some Panic.intnInvalidArgument, st1) ∧
      st1.rand = ⟨st.rand.source, st.rand.drawn + st.sampleCopy.length⟩ ∧
      st1.calls = st.calls ∧ st1.res = st.res := by
  obtain ⟨sc, h1, _⟩ := randomizeSamples_panic st.sampleCopy nSamples st.rand hs
  have hb : BuildForest.body nSamples nAttrs g st
      = (some Panic.intnInvalidArgument, { st.writeSampleCopy sc with
          rand := ⟨st.rand.source, st.rand.drawn + st.sampleCopy.length⟩ }) := by
    unfold BuildForest.body
    simp only [h1]
  exact ⟨_, hb, rfl, rfl, rfl⟩

/-- With an invalid size and at least one iteration the loop panics with no call to
`g`. -/
theorem loop_invalid (nSamples nAttrs : Int) (g : TreeGen Sample Attr Tree) (todo : ℕ)
    (st : BuildState Sample Attr Tree) (hsep : st.Separate)
    (h : nSamples < 0 ∨ (st.sampleCopy.length : Int) < nSamples ∨
      nAttrs < 0 ∨ (st.attrCopy.length : Int) < nAttrs) :
    ∃ p st1, BuildForest.loop nSamples nAttrs g (todo + 1) st = (some p, st1) ∧
      st1.calls = st.calls ∧ st1.res = st.res := by
  obtain ⟨p, st1, hb, h1, h2⟩ := body_invalid nSamples nAttrs g st hsep h
  refine ⟨p, st1, ?_, h1, h2⟩
  rw [BuildForest.loop, hb]

/-- With valid sizes, one resampling keeps the lengths of the buffers and consumes
`nSamples` draws for the samples, then `nAttrs` draws for the attributes. -/
theorem resampleBuffers_spec (nSamples nAttrs : Int) (b : List Sample × List Attr × Rand)
    (hs : nSamples ≤ (b.1.length : Int)) (ha : nAttrs ≤ (b.2.1.length : Int)) :
    Rearranges b.1 (resampleBuffers nSamples nAttrs b).1 ∧
    Rearranges b.2.1 (resampleBuffers nSamples nAttrs b).2.1 ∧
    (randomizeSamples b.1 nSamples b.2.2).2.2
      = ⟨b.2.2.source, b.2.2.drawn + nSamples.toNat⟩ ∧
    (resampleBuffers nSamples nAttrs b).2.2
      = ⟨b.2.2.source, b.2.2.drawn + nSamples.toNat + nAttrs.toNat⟩ := by
  obtain ⟨sc, h1, h2⟩ := randomizeSamples_ok b.1 nSamples b.2.2 hs
  obtain ⟨ac, h3, h4⟩ := randomizeSamples_ok b.2.1 nAttrs
    ⟨b.2.2.source, b.2.2.drawn + nSamples.toNat⟩ ha
  unfold resampleBuffers
  simp only [h1, randomizeAttrs_eq, h3]
  exact ⟨h2, h4, trivial, trivial⟩

/-- With valid sizes, `i` resamplings keep the lengths of the buffers and consume
`i * (nSamples + nAttrs)` draws. -/
theorem iterate_resampleBuffers_spec (nSamples nAttrs : Int)
    (b : List Sample × List Attr × Rand)
    (hs : nSamples ≤ (b.1.length : Int)) (ha : nAttrs ≤ (b.2.1.length : Int)) (i : ℕ) :
    ((resampleBuffers nSamples nAttrs)^[i] b).1.length = b.1.length ∧
    ((resampleBuffers nSamples nAttrs)^[i] b).2.1.length = b.2.1.length ∧
    ((resampleBuffers nSamples nAttrs)^[i] b).2.2
      = ⟨b.2.2.source, b.2.2.drawn + i * (nSamples.toNat + nAttrs.toNat)⟩ := by
  induction i with
  | zero => simp
  | succ i ih =>
    obtain ⟨h1, h2, h3⟩ := ih
    rw [Function.iterate_succ_apply']
    obtain ⟨h4, h5, _, h7⟩ := resampleBuffers_spec nSamples nAttrs
      ((resampleBuffers nSamples nAttrs)^[i] b) (by rw [h1]; exact hs) (by rw [h2]; exact ha)
    refine ⟨h4.1.trans h1, h5.1.trans h2, ?_⟩
    rw [h7, h3]
    simp only [Rand.mk.injEq, true_and]
    ring

/-- With valid sizes the loop returns normally after `todo` calls to `g`, each on prefixes
of rearrangements of the two working copies, and stores the results in call order. -/
theorem loop_ok (nSamples nAttrs : Int) (g : TreeGen Sample Attr Tree) (todo : ℕ)
    (st : BuildState Sample Attr Tree) (hsep : st.Separate)
    (hs0 : 0 ≤ nSamples) (hs : nSamples ≤ (st.sampleCopy.length : Int))
    (ha0 : 0 ≤ nAttrs) (ha : nAttrs ≤ (st.attrCopy.length : Int)) :
    ∃ st1 newCalls, BuildForest.loop nSamples nAttrs g todo st = (none, st1) ∧
      Rearranges st.sampleCopy st1.sampleCopy ∧ Rearranges st.attrCopy st1.attrCopy ∧
      st1.rand = ⟨st.rand.source, st.rand.drawn + todo * (nSamples.toNat + nAttrs.toNat)⟩ ∧
      newCalls.length = todo ∧
      st1.calls = st.calls ++ newCalls ∧
      st1.res = st.res ++ newCalls.map (fun c => g c.1 c.2) ∧
      ∀ c ∈ newCalls,
        (∃ sc, Rearranges st.sampleCopy sc ∧ c.1 = sc.take nSamples.toNat) ∧
        (∃ ac, Rearranges st.attrCopy ac ∧ c.2 = ac.take nAttrs.toNat) := by
  induction todo generalizing st with
  | zero =>
    refine ⟨st, [], rfl, Rearranges.refl _, Rearranges.refl _, ?_, rfl, ?_, ?_, ?_⟩
    · simp
    · simp
    · simp
    · intro c hc
      exact absurd hc (List.not_mem_nil c)
  | succ todo ih =>
    obtain ⟨stb, hb, hsepb, hbuf, hcalls, hres⟩ :=
      body_run nSamples nAttrs g st hsep hs0 hs ha0 ha
    obtain ⟨hr1, hr2, _, hr4⟩ := resampleBuffers_spec nSamples nAttrs
      (st.sampleCopy, st.attrCopy, st.rand) hs ha
    rw [← hbuf] at hr1 hr2 hr4
    simp only at hr1 hr2 hr4
    obtain ⟨st1, newCalls, h1, h2, h3, h4, h5, h6, h7, h8⟩ := ih stb hsepb
      (by rw [hr1.1]; exact hs) (by rw [hr2.1]; exact ha)
    refine ⟨st1, (stb.sampleCopy.take nSamples.toNat, stb.attrCopy.take nAttrs.toNat)
      :: newCalls, ?_, hr1.trans h2, hr2.trans h3, ?_, ?_, ?_, ?_, ?_⟩
    · rw [BuildForest.loop, hb]
      exact h1
    · rw [h4, hr4]
      simp only [Rand.mk.injEq, true_and]
      ring
    · simp [h5]
    · rw [h6, hcalls]
      simp
    · rw [h7, hres]
      simp
    · intro c hc
      rcases List.mem_cons.1 hc with hc1 | hc1
      · subst hc1
        exact ⟨⟨_, hr1, rfl⟩, ⟨_, hr2, rfl⟩⟩
      · obtain ⟨⟨sc1, hq1, he1⟩, ⟨ac1, hq2, he2⟩⟩ := h8 c hc1
        exact ⟨⟨sc1, hr1.trans hq1, he1⟩, ⟨ac1, hr2.trans hq2, he2⟩⟩

/-- A valid run of `BuildForest` within the allocation limit: the forest is returned, and
the trace is as described by `loop_ok` from the initial copies. -/
theorem BuildForest_ok (maxLen : ℕ) (n : Int) (samples : List Sample) (attrs : List Attr)
    (nSamples nAttrs : Int) (g : TreeGen Sample Attr Tree) (rand : Rand)
    (hn : 0 ≤ n) (hmax : n ≤ (maxLen : Int))
    (hs0 : 0 ≤ nSamples) (hs : nSamples ≤ (samples.length : Int))
    (ha0 : 0 ≤ effectiveNAttrs attrs nAttrs)
    (ha : effectiveNAttrs attrs nAttrs ≤ (attrs.length : Int)) :
    ∃ st, BuildForest maxLen n samples attrs nSamples nAttrs g rand = (.ok st.res, st) ∧
      st.rand = ⟨rand.source, rand.drawn
        + n.toNat * (nSamples.toNat + (effectiveNAttrs attrs nAttrs).toNat)⟩ ∧
      st.calls.length = n.toNat ∧
      st.res = st.calls.map (fun c => g c.1 c.2) ∧
      ∀ c ∈ st.calls,
        (∃ sc, Rearranges samples sc ∧ c.1 = sc.take nSamples.toNat) ∧
        (∃ ac, Rearranges attrs ac ∧ c.2 = ac.take (effectiveNAttrs attrs nAttrs).toNat) := by
  obtain ⟨i1, i2, _, _, i5, i6, i7, i8⟩ :=
    @init_view Sample Attr Tree samples attrs rand
  obtain ⟨st1, newCalls, h1, _, _, h4, h5, h6, h7, h8⟩ :=
    loop_ok nSamples (effectiveNAttrs attrs nAttrs) g n.toNat
      (BuildForest.init samples attrs rand) i5 hs0 (by rw [i1]; exact hs) ha0
      (by rw [i2]; exact ha)
  rw [i7, List.nil_append] at h6
  rw [i8, List.nil_append] at h7
  rw [i6] at h4
  rw [i1, i2] at h8
  have hcond : ¬ (n < 0 ∨ (maxLen : Int) < n) := by omega
  refine ⟨st1, ?_, h4, ?_, ?_, ?_⟩
  · unfold BuildForest
    simp only [hcond, if_false, h1]
  · rw [h6, h5]
  · rw [h7, h6]
  · rw [h6]
    exact h8

/-- Beyond the allocation limit, or for a negative `n`, `BuildForest` panics in
`make(Forest, n)`: nothing is drawn and `g` is not called. -/
theorem BuildForest_make_panics (maxLen : ℕ) (n : Int) (samples : List Sample)
    (attrs : List Attr) (nSamples nAttrs : Int) (g : TreeGen Sample Attr Tree) (rand : Rand)
    (h : n < 0 ∨ (maxLen : Int) < n) :
    BuildForest maxLen n samples attrs nSamples nAttrs g rand
      = (.error .makeLenOutOfRange, BuildForest.init samples attrs rand) := by
  unfold BuildForest
  simp only [h, if_true]

/-- With an invalid size a run of `BuildForest` makes no call to `g` and stores no
member, whatever `n` is. -/
theorem BuildForest_invalid_calls (maxLen : ℕ) (n : Int) (samples : List Sample)
    (attrs : List Attr)
    (nSamples nAttrs : Int) (g : TreeGen Sample Attr Tree) (rand : Rand)
    (h : nSamples < 0 ∨ (samples.length : Int) < nSamples ∨
      effectiveNAttrs attrs nAttrs < 0 ∨
      (attrs.length : Int) < effectiveNAttrs attrs nAttrs) :
    (BuildForest maxLen n samples attrs nSamples nAttrs g rand).2.calls = [] ∧
    (BuildForest maxLen n samples attrs nSamples nAttrs g rand).2.res = [] := by
  by_cases hneg : n < 0 ∨ (maxLen : Int) < n
  · rw [BuildForest_make_panics maxLen n samples attrs nSamples nAttrs g rand hneg]
    exact ⟨rfl, rfl⟩
  · rcases Nat.eq_zero_or_pos n.toNat with h0 | hpos
    · unfold BuildForest
      simp only [hneg, if_false, h0, BuildForest.loop]
      exact ⟨rfl, rfl⟩
    · obtain ⟨m, hm⟩ : ∃ m : ℕ, n.toNat = m + 1 := ⟨n.toNat - 1, by omega⟩
      obtain ⟨i1, i2, _, _, i5, _, i7, i8⟩ :=
        @init_view Sample Attr Tree samples attrs rand
      obtain ⟨p, st1, hl, h1, h2⟩ :=
        loop_invalid nSamples (effectiveNAttrs attrs nAttrs) g m
          (BuildForest.init samples attrs rand) i5 (by rw [i1, i2]; exact h)
      unfold BuildForest
      simp only [hneg, if_false, hm, hl]
      exact ⟨h1.trans i7, h2.trans i8⟩

/-- A run of `BuildForest` never writes to the caller's arrays, whether it returns or
panics: after the run they hold the items of `samples` and `attrs`, and the working
copies are on arrays of their own. -/
theorem BuildForest_frame (maxLen : ℕ) (n : Int) (samples : List Sample) (attrs : List Attr)
    (nSamples nAttrs : Int) (g : TreeGen Sample Attr Tree) (rand : Rand) :
    (BuildForest maxLen n samples attrs nSamples nAttrs g rand).2.samples = samples ∧
    (BuildForest maxLen n samples attrs nSamples nAttrs g rand).2.attrs = attrs ∧
    (BuildForest maxLen n samples attrs nSamples nAttrs g rand).2.Separate := by
  obtain ⟨_, _, i3, i4, i5, _⟩ := @init_view Sample Attr Tree samples attrs rand
  have hl := loop_frame nSamples (effectiveNAttrs attrs nAttrs) g n.toNat
    (BuildForest.init samples attrs rand) i5
  rw [i3, i4] at hl
  unfold BuildForest
  simp only
  split
  · exact ⟨i3, i4, i5⟩
  · split
    · rename_i p st heq
      rw [heq] at hl
      exact hl
    · rename_i st heq
      rw [heq] at hl
      exact hl

/-- In every run of `BuildForest`, each call to `g` gets `nSamples` samples and the
effective `nAttrs` attributes. -/
theorem BuildForest_calls_lengths (maxLen : ℕ) (n : Int) (samples : List Sample)
    (attrs : List Attr)
    (nSamples nAttrs : Int) (g : TreeGen Sample Attr Tree) (rand : Rand) :
    ∀ c ∈ (BuildForest maxLen n samples attrs nSamples nAttrs g rand).2.calls,
      (c.1.length : Int) = nSamples ∧
      (c.2.length : Int) = effectiveNAttrs attrs nAttrs := by
  by_cases hvalid : (0 ≤ nSamples ∧ nSamples ≤ (samples.length : Int)) ∧
      (0 ≤ effectiveNAttrs attrs nAttrs ∧
        effectiveNAttrs attrs nAttrs ≤ (attrs.length : Int))
  · obtain ⟨⟨hs0, hs⟩, ha0, ha⟩ := hvalid
    by_cases hn : 0 ≤ n ∧ n ≤ (maxLen : Int)
    · obtain ⟨st, h1, _, _, _, h5⟩ :=
        BuildForest_ok maxLen n samples attrs nSamples nAttrs g rand hn.1 hn.2 hs0 hs ha0 ha
      rw [h1]
      intro c hc
      obtain ⟨⟨sc, hsc, he1⟩, ⟨ac, hac, he2⟩⟩ := h5 c hc
      constructor
      · rw [he1, List.length_take, hsc.1]
        omega
      · rw [he2, List.length_take, hac.1]
        omega
    · have hneg : n < 0 ∨ (maxLen : Int) < n := by omega
      rw [BuildForest_make_panics maxLen n samples attrs nSamples nAttrs g rand hneg]
      intro c hc
      exact absurd hc (List.not_mem_nil c)
  · have hinv : nSamples < 0 ∨ (samples.length : Int) < nSamples ∨
        effectiveNAttrs attrs nAttrs < 0 ∨
        (attrs.length : Int) < effectiveNAttrs attrs nAttrs := by omega
    rw [(BuildForest_invalid_calls maxLen n samples attrs nSamples nAttrs g rand hinv).1]
    intro c hc
    exact absurd hc (List.not_mem_nil c)

/-- The first `a` iterations of a longer loop are the loop of `a` iterations. -/
theorem BuildForest_loop_add (nSamples nAttrs : Int) (g : TreeGen Sample Attr Tree)
    (a b : ℕ) (st : BuildState Sample Attr Tree) :
    BuildForest.loop nSamples nAttrs g (a + b) st =
      match BuildForest.loop nSamples nAttrs g a st with
      | (some p, st1) => (some p, st1)
      | (none, st1) => BuildForest.loop nSamples nAttrs g b st1 := by
  induction a generalizing st with
  | zero => simp [BuildForest.loop]
  | succ a ih =>
    rw [Nat.add_right_comm, BuildForest.loop, BuildForest.loop]
    rcases hb : BuildForest.body nSamples nAttrs g st with ⟨p, st1⟩
    cases p with
    | some p => rfl
    | none => exact ih st1

/-- With valid sizes the loop of `BuildForest` carries the buffers forward: after `m`
iterations the working copies and the random source are the `m`-fold resampling of those
it started from, and the calls to `g` got the prefixes of the successive buffers. -/
theorem loop_carried (nSamples nAttrs : Int) (g : TreeGen Sample Attr Tree) (m : ℕ)
    (st : BuildState Sample Attr Tree) (hsep : st.Separate)
    (hs0 : 0 ≤ nSamples) (hs : nSamples ≤ (st.sampleCopy.length : Int))
    (ha0 : 0 ≤ nAttrs) (ha : nAttrs ≤ (st.attrCopy.length : Int)) :
    ∃ st1, BuildForest.loop nSamples nAttrs g m st = (none, st1) ∧
      (st1.sampleCopy, st1.attrCopy, st1.rand)
        = (resampleBuffers nSamples nAttrs)^[m] (st.sampleCopy, st.attrCopy, st.rand) ∧
      st1.calls = st.calls ++ (List.range m).map (fun i =>
        (((resampleBuffers nSamples nAttrs)^[i + 1]
            (st.sampleCopy, st.attrCopy, st.rand)).1.take nSamples.toNat,
          ((resampleBuffers nSamples nAttrs)^[i + 1]
            (st.sampleCopy, st.attrCopy, st.rand)).2.1.take nAttrs.toNat)) := by
  induction m generalizing st with
  | zero => exact ⟨st, rfl, rfl, by simp⟩
  | succ m ih =>
    obtain ⟨stb, hb, hsepb, hbuf, hcalls, _⟩ :=
      body_run nSamples nAttrs g st hsep hs0 hs ha0 ha
    obtain ⟨h4, h5, _, _⟩ := resampleBuffers_spec nSamples nAttrs
      (st.sampleCopy, st.attrCopy, st.rand) hs ha
    have hb1 : stb.sampleCopy
        = (resampleBuffers nSamples nAttrs (st.sampleCopy, st.attrCopy, st.rand)).1 :=
      congrArg Prod.fst hbuf
    have hb2 : stb.attrCopy
        = (resampleBuffers nSamples nAttrs (st.sampleCopy, st.attrCopy, st.rand)).2.1 :=
      congrArg (fun b => b.2.1) hbuf
    obtain ⟨st1, h1, h2, h3⟩ := ih stb hsepb
      (by rw [hb1, h4.1]; exact hs) (by rw [hb2, h5.1]; exact ha)
    refine ⟨st1, ?_, ?_, ?_⟩
    · rw [BuildForest.loop, hb]
      exact h1
    · rw [h2, hbuf]
      rfl
    · rw [h3, hcalls, hbuf, hb1, hb2, List.range_succ_eq_map, List.map_cons, List.map_map,
        List.append_assoc]
      rfl

/-- For `n` from 0 to the allocation limit the final memory of `BuildForest` is the state
after `n` iterations. -/
theorem BuildForest_state (maxLen : ℕ) (n : Int) (samples : List Sample)
    (attrs : List Attr)
    (nSamples nAttrs : Int) (g : TreeGen Sample Attr Tree) (rand : Rand) (hn : 0 ≤ n)
    (hmax : n ≤ (maxLen : Int)) :
    (BuildForest maxLen n samples attrs nSamples nAttrs g rand).2
      = BuildForest.stateAfter samples attrs nSamples nAttrs g rand n.toNat := by
  have hcond : ¬ (n < 0 ∨ (maxLen : Int) < n) := by omega
  unfold BuildForest BuildForest.stateAfter
  simp only [hcond, if_false]
  split <;> rename_i heq <;> rw [heq]

/-- With valid sizes the state after `i` iterations holds the carried buffers, and its
calls are the prefixes of the buffers carried so far. -/
theorem stateAfter_carried (samples : List Sample) (attrs : List Attr)
    (nSamples nAttrs : Int) (g : TreeGen Sample Attr Tree) (rand : Rand)
    (hs0 : 0 ≤ nSamples) (hs : nSamples ≤ (samples.length : Int))
    (ha0 : 0 ≤ effectiveNAttrs attrs nAttrs)
    (ha : effectiveNAttrs attrs nAttrs ≤ (attrs.length : Int)) (i : ℕ) :
    ((BuildForest.stateAfter samples attrs nSamples nAttrs g rand i).sampleCopy,
      (BuildForest.stateAfter samples attrs nSamples nAttrs g rand i).attrCopy,
      (BuildForest.stateAfter samples attrs nSamples nAttrs g rand i).rand)
      = carriedBuffers nSamples (effectiveNAttrs attrs nAttrs) samples attrs rand i ∧
    (BuildForest.stateAfter samples attrs nSamples nAttrs g rand i).calls
      = (List.range i).map (fun k =>
        ((carriedBuffers nSamples (effectiveNAttrs attrs nAttrs) samples attrs rand
            (k + 1)).1.take nSamples.toNat,
          (carriedBuffers nSamples (effectiveNAttrs attrs nAttrs) samples attrs rand
            (k + 1)).2.1.take (effectiveNAttrs attrs nAttrs).toNat)) := by
  obtain ⟨i1, i2, _, _, i5, i6, i7, _⟩ := @init_view Sample Attr Tree samples attrs rand
  obtain ⟨st1, h1, h2, h3⟩ := loop_carried nSamples (effectiveNAttrs attrs nAttrs) g i
    (BuildForest.init samples attrs rand) i5 hs0 (by rw [i1]; exact hs) ha0
    (by rw [i2]; exact ha)
  rw [i1, i2, i6] at h2
  rw [i1, i2, i6, i7, List.nil_append] at h3
  unfold BuildForest.stateAfter carriedBuffers
  rw [h1]
  exact ⟨h2, h3⟩

end BuildLemmas

/-! ## The claims -/

section Claims

/-- C1 fails in `float64`: for 49 members that each predict `{class1: 1.0}` the value of
`class1` is `1 - 2^-53` (0.9999999999999999), while the sum of the members' weights
divided by the number of members is 1. -/
theorem Classify_mean_rounded :
    (Forest.Classify (exampleClassify : ℕ → Unit → GoMap String F64)
        (List.replicate 49 0) ()).get? "class1" = some (F64.fin (1 - 1 / 2 ^ 53)) ∧
    ((List.replicate 49 0).map
        (fun t => (exampleClassify t () : GoMap String ℚ).get "class1")).sum
      / ((List.replicate 49 0).length : ℚ) = 1 ∧
    F64.fin (1 - 1 / 2 ^ 53) ≠ F64.fin 1 := by
  refine ⟨?_, ?_, ?_⟩
  · exact get?_Classify_replicate_49
  · have h1 : (exampleClassify 0 () : GoMap String ℚ).get "class1" = 1 := by
      simp [exampleClassify, predA, GoMap.get, GoMap.get?]
    rw [List.map_replicate, List.sum_replicate, List.length_replicate, h1]
    norm_num
  · intro h
    rw [F64.fin.injEq] at h
    norm_num at h

/-- C1, as the code behaves: for a forest of at least one member, the key set of the
mapping returned by `Forest.Classify` is exactly the union of the key sets of the
members' outputs (a class no member predicts is absent, a class predicted with weight 0
is present).  In `float64` the value at each key is the accumulated weight, that is the
members' weights for it added in forest order with rounded additions, times the rounded
`1 / n`; with weights taken as exact numbers it is the sum of the members' weights (0 for
a member that omits it) divided by the number of members. -/
theorem Classify_keys_union_values_mean {Tree AttrMap Class : Type} [DecidableEq Class]
    (classify : Tree → AttrMap → GoMap Class F64) (exact : Tree → AttrMap → GoMap Class ℚ)
    (f : Forest Tree) (s : AttrMap) (hf : f ≠ []) :
    ((∀ c, c ∈ (Forest.Classify classify f s).keys ↔ ∃ t ∈ f, c ∈ (classify t s).keys) ∧
      (∀ c, (∀ t ∈ f, c ∉ (classify t s).keys) →
        (Forest.Classify classify f s).get? c = none) ∧
      (∀ c, c ∈ (Forest.Classify classify f s).keys →
        (Forest.Classify classify f s).get? c
          = some (weightSum classify f s c * (1 / (f.length : F64))))) ∧
    ((∀ c, c ∈ (Forest.Classify exact f s).keys ↔ ∃ t ∈ f, c ∈ (exact t s).keys) ∧
      (∀ c, (∀ t ∈ f, c ∉ (exact t s).keys) → (Forest.Classify exact f s).get? c = none) ∧
      (∀ c, c ∈ (Forest.Classify exact f s).keys →
        (Forest.Classify exact f s).get? c
          = some ((f.map (fun t => (exact t s).get c)).sum / (f.length : ℚ)))) := by
  have hlen : 0 < f.length := List.length_pos.2 hf
  refine ⟨⟨mem_keys_Classify classify f s, ?_, ?_⟩, mem_keys_Classify exact f s, ?_, ?_⟩
  · intro c hc
    rw [GoMap.get?_eq_none_iff, mem_keys_Classify]
    rintro ⟨t, ht, hmem⟩
    exact hc t ht hmem
  · intro c hc
    exact get?_Classify_any classify f s c hc
  · intro c hc
    rw [GoMap.get?_eq_none_iff, mem_keys_Classify]
    rintro ⟨t, ht, hmem⟩
    exact hc t ht hmem
  · intro c hc
    rw [get?_Classify exact f s c hc, mul_one_div]

/-- C1 as the code behaves, at the forest of the two members predicting `{class1: 1.0}`
and `{class1: 0.0, class2: 1.0}`: the result is `{class1: 0.5, class2: 0.5}`, in
`float64` and in exact numbers. -/
theorem Classify_two_members :
    ([0, 1] : Forest ℕ) ≠ [] ∧
    (∀ c, c ∈ (Forest.Classify (exampleClassify : ℕ → Unit → GoMap String F64)
        [0, 1] ()).keys ↔ c = "class1" ∨ c = "class2") ∧
    (Forest.Classify (exampleClassify : ℕ → Unit → GoMap String F64) [0, 1] ()).get? "class1"
      = some (F64.fin (1 / 2)) ∧
    (Forest.Classify (exampleClassify : ℕ → Unit → GoMap String F64) [0, 1] ()).get? "class2"
      = some (F64.fin (1 / 2)) ∧
    (Forest.Classify (exampleClassify : ℕ → Unit → GoMap String ℚ) [0, 1] ()).get? "class1"
      = some (1 / 2) ∧
    (Forest.Classify (exampleClassify : ℕ → Unit → GoMap String ℚ) [0, 1] ()).get? "class2"
      = some (1 / 2) := by
  have h := Classify_keys_union_values_mean
    (exampleClassify : ℕ → Unit → GoMap String F64)
    (exampleClassify : ℕ → Unit → GoMap String ℚ) [0, 1] () (by simp)
  have hk : ∀ c, c ∈ (Forest.Classify (exampleClassify : ℕ → Unit → GoMap String F64)
      [0, 1] ()).keys ↔ c = "class1" ∨ c = "class2" := by
    intro c
    rw [h.1.1 c]
    simp only [exampleClassify, predA, predB, GoMap.keys, List.mem_cons, List.mem_singleton,
      List.map_cons, List.map_nil, exists_eq_or_imp, exists_eq_left, List.not_mem_nil,
      or_false, if_true, one_ne_zero, if_false]
    tauto
  have hkq : ∀ c, c ∈ (Forest.Classify (exampleClassify : ℕ → Unit → GoMap String ℚ)
      [0, 1] ()).keys ↔ c = "class1" ∨ c = "class2" := by
    intro c
    rw [h.2.1 c]
    simp only [exampleClassify, predA, predB, GoMap.keys, List.mem_cons, List.mem_singleton,
      List.map_cons, List.map_nil, exists_eq_or_imp, exists_eq_left, List.not_mem_nil,
      or_false, if_true, one_ne_zero, if_false]
    tauto
  have hl : ((([0, 1] : Forest ℕ).length : ℕ) : F64) = F64.fin 2 :=
    F64.natCast_eq 2 (by norm_num)
  have hs : (1 : F64) / F64.fin 2 = F64.fin (1 / 2) := by
    rw [F64.one_def, F64.fin_div_fin _ _ (by norm_num), F64.round_half]
  have hm : F64.fin 1 * F64.fin (1 / 2) = F64.fin (1 / 2) := by
    rw [F64.fin_mul_fin, one_mul, F64.round_half]
  refine ⟨by simp, hk, ?_, ?_, ?_, ?_⟩
  · rw [h.1.2.2 "class1" ((hk _).2 (Or.inl rfl)), hl, hs]
    have hw : weightSum (exampleClassify : ℕ → Unit → GoMap String F64) [0, 1] () "class1"
        = F64.fin 1 := by
      simp [weightSum, exampleClassify, predA, predB, GoMap.get?, F64.zero_def, F64.one_def,
        F64.fin_add_fin, F64.round_one]
    rw [hw, hm]
  · rw [h.1.2.2 "class2" ((hk _).2 (Or.inr rfl)), hl, hs]
    have hw : weightSum (exampleClassify : ℕ → Unit → GoMap String F64) [0, 1] () "class2"
        = F64.fin 1 := by
      simp [weightSum, exampleClassify, predA, predB, GoMap.get?, F64.zero_def, F64.one_def,
        F64.fin_add_fin, F64.round_one]
    rw [hw, hm]
  · rw [h.2.2.2 "class1" ((hkq _).2 (Or.inl rfl))]
    simp [exampleClassify, predA, predB, GoMap.get, GoMap.get?]
  · rw [h.2.2.2 "class2" ((hkq _).2 (Or.inr rfl))]
    simp [exampleClassify, predA, predB, GoMap.get, GoMap.get?]

/-- C2: for a pool of length `N`, a count `k` with `0 ≤ k ≤ N` and any random source, the
resampler (`randomizeSamples`, and likewise `randomizeAttrs`) returns normally, the chosen
prefix has exactly `k` elements, and an injective map sends the positions of the prefix to
slots of the original pool holding the same items: no slot is chosen twice. -/
theorem resampler_prefix_from_distinct_slots {α : Type} (pool : List α) (k : Int) (r : Rand)
    (h0 : 0 ≤ k) (hk : k ≤ (pool.length : Int)) :
    ((randomizeSamples pool k r).1 = none ∧
      (((randomizeSamples pool k r).2.1.take k.toNat).length : Int) = k ∧
      ∃ f : Fin ((randomizeSamples pool k r).2.1.take k.toNat).length → Fin pool.length,
        Function.Injective f ∧
        ∀ p, ((randomizeSamples pool k r).2.1.take k.toNat).get p = pool.get (f p)) ∧
    ((randomizeAttrs pool k r).1 = none ∧
      (((randomizeAttrs pool k r).2.1.take k.toNat).length : Int) = k ∧
      ∃ f : Fin ((randomizeAttrs pool k r).2.1.take k.toNat).length → Fin pool.length,
        Function.Injective f ∧
        ∀ p, ((randomizeAttrs pool k r).2.1.take k.toNat).get p = pool.get (f p)) := by
  obtain ⟨s1, h1, h2⟩ := randomizeSamples_ok pool k r hk
  have hlen : ((s1.take k.toNat).length : Int) = k := by
    rw [List.length_take, h2.1]
    omega
  have key : (randomizeSamples pool k r).1 = none ∧
      (((randomizeSamples pool k r).2.1.take k.toNat).length : Int) = k ∧
      ∃ f : Fin ((randomizeSamples pool k r).2.1.take k.toNat).length → Fin pool.length,
        Function.Injective f ∧
        ∀ p, ((randomizeSamples pool k r).2.1.take k.toNat).get p = pool.get (f p) := by
    rw [h1]
    exact ⟨rfl, hlen, h2.fromDistinctSlots_take k.toNat⟩
  refine ⟨key, ?_⟩
  rw [randomizeAttrs_eq]
  exact key

/-- C2, at the pool `[10, 20, 30, 40]` with `k = 2` and draws 3 and 1: the prefix is
`[40, 30]`, taken from slots 3 and 2. -/
theorem resampler_prefix_example :
    (0 : Int) ≤ 2 ∧ (2 : Int) ≤ (examplePool.length : Int) ∧
    (randomizeSamples examplePool 2 exampleRand).2.1.take 2 = [40, 30] ∧
    ∃ f : Fin ((randomizeSamples examplePool 2 exampleRand).2.1.take 2).length
        → Fin examplePool.length,
      Function.Injective f ∧
      ∀ p, ((randomizeSamples examplePool 2 exampleRand).2.1.take 2).get p
        = examplePool.get (f p) :=
  ⟨by decide, by decide, by decide,
    (resampler_prefix_from_distinct_slots examplePool 2 exampleRand
      (by decide) (by decide)).1.2.2⟩

/-- C3: for a pool of length `N` and a count `k` with `0 ≤ k ≤ N`, the pool after
resampling is a permutation of the pool before it, of the same length; for `k = N` the
chosen prefix is a permutation of the entire pool. -/
theorem resampler_permutes_pool {α : Type} (pool : List α) (k : Int) (r : Rand)
    (_h0 : 0 ≤ k) (hk : k ≤ (pool.length : Int)) :
    (randomizeSamples pool k r).1 = none ∧
    (randomizeSamples pool k r).2.1.Perm pool ∧
    (randomizeSamples pool k r).2.1.length = pool.length ∧
    (k = (pool.length : Int) → ((randomizeSamples pool k r).2.1.take k.toNat).Perm pool) := by
  obtain ⟨s1, h1, h2⟩ := randomizeSamples_ok pool k r hk
  rw [h1]
  refine ⟨rfl, h2.perm, h2.1, ?_⟩
  intro hkN
  have h3 : k.toNat = s1.length := by
    rw [h2.1]
    omega
  simp only [h3, List.take_length]
  exact h2.perm

/-- C3, at the pool `[10, 20, 30, 40]` with `k = 4` and draws 3, 1, 0, 0 (raw values
3, 1, 4, 1): the pool becomes `[40, 30, 20, 10]`. -/
theorem resampler_permutes_example :
    (0 : Int) ≤ 4 ∧ (4 : Int) ≤ (examplePool.length : Int) ∧
    (randomizeSamples examplePool 4 exampleRand).2.1 = [40, 30, 20, 10] ∧
    (randomizeSamples examplePool 4 exampleRand).2.1.Perm examplePool ∧
    ((randomizeSamples examplePool 4 exampleRand).2.1.take 4).Perm examplePool :=
  ⟨by decide, by decide, by decide,
    (resampler_permutes_pool examplePool 4 exampleRand (by decide) (by decide)).2.1,
    (resampler_permutes_pool examplePool 4 exampleRand (by decide) (by decide)).2.2.2
      (by decide)⟩

/-- C4 fails beyond the allocation limit: with valid sizes and `n = 2^62` on a 64-bit
runtime, `make(Forest, n)` panics; no forest is returned and the training function is not
called. -/
theorem BuildForest_huge_n_returns_no_forest :
    ((0 : Int) ≤ 2 ^ 62 ∧ (0 : Int) ≤ 2 ∧ (2 : Int) ≤ (examplePool.length : Int) ∧
      0 ≤ effectiveNAttrs exampleAttrs 2 ∧
      effectiveNAttrs exampleAttrs 2 ≤ (exampleAttrs.length : Int)) ∧
    (BuildForest exampleMaxLen (2 ^ 62) examplePool exampleAttrs 2 2 exampleGen exampleRand).1
      = .error .makeLenOutOfRange ∧
    (BuildForest exampleMaxLen (2 ^ 62) examplePool exampleAttrs 2 2 exampleGen
      exampleRand).2.calls = [] :=
  ⟨⟨by decide, by decide, by decide, by decide, by decide⟩, rfl, rfl⟩

/-- C4, as the code behaves: for a valid configuration (`0 ≤ nSamples ≤ len(samples)` and
`0 ≤ nAttrs ≤ len(attrs)` for the effective `nAttrs`) and `n ≥ 0` within the length the
runtime allocates for a `Forest`, `BuildForest` returns a forest of exactly `n` members,
and the member at position `i` is the result of the `i`-th call to the training function.
For `n` beyond that length it panics in `make(Forest, n)`, before any draw and any call
of the training function. -/
theorem BuildForest_members_in_call_order {Sample Attr Tree : Type} (maxLen : ℕ) (n : Int)
    (samples : List Sample) (attrs : List Attr) (nSamples nAttrs : Int)
    (g : TreeGen Sample Attr Tree) (rand : Rand)
    (hn : 0 ≤ n) (hs0 : 0 ≤ nSamples) (hs : nSamples ≤ (samples.length : Int))
    (ha0 : 0 ≤ effectiveNAttrs attrs nAttrs)
    (ha : effectiveNAttrs attrs nAttrs ≤ (attrs.length : Int)) :
    (n ≤ (maxLen : Int) →
      ∃ forest : Forest Tree,
        (BuildForest maxLen n samples attrs nSamples nAttrs g rand).1 = .ok forest ∧
        (forest.length : Int) = n ∧
        ((BuildForest maxLen n samples attrs nSamples nAttrs g rand).2.calls.length : Int)
          = n ∧
        forest = (BuildForest maxLen n samples attrs nSamples nAttrs g rand).2.calls.map
          (fun c => g c.1 c.2)) ∧
    ((maxLen : Int) < n →
      (BuildForest maxLen n samples attrs nSamples nAttrs g rand).1
        = .error .makeLenOutOfRange ∧
      (BuildForest maxLen n samples attrs nSamples nAttrs g rand).2.calls = [] ∧
      (BuildForest maxLen n samples attrs nSamples nAttrs g rand).2.rand = rand) := by
  constructor
  · intro hmax
    obtain ⟨st, h1, _, h3, h4, _⟩ :=
      BuildForest_ok maxLen n samples attrs nSamples nAttrs g rand hn hmax hs0 hs ha0 ha
    rw [h1]
    refine ⟨st.res, rfl, ?_, ?_, h4⟩
    · rw [h4, List.length_map, h3]
      omega
    · simp only [h3]
      omega
  · intro hbig
    rw [BuildForest_make_panics maxLen n samples attrs nSamples nAttrs g rand (Or.inr hbig)]
    exact ⟨rfl, rfl, rfl⟩

/-- C4 as the code behaves, at three members on the pools `[10, 20, 30, 40]` and
`["a", "b", "c", "d"]` with two samples and two attributes each. -/
theorem BuildForest_members_example :
    ((0 : Int) ≤ 3 ∧ (0 : Int) ≤ 2 ∧ (2 : Int) ≤ (examplePool.length : Int) ∧
      0 ≤ effectiveNAttrs exampleAttrs 2 ∧
      effectiveNAttrs exampleAttrs 2 ≤ (exampleAttrs.length : Int) ∧
      (3 : Int) ≤ (exampleMaxLen : Int)) ∧
    ∃ forest : Forest (List ℕ × List String),
      (BuildForest exampleMaxLen 3 examplePool exampleAttrs 2 2 exampleGen exampleRand).1
        = .ok forest ∧
      (forest.length : Int) = 3 ∧
      ((BuildForest exampleMaxLen 3 examplePool exampleAttrs 2 2 exampleGen
        exampleRand).2.calls.length : Int) = 3 ∧
      forest = (BuildForest exampleMaxLen 3 examplePool exampleAttrs 2 2 exampleGen
        exampleRand).2.calls.map (fun c => exampleGen c.1 c.2) :=
  ⟨⟨by decide, by decide, by decide, by decide, by decide, by decide⟩,
    (BuildForest_members_in_call_order exampleMaxLen 3 examplePool exampleAttrs 2 2
      exampleGen exampleRand (by decide) (by decide) (by decide) (by decide)
      (by decide)).1 (by decide)⟩

/-- C5: for a valid configuration (`nSamples ≤ len(samples)` and `nAttrs ≤ len(attrs)` for
the effective `nAttrs`), every call `BuildForest` makes to the training function receives
exactly `nSamples` samples and exactly the effective `nAttrs` attributes, each drawn from
pairwise distinct slots of the corresponding original pool.  With sizes that are also
non-negative there are `n` such calls when `make` can allocate a forest of `n` members,
and none when it cannot. -/
theorem BuildForest_calls_sizes_and_slots {Sample Attr Tree : Type} (maxLen : ℕ) (n : Int)
    (samples : List Sample) (attrs : List Attr) (nSamples nAttrs : Int)
    (g : TreeGen Sample Attr Tree) (rand : Rand)
    (hs : nSamples ≤ (samples.length : Int))
    (ha : effectiveNAttrs attrs nAttrs ≤ (attrs.length : Int)) :
    (∀ c ∈ (BuildForest maxLen n samples attrs nSamples nAttrs g rand).2.calls,
      (c.1.length : Int) = nSamples ∧
      (c.2.length : Int) = effectiveNAttrs attrs nAttrs ∧
      (∃ f : Fin c.1.length → Fin samples.length,
        Function.Injective f ∧ ∀ p, c.1.get p = samples.get (f p)) ∧
      (∃ f : Fin c.2.length → Fin attrs.length,
        Function.Injective f ∧ ∀ p, c.2.get p = attrs.get (f p))) ∧
    (0 ≤ nSamples → 0 ≤ effectiveNAttrs attrs nAttrs → n ≤ (maxLen : Int) →
      (BuildForest maxLen n samples attrs nSamples nAttrs g rand).2.calls.length = n.toNat) ∧
    ((maxLen : Int) < n →
      (BuildForest maxLen n samples attrs nSamples nAttrs g rand).2.calls = []) := by
  have hbig : (maxLen : Int) < n →
      (BuildForest maxLen n samples attrs nSamples nAttrs g rand).2.calls = [] := by
    intro h
    rw [BuildForest_make_panics maxLen n samples attrs nSamples nAttrs g rand (Or.inr h)]
    rfl
  by_cases hvalid : 0 ≤ nSamples ∧ 0 ≤ effectiveNAttrs attrs nAttrs
  · obtain ⟨hs0, ha0⟩ := hvalid
    by_cases hn : 0 ≤ n ∧ n ≤ (maxLen : Int)
    · obtain ⟨st, h1, _, h3, _, h5⟩ :=
        BuildForest_ok maxLen n samples attrs nSamples nAttrs g rand hn.1 hn.2 hs0 hs ha0 ha
      refine ⟨?_, ?_, hbig⟩
      · rw [h1]
        intro c hc
        obtain ⟨⟨sc, hsc, he1⟩, ⟨ac, hac, he2⟩⟩ := h5 c hc
        refine ⟨?_, ?_, ?_, ?_⟩
        · rw [he1, List.length_take, hsc.1]
          omega
        · rw [he2, List.length_take, hac.1]
          omega
        · rw [he1]
          exact hsc.fromDistinctSlots_take _
        · rw [he2]
          exact hac.fromDistinctSlots_take _
      · intro _ _ _
        rw [h1]
        exact h3
    · have hneg : n < 0 ∨ (maxLen : Int) < n := by omega
      have hp := BuildForest_make_panics maxLen n samples attrs nSamples nAttrs g rand hneg
      refine ⟨?_, ?_, hbig⟩
      · rw [hp]
        exact fun c hc => absurd hc (List.not_mem_nil c)
      · intro _ _ hmax
        have h0 : n.toNat = 0 := by omega
        rw [hp, h0]
        rfl
  · have hinv : nSamples < 0 ∨ (samples.length : Int) < nSamples ∨
        effectiveNAttrs attrs nAttrs < 0 ∨
        (attrs.length : Int) < effectiveNAttrs attrs nAttrs := by omega
    have hc :=
      (BuildForest_invalid_calls maxLen n samples attrs nSamples nAttrs g rand hinv).1
    refine ⟨?_, ?_, hbig⟩
    · rw [hc]
      exact fun c hc => absurd hc (List.not_mem_nil c)
    · intro h1 h2 _
      exact absurd ⟨h1, h2⟩ hvalid

/-- C5, at three members on the pools `[10, 20, 30, 40]` and `["a", "b", "c", "d"]` with
two samples and two attributes each: the three calls the run makes. -/
theorem BuildForest_calls_example :
    ((2 : Int) ≤ (examplePool.length : Int) ∧
      effectiveNAttrs exampleAttrs 2 ≤ (exampleAttrs.length : Int)) ∧
    (BuildForest exampleMaxLen 3 examplePool exampleAttrs 2 2 exampleGen exampleRand).2.calls
      = [([40, 30], ["a", "c"]), ([30, 40], ["b", "c"]), ([30, 40], ["b", "c"])] ∧
    ∀ c ∈ (BuildForest exampleMaxLen 3 examplePool exampleAttrs 2 2 exampleGen
        exampleRand).2.calls,
      (c.1.length : Int) = 2 ∧
      (c.2.length : Int) = effectiveNAttrs exampleAttrs 2 ∧
      (∃ f : Fin c.1.length → Fin examplePool.length,
        Function.Injective f ∧ ∀ p, c.1.get p = examplePool.get (f p)) ∧
      (∃ f : Fin c.2.length → Fin exampleAttrs.length,
        Function.Injective f ∧ ∀ p, c.2.get p = exampleAttrs.get (f p)) :=
  ⟨⟨by decide, by decide⟩, by decide,
    (BuildForest_calls_sizes_and_slots exampleMaxLen 3 examplePool exampleAttrs 2 2
      exampleGen exampleRand (by decide) (by decide)).1⟩

/-- C6: for every call to `BuildForest`, whether it returns or panics, the caller's
`samples` and `attrs` hold after the call what they held before it.  The working copies
`sampleCopy` and `attrCopy` are arrays that `make` allocated, at addresses other than
those of the caller's arrays, and the resampling swaps are written to them only. -/
theorem BuildForest_leaves_caller_slices {Sample Attr Tree : Type} (maxLen : ℕ) (n : Int)
    (samples : List Sample) (attrs : List Attr) (nSamples nAttrs : Int)
    (g : TreeGen Sample Attr Tree) (rand : Rand) :
    ((BuildForest.init samples attrs rand : BuildState Sample Attr Tree).samples = samples ∧
      (BuildForest.init samples attrs rand : BuildState Sample Attr Tree).attrs = attrs) ∧
    ((BuildForest maxLen n samples attrs nSamples nAttrs g rand).2.samples = samples ∧
      (BuildForest maxLen n samples attrs nSamples nAttrs g rand).2.attrs = attrs) ∧
    ((BuildForest maxLen n samples attrs nSamples nAttrs g rand).2.samplesAddr
        ≠ (BuildForest maxLen n samples attrs nSamples nAttrs g rand).2.sampleCopyAddr ∧
      (BuildForest maxLen n samples attrs nSamples nAttrs g rand).2.attrsAddr
        ≠ (BuildForest maxLen n samples attrs nSamples nAttrs g rand).2.attrCopyAddr) ∧
    (∀ (st : BuildState Sample Attr Tree), st.Separate →
      (BuildForest.body nSamples nAttrs g st).2.samples = st.samples ∧
      (BuildForest.body nSamples nAttrs g st).2.attrs = st.attrs) := by
  have h := BuildForest_frame maxLen n samples attrs nSamples nAttrs g rand
  refine ⟨⟨rfl, rfl⟩, ⟨h.1, h.2.1⟩, ⟨h.2.2.2.2.1, h.2.2.2.2.2⟩, ?_⟩
  intro st hsep
  have hb := body_frame nSamples nAttrs g st hsep
  exact ⟨hb.1, hb.2.1⟩

/-- C6, at three members on the pools `[10, 20, 30, 40]` and `["a", "b", "c", "d"]` with
two samples and two attributes each: after the run memory holds the caller's arrays as
they were, at address 0, and the reordered working copies at address 1. -/
theorem BuildForest_leaves_caller_example :
    (BuildForest exampleMaxLen 3 examplePool exampleAttrs 2 2 exampleGen
      exampleRand).2.sampleArrays = [[10, 20, 30, 40], [30, 40, 20, 10]] ∧
    (BuildForest exampleMaxLen 3 examplePool exampleAttrs 2 2 exampleGen
      exampleRand).2.attrArrays = [["a", "b", "c", "d"], ["b", "c", "a", "d"]] ∧
    (BuildForest exampleMaxLen 3 examplePool exampleAttrs 2 2 exampleGen
      exampleRand).2.sampleCopy = [30, 40, 20, 10] ∧
    (BuildForest exampleMaxLen 3 examplePool exampleAttrs 2 2 exampleGen
      exampleRand).2.samples = examplePool ∧
    (BuildForest exampleMaxLen 3 examplePool exampleAttrs 2 2 exampleGen
      exampleRand).2.attrs = exampleAttrs :=
  ⟨by decide, by decide, by decide,
    (BuildForest_leaves_caller_slices exampleMaxLen 3 examplePool exampleAttrs 2 2 exampleGen
      exampleRand).2.1⟩

/-- C8 fails for `n = 0`: a call with `nSamples` above the pool length returns the empty
forest. -/
theorem BuildForest_oversized_zero_members_returns :
    (0 : Int) ≤ 0 ∧ (examplePool.length : Int) < 5 ∧
    (BuildForest exampleMaxLen 0 examplePool exampleAttrs 5 2 exampleGen exampleRand).1
      = .ok [] :=
  ⟨by decide, by decide, rfl⟩

/-- C8, as the code behaves: for `n ≥ 0`, `BuildForest` called with `nSamples` above the
length of the sample pool never calls the training function and stores no member.  For
`n ≥ 1` within the length the runtime allocates for a `Forest` it fails, with the panic of
`rand.Intn` on a non-positive argument raised in the first member's sample resampling
after `len(samples)` draws, and returns no forest; for `n = 0` it returns the empty
forest; for `n` beyond the allocation limit it fails in `make(Forest, n)` without a
draw. -/
theorem BuildForest_oversized_samples {Sample Attr Tree : Type} (maxLen : ℕ) (n : Int)
    (samples : List Sample) (attrs : List Attr) (nSamples nAttrs : Int)
    (g : TreeGen Sample Attr Tree) (rand : Rand)
    (hn : 0 ≤ n) (hs : (samples.length : Int) < nSamples) :
    (BuildForest maxLen n samples attrs nSamples nAttrs g rand).2.calls = [] ∧
    (BuildForest maxLen n samples attrs nSamples nAttrs g rand).2.res = [] ∧
    (1 ≤ n → n ≤ (maxLen : Int) →
      (BuildForest maxLen n samples attrs nSamples nAttrs g rand).1
        = .error .intnInvalidArgument ∧
      (BuildForest maxLen n samples attrs nSamples nAttrs g rand).2.rand.drawn
        = rand.drawn + samples.length) ∧
    (n = 0 → (BuildForest maxLen n samples attrs nSamples nAttrs g rand).1 = .ok []) ∧
    ((maxLen : Int) < n →
      (BuildForest maxLen n samples attrs nSamples nAttrs g rand).1
        = .error .makeLenOutOfRange ∧
      (BuildForest maxLen n samples attrs nSamples nAttrs g rand).2.rand.drawn
        = rand.drawn) := by
  have hinv := BuildForest_invalid_calls maxLen n samples attrs nSamples nAttrs g rand
    (Or.inr (Or.inl hs))
  refine ⟨hinv.1, hinv.2, ?_, ?_, ?_⟩
  · intro h1 hmax
    have hcond : ¬ (n < 0 ∨ (maxLen : Int) < n) := by omega
    obtain ⟨m, hm⟩ : ∃ m : ℕ, n.toNat = m + 1 := ⟨n.toNat - 1, by omega⟩
    obtain ⟨i1, _, _, _, _, i6, _⟩ := @init_view Sample Attr Tree samples attrs rand
    obtain ⟨st1, hb, hr, _, _⟩ :=
      body_oversized_samples nSamples (effectiveNAttrs attrs nAttrs) g
        (BuildForest.init samples attrs rand) (by rw [i1]; exact hs)
    rw [i1, i6] at hr
    unfold BuildForest
    simp only [hcond, if_false, hm, BuildForest.loop, hb, hr]
    exact ⟨trivial, trivial⟩
  · intro h0
    have hcond : ¬ (n < 0 ∨ (maxLen : Int) < n) := by omega
    subst h0
    unfold BuildForest
    simp only [hcond, if_false, Int.toNat_zero, BuildForest.loop]
    rfl
  · intro hbig
    rw [BuildForest_make_panics maxLen n samples attrs nSamples nAttrs g rand (Or.inr hbig)]
    exact ⟨rfl, rfl⟩

/-- C8 as the code behaves, at one member with five samples requested from a pool of
four. -/
theorem BuildForest_oversized_samples_example :
    (0 : Int) ≤ 1 ∧ (examplePool.length : Int) < 5 ∧
    (BuildForest exampleMaxLen 1 examplePool exampleAttrs 5 2 exampleGen exampleRand).1
      = .error .intnInvalidArgument ∧
    (BuildForest exampleMaxLen 1 examplePool exampleAttrs 5 2 exampleGen
      exampleRand).2.rand.drawn = exampleRand.drawn + examplePool.length ∧
    (BuildForest exampleMaxLen 1 examplePool exampleAttrs 5 2 exampleGen exampleRand).2.calls
      = [] :=
  ⟨by decide, by decide,
    ((BuildForest_oversized_samples exampleMaxLen 1 examplePool exampleAttrs 5 2 exampleGen
      exampleRand (by decide) (by decide)).2.2.1 (by decide) (by decide)).1,
    ((BuildForest_oversized_samples exampleMaxLen 1 examplePool exampleAttrs 5 2 exampleGen
      exampleRand (by decide) (by decide)).2.2.1 (by decide) (by decide)).2,
    (BuildForest_oversized_samples exampleMaxLen 1 examplePool exampleAttrs 5 2 exampleGen
      exampleRand (by decide) (by decide)).1⟩

/-- C9 fails: on the forest with no member `Classify` returns a mapping, the one with no
entry. -/
theorem Classify_empty_forest_returns :
    (Forest.Classify constClassify ([] : Forest (GoMap String F64)) ()).entries = [] :=
  rfl

/-- C9, as the code behaves: `Forest.Classify` invoked on a forest with zero members does
not fail; it returns the empty mapping, the scaling loop having no entry to scale.  This
holds for `float64` weights and for exact ones; in `float64` the scaler `1 / 0` is `+Inf`,
computed without a panic. -/
theorem Classify_nil {Tree AttrMap Class W : Type} [DecidableEq Class]
    [Zero W] [One W] [Add W] [Mul W] [Div W] [NatCast W]
    (classify : Tree → AttrMap → GoMap Class W) (s : AttrMap) :
    Forest.Classify classify [] s = GoMap.empty ∧
    (∀ c, (Forest.Classify classify [] s).get? c = none) ∧
    (1 : F64) / ((([] : Forest Tree).length : ℕ) : F64) = F64.inf false := by
  refine ⟨rfl, fun _ => rfl, ?_⟩
  show F64.div (.fin 1) (F64.round ((0 : ℕ) : ℚ)) = _
  rw [Nat.cast_zero, F64.round_zero]
  simp [F64.div]

/-- C10 fails: with one member, `nSamples` valid and `nAttrs` above the pool length, the
call fails only after six draws, with the sample copy already reordered; with no member
the same sizes make the call return the empty forest. -/
theorem BuildForest_invalid_attrs_draws_first :
    ((0 : Int) ≤ 2 ∧ (2 : Int) ≤ (examplePool.length : Int) ∧
      (exampleAttrs.length : Int) < 5) ∧
    ((BuildForest exampleMaxLen 1 examplePool exampleAttrs 2 5 exampleGen exampleRand).1
        = .error .intnInvalidArgument ∧
      exampleRand.drawn = 0 ∧
      (BuildForest exampleMaxLen 1 examplePool exampleAttrs 2 5 exampleGen
        exampleRand).2.rand.drawn = 6 ∧
      (BuildForest exampleMaxLen 1 examplePool exampleAttrs 2 5 exampleGen
        exampleRand).2.sampleCopy = [40, 30, 20, 10]) ∧
    (BuildForest exampleMaxLen 0 examplePool exampleAttrs 2 5 exampleGen exampleRand).1
      = .ok [] :=
  ⟨⟨by decide, by decide, by decide⟩, ⟨rfl, rfl, rfl, by decide⟩, rfl⟩

/-- C10, as the code behaves: when `nSamples` or `nAttrs` is negative or exceeds the
corresponding pool length, `BuildForest` never calls the training function, stores no
member and leaves the caller's pools unchanged.  For `n ≥ 1` it fails with a panic, raised
during the first member's iteration (or by `make(Forest, n)` when `n` is beyond the
allocation limit), and returns no forest, partial or not; for `n = 0` it returns the
empty forest without a draw. -/
theorem BuildForest_invalid_size {Sample Attr Tree : Type} (maxLen : ℕ) (n : Int)
    (samples : List Sample) (attrs : List Attr) (nSamples nAttrs : Int)
    (g : TreeGen Sample Attr Tree) (rand : Rand)
    (hn : 0 ≤ n)
    (h : nSamples < 0 ∨ (samples.length : Int) < nSamples ∨
      nAttrs < 0 ∨ (attrs.length : Int) < nAttrs) :
    (BuildForest maxLen n samples attrs nSamples nAttrs g rand).2.calls = [] ∧
    (BuildForest maxLen n samples attrs nSamples nAttrs g rand).2.res = [] ∧
    (BuildForest maxLen n samples attrs nSamples nAttrs g rand).2.samples = samples ∧
    (BuildForest maxLen n samples attrs nSamples nAttrs g rand).2.attrs = attrs ∧
    (1 ≤ n → ∃ p, (BuildForest maxLen n samples attrs nSamples nAttrs g rand).1 = .error p) ∧
    (n = 0 →
      (BuildForest maxLen n samples attrs nSamples nAttrs g rand).1 = .ok [] ∧
      (BuildForest maxLen n samples attrs nSamples nAttrs g rand).2.rand.drawn
        = rand.drawn) := by
  have hfr := BuildForest_frame maxLen n samples attrs nSamples nAttrs g rand
  have heff : nSamples < 0 ∨ (samples.length : Int) < nSamples ∨
      effectiveNAttrs attrs nAttrs < 0 ∨
      (attrs.length : Int) < effectiveNAttrs attrs nAttrs := by
    by_cases h0 : nAttrs = 0
    · subst h0
      rcases h with h | h | h | h
      · exact Or.inl h
      · exact Or.inr (Or.inl h)
      · omega
      · omega
    · simp only [effectiveNAttrs, h0, if_false]
      exact h
  have hinv := BuildForest_invalid_calls maxLen n samples attrs nSamples nAttrs g rand heff
  refine ⟨hinv.1, hinv.2, hfr.1, hfr.2.1, ?_, ?_⟩
  · intro h1
    by_cases hbig : (maxLen : Int) < n
    · rw [BuildForest_make_panics maxLen n samples attrs nSamples nAttrs g rand
        (Or.inr hbig)]
      exact ⟨_, rfl⟩
    · have hcond : ¬ (n < 0 ∨ (maxLen : Int) < n) := by omega
      obtain ⟨m, hm⟩ : ∃ m : ℕ, n.toNat = m + 1 := ⟨n.toNat - 1, by omega⟩
      obtain ⟨i1, i2, _, _, i5, _⟩ := @init_view Sample Attr Tree samples attrs rand
      obtain ⟨p, st1, hl, _, _⟩ := loop_invalid nSamples (effectiveNAttrs attrs nAttrs) g m
        (BuildForest.init samples attrs rand) i5 (by rw [i1, i2]; exact heff)
      unfold BuildForest
      simp only [hcond, if_false, hm, hl]
      exact ⟨p, rfl⟩
  · intro h0
    have hcond : ¬ (n < 0 ∨ (maxLen : Int) < n) := by omega
    subst h0
    unfold BuildForest
    simp only [hcond, if_false, Int.toNat_zero, BuildForest.loop]
    exact ⟨rfl, rfl⟩

/-- C10 as the code behaves, at two members with a negative `nAttrs`. -/
theorem BuildForest_invalid_size_example :
    (0 : Int) ≤ 2 ∧ (-1 : Int) < 0 ∧
    (∃ p, (BuildForest exampleMaxLen 2 examplePool exampleAttrs 2 (-1) exampleGen
      exampleRand).1 = .error p) ∧
    (BuildForest exampleMaxLen 2 examplePool exampleAttrs 2 (-1) exampleGen
      exampleRand).2.calls = [] :=
  ⟨by decide, by decide,
    (BuildForest_invalid_size exampleMaxLen 2 examplePool exampleAttrs 2 (-1) exampleGen
      exampleRand (by decide) (Or.inr (Or.inr (Or.inl (by decide))))).2.2.2.2.1 (by decide),
    (BuildForest_invalid_size exampleMaxLen 2 examplePool exampleAttrs 2 (-1) exampleGen
      exampleRand (by decide) (Or.inr (Or.inr (Or.inl (by decide))))).1⟩

/-- C11: for a forest of exactly one member, `Forest.Classify` returns that member's
prediction unchanged: the same keys, and the same value at each key.  In `float64` the
member's weights are values of `float64`, and the additions `0 + v` and the products
`v * 1` are exact; the same holds with weights taken as exact numbers. -/
theorem Classify_single_member {Tree AttrMap Class : Type} [DecidableEq Class]
    (classify : Tree → AttrMap → GoMap Class F64) (exact : Tree → AttrMap → GoMap Class ℚ)
    (t : Tree) (s : AttrMap) :
    ((∀ c, c ∈ (Forest.Classify classify [t] s).keys ↔ c ∈ (classify t s).keys) ∧
      ((∀ e ∈ (classify t s).entries, e.2.Valid) →
        ∀ c, (Forest.Classify classify [t] s).get? c = (classify t s).get? c)) ∧
    ((∀ c, c ∈ (Forest.Classify exact [t] s).keys ↔ c ∈ (exact t s).keys) ∧
      (∀ c, (Forest.Classify exact [t] s).get? c = (exact t s).get? c)) := by
  have hk : ∀ c, c ∈ (Forest.Classify classify [t] s).keys ↔ c ∈ (classify t s).keys := by
    intro c
    rw [mem_keys_Classify]
    simp
  have hkq : ∀ c, c ∈ (Forest.Classify exact [t] s).keys ↔ c ∈ (exact t s).keys := by
    intro c
    rw [mem_keys_Classify]
    simp
  refine ⟨⟨hk, ?_⟩, hkq, ?_⟩
  · intro hv c
    by_cases hc : c ∈ (classify t s).keys
    · rw [get?_Classify_any classify [t] s c ((hk c).2 hc)]
      obtain ⟨e, he, hec⟩ := List.mem_map.1 hc
      have hg : (classify t s).get? c = some e.2 := by
        rw [GoMap.get?_eq_some_get _ _ hc, ← hec, GoMap.get_of_mem_entries _ e he]
      have hl : ((([t] : Forest Tree).length : ℕ) : F64) = ((1 : ℕ) : F64) := rfl
      rw [hg, hl, F64.recip_one]
      simp only [weightSum, List.foldl_cons, List.foldl_nil, hg]
      rw [F64.zero_add_valid _ (hv e he), F64.mul_one_valid _ (hv e he)]
    · rw [(GoMap.get?_eq_none_iff _ c).2 hc, GoMap.get?_eq_none_iff]
      exact fun h => hc ((hk c).1 h)
  · intro c
    by_cases hc : c ∈ (exact t s).keys
    · rw [get?_Classify exact [t] s c ((hkq c).2 hc), GoMap.get?_eq_some_get _ _ hc]
      simp
    · rw [(GoMap.get?_eq_none_iff _ c).2 hc, GoMap.get?_eq_none_iff]
      exact fun h => hc ((hkq c).1 h)

/-- C11, at the forest of the one member predicting `{class1: 1.0}`: its weight is a
value of `float64` and the result is `{class1: 1.0}`. -/
theorem Classify_single_member_example :
    (∀ e ∈ (exampleClassify 0 () : GoMap String F64).entries, e.2.Valid) ∧
    (∀ c, (Forest.Classify (exampleClassify : ℕ → Unit → GoMap String F64) [0] ()).get? c
      = (exampleClassify 0 () : GoMap String F64).get? c) ∧
    (Forest.Classify (exampleClassify : ℕ → Unit → GoMap String F64) [0] ()).get? "class1"
      = some 1 := by
  have hv : ∀ e ∈ (exampleClassify 0 () : GoMap String F64).entries, e.2.Valid := by
    intro e he
    simp only [exampleClassify, predA, if_true, List.mem_singleton] at he
    subst he
    exact F64.round_one
  have h := (Classify_single_member (exampleClassify : ℕ → Unit → GoMap String F64)
    (exampleClassify : ℕ → Unit → GoMap String ℚ) 0 ()).1.2 hv
  refine ⟨hv, h, ?_⟩
  rw [h "class1"]
  simp [exampleClassify, predA, GoMap.get?]

/-- C14 fails beyond the allocation limit: with `nAttrs = 0`, an empty attribute pool, a
valid `nSamples` and `n = 2^62` on a 64-bit runtime the call fails, in `make(Forest, n)`,
and returns no member. -/
theorem BuildForest_empty_attrs_huge_n_fails :
    ((0 : Int) ≤ 2 ^ 62 ∧ (0 : Int) ≤ 2 ∧ (2 : Int) ≤ (examplePool.length : Int)) ∧
    (BuildForest exampleMaxLen (2 ^ 62) examplePool ([] : List String) 2 0 exampleGen
      exampleRand).1 = .error .makeLenOutOfRange :=
  ⟨⟨by decide, by decide, by decide⟩, rfl⟩

/-- C14, as the code behaves: `BuildForest` called with `nAttrs` unspecified (0) and an
empty attribute pool computes the default 0, which is no failure: for a valid `nSamples`
and `n ≥ 0` within the length the runtime allocates for a `Forest` it returns `n` members,
each trained with an empty attribute sequence.  For `n` beyond that length it fails in
`make(Forest, n)`, as it does for any attribute pool. -/
theorem BuildForest_empty_attrs_default {Sample Attr Tree : Type} (maxLen : ℕ) (n : Int)
    (samples : List Sample) (nSamples : Int) (g : TreeGen Sample Attr Tree) (rand : Rand)
    (hn : 0 ≤ n) (hs0 : 0 ≤ nSamples) (hs : nSamples ≤ (samples.length : Int)) :
    effectiveNAttrs ([] : List Attr) 0 = 0 ∧
    (n ≤ (maxLen : Int) →
      ∃ forest : Forest Tree,
        (BuildForest maxLen n samples ([] : List Attr) nSamples 0 g rand).1 = .ok forest ∧
        (forest.length : Int) = n ∧
        ((BuildForest maxLen n samples ([] : List Attr) nSamples 0 g rand).2.calls.length
          : Int) = n ∧
        forest = (BuildForest maxLen n samples ([] : List Attr) nSamples 0 g
          rand).2.calls.map (fun c => g c.1 c.2) ∧
        ∀ c ∈ (BuildForest maxLen n samples ([] : List Attr) nSamples 0 g rand).2.calls,
          c.2 = []) ∧
    ((maxLen : Int) < n →
      (BuildForest maxLen n samples ([] : List Attr) nSamples 0 g rand).1
        = .error .makeLenOutOfRange) := by
  have heff : effectiveNAttrs ([] : List Attr) 0 = 0 := by
    simp [effectiveNAttrs, defaultNAttrs_zero]
  refine ⟨heff, ?_, ?_⟩
  · intro hmax
    have hlen := BuildForest_calls_lengths maxLen n samples ([] : List Attr) nSamples 0 g rand
    obtain ⟨st, h1, _, h3, h4, _⟩ :=
      BuildForest_ok maxLen n samples ([] : List Attr) nSamples 0 g rand hn hmax hs0 hs
        (by rw [heff]) (by rw [heff]; simp)
    rw [h1] at hlen ⊢
    refine ⟨st.res, rfl, ?_, ?_, h4, ?_⟩
    · rw [h4, List.length_map, h3]
      omega
    · simp only [h3]
      omega
    · intro c hc
      have h5 := (hlen c hc).2
      rw [heff] at h5
      exact List.length_eq_zero.1 (by exact_mod_cast h5)
  · intro hbig
    rw [BuildForest_make_panics maxLen n samples ([] : List Attr) nSamples 0 g rand
      (Or.inr hbig)]

/-- C14 as the code behaves, at two members on the pool `[10, 20, 30, 40]` with no
attribute. -/
theorem BuildForest_empty_attrs_example :
    ((0 : Int) ≤ 2 ∧ (0 : Int) ≤ 2 ∧ (2 : Int) ≤ (examplePool.length : Int) ∧
      (2 : Int) ≤ (exampleMaxLen : Int)) ∧
    (BuildForest exampleMaxLen 2 examplePool ([] : List String) 2 0 exampleGen exampleRand).1
      = .ok [([40, 30], []), ([40, 20], [])] ∧
    ∃ forest : Forest (List ℕ × List String),
      (BuildForest exampleMaxLen 2 examplePool ([] : List String) 2 0 exampleGen
        exampleRand).1 = .ok forest ∧
      (forest.length : Int) = 2 ∧
      ((BuildForest exampleMaxLen 2 examplePool ([] : List String) 2 0 exampleGen
        exampleRand).2.calls.length : Int) = 2 ∧
      forest = (BuildForest exampleMaxLen 2 examplePool ([] : List String) 2 0 exampleGen
        exampleRand).2.calls.map (fun c => exampleGen c.1 c.2) ∧
      ∀ c ∈ (BuildForest exampleMaxLen 2 examplePool ([] : List String) 2 0 exampleGen
          exampleRand).2.calls,
        c.2 = [] :=
  ⟨⟨by decide, by decide, by decide, by decide⟩, by
      have h0 : effectiveNAttrs ([] : List String) 0 = 0 := by
        simp [effectiveNAttrs, defaultNAttrs_zero]
      have hcond : ¬ ((2 : Int) < 0 ∨ (exampleMaxLen : Int) < 2) := by decide
      unfold BuildForest
      simp only [h0, hcond, if_false]
      rfl,
    (BuildForest_empty_attrs_default exampleMaxLen 2 examplePool 2 exampleGen exampleRand
      (by decide) (by decide) (by decide)).2.1 (by decide)⟩

/-- C17: `Forest.Classify` does not depend on the order of the members: for a permutation
of the forest it returns the same mapping, that is the same key set and the same value at
every key (weights being exact numbers). -/
theorem Classify_perm {Tree AttrMap Class : Type} [DecidableEq Class]
    (classify : Tree → AttrMap → GoMap Class ℚ) (f1 f2 : Forest Tree) (s : AttrMap)
    (h : f1.Perm f2) :
    (∀ c, c ∈ (Forest.Classify classify f1 s).keys
      ↔ c ∈ (Forest.Classify classify f2 s).keys) ∧
    (∀ c, (Forest.Classify classify f1 s).get? c
      = (Forest.Classify classify f2 s).get? c) := by
  have hex : ∀ c, (∃ t ∈ f1, c ∈ (classify t s).keys)
      ↔ ∃ t ∈ f2, c ∈ (classify t s).keys := by
    intro c
    constructor
    · rintro ⟨t, ht, hc⟩
      exact ⟨t, h.mem_iff.1 ht, hc⟩
    · rintro ⟨t, ht, hc⟩
      exact ⟨t, h.mem_iff.2 ht, hc⟩
  constructor
  · intro c
    rw [mem_keys_Classify, mem_keys_Classify]
    exact hex c
  · intro c
    rw [get?_Classify_eq, get?_Classify_eq, h.length_eq,
      (h.map (fun t => (classify t s).get c)).sum_eq]
    by_cases hc : ∃ t ∈ f1, c ∈ (classify t s).keys
    · rw [if_pos hc, if_pos ((hex c).1 hc)]
    · rw [if_neg hc, if_neg (fun h2 => hc ((hex c).2 h2))]

/-- C17, at the two members predicting `{class1: 1.0}` and `{class1: 0.0, class2: 1.0}`,
in both orders. -/
theorem Classify_perm_example :
    ([predA, predB] : Forest (GoMap String ℚ)).Perm [predB, predA] ∧
    (∀ c, c ∈ (Forest.Classify (constClassify : GoMap String ℚ → Unit → GoMap String ℚ)
        [predA, predB] ()).keys
      ↔ c ∈ (Forest.Classify (constClassify : GoMap String ℚ → Unit → GoMap String ℚ)
        [predB, predA] ()).keys) ∧
    (∀ c, (Forest.Classify (constClassify : GoMap String ℚ → Unit → GoMap String ℚ)
        [predA, predB] ()).get? c
      = (Forest.Classify (constClassify : GoMap String ℚ → Unit → GoMap String ℚ)
        [predB, predA] ()).get? c) :=
  ⟨List.Perm.swap predB predA [],
    Classify_perm (constClassify : GoMap String ℚ → Unit → GoMap String ℚ) [predA, predB] [predB, predA] ()
      (List.Perm.swap predB predA [])⟩

/-- C18 fails in `float64`: each of 49 members predicts `{class1: 1.0}`, weights that are
non-negative and sum to 1, and the one value of the result is `1 - 2^-53`
(0.9999999999999999), so the values of the result do not sum to 1. -/
theorem Classify_sum_rounded :
    (∀ t ∈ List.replicate 49 0,
      (exampleClassify t () : GoMap String F64).entries.map Prod.snd = [1]) ∧
    (Forest.Classify (exampleClassify : ℕ → Unit → GoMap String F64)
        (List.replicate 49 0) ()).entries.map Prod.snd = [F64.fin (1 - 1 / 2 ^ 53)] ∧
    F64.fin (1 - 1 / 2 ^ 53) ≠ 1 := by
  refine ⟨?_, ?_, ?_⟩
  · intro t ht
    rw [List.eq_of_mem_replicate ht]
    rfl
  · have hk : ∀ c, c ∈ (Forest.Classify (exampleClassify : ℕ → Unit → GoMap String F64)
        (List.replicate 49 0) ()).keys ↔ c = "class1" := by
      intro c
      rw [mem_keys_Classify]
      constructor
      · rintro ⟨t, ht, hc⟩
        rw [List.eq_of_mem_replicate ht] at hc
        simpa [exampleClassify, predA, GoMap.keys] using hc
      · rintro rfl
        exact ⟨0, by simp, by simp [exampleClassify, predA, GoMap.keys]⟩
    have hv := get?_Classify_replicate_49
    rw [entries_eq_singleton _ "class1" _ hk hv]
    rfl
  · rw [F64.one_def]
    intro h
    rw [F64.fin.injEq] at h
    norm_num at h

/-- C18, as the code behaves: for a non-empty forest whose members' outputs have
non-negative weights that sum to 1, the mapping returned by `Forest.Classify` has
non-negative values that sum to 1 when the weights are taken as exact numbers.  In
`float64` the values are non-negative as well (not negative, not NaN), for a forest of
fewer than `2^63` members, which every Go slice is; their sum need not be 1. -/
theorem Classify_distribution {Tree AttrMap Class : Type} [DecidableEq Class]
    (classify : Tree → AttrMap → GoMap Class F64) (exact : Tree → AttrMap → GoMap Class ℚ)
    (f : Forest Tree) (s : AttrMap)
    (hf : f ≠ [])
    (hnn : ∀ t ∈ f, ∀ e ∈ (exact t s).entries, 0 ≤ e.2)
    (hsum : ∀ t ∈ f, ((exact t s).entries.map Prod.snd).sum = 1) :
    ((∀ e ∈ (Forest.Classify exact f s).entries, 0 ≤ e.2) ∧
      ((Forest.Classify exact f s).entries.map Prod.snd).sum = 1) ∧
    (f.length < 2 ^ 63 → (∀ t ∈ f, ∀ e ∈ (classify t s).entries, e.2.NonNeg) →
      ∀ e ∈ (Forest.Classify classify f s).entries, e.2.NonNeg) := by
  have hlen : (f.length : ℚ) ≠ 0 := by
    have : f.length ≠ 0 := fun h => hf (List.length_eq_zero.1 h)
    exact_mod_cast this
  refine ⟨⟨?_, ?_⟩, fun hl hn => Classify_nonNeg classify f s hf hl hn⟩
  · intro e he
    rw [← GoMap.get_of_mem_entries _ e he, get_Classify]
    apply mul_nonneg
    · apply List.sum_nonneg
      intro x hx
      obtain ⟨t, ht, rfl⟩ := List.mem_map.1 hx
      exact GoMap.get_nonneg _ (hnn t ht) _
    · positivity
  · rw [GoMap.sum_entries]
    have h1 : (Forest.Classify exact f s).keys.map (Forest.Classify exact f s).get
        = (Forest.Classify exact f s).keys.map
            (fun c => (f.map (fun t => (exact t s).get c)).sum * (1 / (f.length : ℚ))) :=
      List.map_congr_left (fun c _ => get_Classify exact f s c)
    rw [h1, List.sum_map_mul_right, sum_map_sum_comm]
    have h2 : f.map (fun t => ((Forest.Classify exact f s).keys.map
        (fun c => (exact t s).get c)).sum) = f.map (fun _ => (1 : ℚ)) := by
      apply List.map_congr_left
      intro t ht
      have hk : (Forest.Classify exact f s).keys.Nodup :=
        (Forest.Classify exact f s).nodupKeys
      exact (GoMap.sum_get_superset (exact t s) _ hk
        (fun c hc => (mem_keys_Classify exact f s c).2 ⟨t, ht, hc⟩)).trans (hsum t ht)
    rw [h2, List.map_const', List.sum_replicate]
    simp [hlen]

/-- C18 as the code behaves, at the two members predicting `{class1: 1.0}` and
`{class1: 0.0, class2: 1.0}`. -/
theorem Classify_distribution_example :
    ([0, 1] : Forest ℕ) ≠ [] ∧
    ((∀ e ∈ (Forest.Classify (exampleClassify : ℕ → Unit → GoMap String ℚ)
          [0, 1] ()).entries, 0 ≤ e.2) ∧
      ((Forest.Classify (exampleClassify : ℕ → Unit → GoMap String ℚ)
          [0, 1] ()).entries.map Prod.snd).sum = 1) ∧
    (∀ e ∈ (Forest.Classify (exampleClassify : ℕ → Unit → GoMap String F64)
        [0, 1] ()).entries, e.2.NonNeg) := by
  have h := Classify_distribution (exampleClassify : ℕ → Unit → GoMap String F64)
    (exampleClassify : ℕ → Unit → GoMap String ℚ) [0, 1] () (by simp)
    (by
      intro t ht e he
      simp only [List.mem_cons, List.mem_singleton, List.not_mem_nil, or_false] at ht
      rcases ht with rfl | rfl
      · simp only [exampleClassify, predA, if_true, List.mem_singleton] at he
        subst he
        norm_num
      · simp only [exampleClassify, predB, one_ne_zero, if_false, List.mem_cons,
          List.mem_singleton, List.not_mem_nil, or_false] at he
        rcases he with rfl | rfl <;> norm_num)
    (by
      intro t ht
      simp only [List.mem_cons, List.mem_singleton, List.not_mem_nil, or_false] at ht
      rcases ht with rfl | rfl
      · simp [exampleClassify, predA]
      · simp [exampleClassify, predB])
  refine ⟨by simp, h.1, h.2 (by norm_num) ?_⟩
  intro t ht e he
  simp only [List.mem_cons, List.mem_singleton, List.not_mem_nil, or_false] at ht
  rcases ht with rfl | rfl
  · simp only [exampleClassify, predA, if_true, List.mem_singleton] at he
    subst he
    exact zero_le_one
  · simp only [exampleClassify, predB, one_ne_zero, if_false, List.mem_cons,
      List.mem_singleton, List.not_mem_nil, or_false] at he
    rcases he with rfl | rfl
    · exact le_refl (0 : ℚ)
    · exact zero_le_one

/-- C19: the default attribute count is a valid size.  For a pool of `N` attributes the
count computed for `nAttrs = 0` is at most `N`, and at least 1 when `N ≥ 1`.  So with
`nAttrs = 0` the attribute resampler and the attribute slice never panic; a run with a
valid `nSamples` returns its forest when `make` can allocate it (`0 ≤ n` within the
allocation limit) and otherwise fails in `make(Forest, n)` only; and no call of the
training function on a non-empty attribute pool gets an empty attribute sequence,
whatever `nAttrs` is. -/
theorem default_nAttrs_is_valid_size {Sample Attr Tree : Type} (maxLen : ℕ) (n : Int)
    (samples : List Sample) (attrs : List Attr) (nSamples nAttrs : Int)
    (g : TreeGen Sample Attr Tree) (rand : Rand) :
    (∀ N : ℕ, defaultNAttrs N ≤ N ∧ (1 ≤ N → 1 ≤ defaultNAttrs N)) ∧
    (0 ≤ effectiveNAttrs attrs 0 ∧ effectiveNAttrs attrs 0 ≤ (attrs.length : Int)) ∧
    (∀ (ac : List Attr) (r : Rand), ac.length = attrs.length →
      (randomizeAttrs ac (effectiveNAttrs attrs 0) r).1 = none ∧
      slicePrefix (randomizeAttrs ac (effectiveNAttrs attrs 0) r).2.1 (effectiveNAttrs attrs 0)
        = .ok ((randomizeAttrs ac (effectiveNAttrs attrs 0) r).2.1.take
            (effectiveNAttrs attrs 0).toNat)) ∧
    (0 ≤ n → n ≤ (maxLen : Int) → 0 ≤ nSamples → nSamples ≤ (samples.length : Int) →
      ∃ forest : Forest Tree,
        (BuildForest maxLen n samples attrs nSamples 0 g rand).1 = .ok forest ∧
        (forest.length : Int) = n) ∧
    (0 ≤ nSamples → nSamples ≤ (samples.length : Int) →
      ∀ p, (BuildForest maxLen n samples attrs nSamples 0 g rand).1 = .error p →
        p = .makeLenOutOfRange) ∧
    (attrs ≠ [] → ∀ c ∈ (BuildForest maxLen n samples attrs nSamples nAttrs g rand).2.calls,
      c.2 ≠ []) := by
  have heff : effectiveNAttrs attrs 0 = (defaultNAttrs attrs.length : Int) := by
    simp [effectiveNAttrs]
  have hle := defaultNAttrs_le attrs.length
  have h0 : 0 ≤ effectiveNAttrs attrs 0 := by rw [heff]; omega
  have h1 : effectiveNAttrs attrs 0 ≤ (attrs.length : Int) := by rw [heff]; omega
  refine ⟨fun N => ⟨defaultNAttrs_le N, one_le_defaultNAttrs N⟩, ⟨h0, h1⟩, ?_, ?_, ?_, ?_⟩
  · intro ac r hac
    rw [randomizeAttrs_eq]
    obtain ⟨s1, h2, h3⟩ := randomizeSamples_ok ac (effectiveNAttrs attrs 0) r
      (by rw [hac]; exact h1)
    rw [h2]
    exact ⟨rfl, slicePrefix_ok s1 _ h0 (by rw [h3.1, hac]; exact h1)⟩
  · intro hn hmax hs0 hs
    obtain ⟨st, h2, _, h4, h5, _⟩ :=
      BuildForest_ok maxLen n samples attrs nSamples 0 g rand hn hmax hs0 hs h0 h1
    rw [h2]
    refine ⟨st.res, rfl, ?_⟩
    rw [h5, List.length_map, h4]
    omega
  · intro hs0 hs p hp
    by_cases hcond : n < 0 ∨ (maxLen : Int) < n
    · rw [BuildForest_make_panics maxLen n samples attrs nSamples 0 g rand hcond] at hp
      exact (Except.error.inj hp).symm
    · obtain ⟨st, h2, _⟩ :=
        BuildForest_ok maxLen n samples attrs nSamples 0 g rand (by omega) (by omega) hs0 hs
          h0 h1
      rw [h2] at hp
      exact absurd hp (by simp)
  · intro hne c hc hnil
    have h2 := (BuildForest_calls_lengths maxLen n samples attrs nSamples nAttrs g rand c hc).2
    rw [hnil] at h2
    have hpos : 1 ≤ attrs.length := List.length_pos.2 hne
    have h3 := one_le_defaultNAttrs attrs.length hpos
    by_cases hz : nAttrs = 0
    · subst hz
      rw [heff] at h2
      simp only [List.length_nil, Nat.cast_zero] at h2
      omega
    · simp only [effectiveNAttrs, hz, if_false, List.length_nil, Nat.cast_zero] at h2
      exact hz h2.symm

/-- C13: in `BuildForest` the working copies are never reset between members.  With valid
sizes, the buffers on which member `i + 1` starts are exactly those member `i`'s
resampling left; the buffers after `i` members are the `i`-fold sequential composition of
the resampling applied to the initial copies, and each member is trained on the prefixes
of these carried buffers (the run makes its `n` iterations when `make` can allocate a
forest of `n` members).  On the example pools the second member's samples differ from
what a fresh copy of the original pool would give for the same draws. -/
theorem BuildForest_carries_buffers_forward {Sample Attr Tree : Type} (maxLen : ℕ)
    (n : Int)
    (samples : List Sample) (attrs : List Attr) (nSamples nAttrs : Int)
    (g : TreeGen Sample Attr Tree) (rand : Rand)
    (hn : 0 ≤ n) (hs0 : 0 ≤ nSamples) (hs : nSamples ≤ (samples.length : Int))
    (ha0 : 0 ≤ effectiveNAttrs attrs nAttrs)
    (ha : effectiveNAttrs attrs nAttrs ≤ (attrs.length : Int)) :
    (n ≤ (maxLen : Int) →
      (BuildForest maxLen n samples attrs nSamples nAttrs g rand).2
        = BuildForest.stateAfter samples attrs nSamples nAttrs g rand n.toNat) ∧
    (∀ i : ℕ,
      ((BuildForest.stateAfter samples attrs nSamples nAttrs g rand i).sampleCopy,
        (BuildForest.stateAfter samples attrs nSamples nAttrs g rand i).attrCopy,
        (BuildForest.stateAfter samples attrs nSamples nAttrs g rand i).rand)
        = carriedBuffers nSamples (effectiveNAttrs attrs nAttrs) samples attrs rand i ∧
      (BuildForest.stateAfter samples attrs nSamples nAttrs g rand (i + 1)).sampleCopy
        = (randomizeSamples
            (BuildForest.stateAfter samples attrs nSamples nAttrs g rand i).sampleCopy
            nSamples
            (BuildForest.stateAfter samples attrs nSamples nAttrs g rand i).rand).2.1 ∧
      (BuildForest.stateAfter samples attrs nSamples nAttrs g rand (i + 1)).attrCopy
        = (randomizeAttrs
            (BuildForest.stateAfter samples attrs nSamples nAttrs g rand i).attrCopy
            (effectiveNAttrs attrs nAttrs)
            (randomizeSamples
              (BuildForest.stateAfter samples attrs nSamples nAttrs g rand i).sampleCopy
              nSamples
              (BuildForest.stateAfter samples attrs nSamples nAttrs g rand i).rand).2.2).2.1) ∧
    (n ≤ (maxLen : Int) →
      (BuildForest maxLen n samples attrs nSamples nAttrs g rand).2.calls
        = (List.range n.toNat).map (fun i =>
          ((carriedBuffers nSamples (effectiveNAttrs attrs nAttrs) samples attrs rand
              (i + 1)).1.take nSamples.toNat,
            (carriedBuffers nSamples (effectiveNAttrs attrs nAttrs) samples attrs rand
              (i + 1)).2.1.take (effectiveNAttrs attrs nAttrs).toNat))) ∧
    (carriedBuffers 2 2 examplePool exampleAttrs exampleRand 2).1
      ≠ (freshBuffers 2 2 examplePool exampleAttrs
          (carriedBuffers 2 2 examplePool exampleAttrs exampleRand 1).2.2).1 := by
  have hst := BuildForest_state maxLen n samples attrs nSamples nAttrs g rand hn
  have hc := stateAfter_carried samples attrs nSamples nAttrs g rand hs0 hs ha0 ha
  refine ⟨hst, ?_, ?_, by decide⟩
  · intro i
    have h1 := (hc i).1
    have h2 := (hc (i + 1)).1
    rw [carriedBuffers, Function.iterate_succ_apply', ← carriedBuffers, ← h1] at h2
    have h3 := congrArg Prod.fst h2
    have h4 := congrArg (fun b => b.2.1) h2
    exact ⟨h1, h3, h4⟩
  · intro hmax
    rw [hst hmax]
    exact (hc n.toNat).2

/-- C13, at three members on the pools `[10, 20, 30, 40]` and `["a", "b", "c", "d"]` with
two samples and two attributes each: the second member starts on `[40, 30, 20, 10]`, the
buffer the first member left, and gets `[30, 40]`; a fresh copy of the pool would have
given `[20, 10]` for the same draws. -/
theorem BuildForest_carries_example :
    ((0 : Int) ≤ 3 ∧ (0 : Int) ≤ 2 ∧ (2 : Int) ≤ (examplePool.length : Int) ∧
      0 ≤ effectiveNAttrs exampleAttrs 2 ∧
      effectiveNAttrs exampleAttrs 2 ≤ (exampleAttrs.length : Int)) ∧
    (BuildForest.stateAfter examplePool exampleAttrs 2 2 exampleGen exampleRand 1).sampleCopy
      = [40, 30, 20, 10] ∧
    (BuildForest.stateAfter examplePool exampleAttrs 2 2 exampleGen exampleRand 2).sampleCopy
      = [30, 40, 20, 10] ∧
    (freshBuffers 2 2 examplePool exampleAttrs
      (BuildForest.stateAfter examplePool exampleAttrs 2 2 exampleGen exampleRand 1).rand).1
      = [20, 10, 30, 40] ∧
    (BuildForest.stateAfter examplePool exampleAttrs 2 2 exampleGen exampleRand 2).sampleCopy
      = (randomizeSamples
          (BuildForest.stateAfter examplePool exampleAttrs 2 2 exampleGen
            exampleRand 1).sampleCopy
          2
          (BuildForest.stateAfter examplePool exampleAttrs 2 2 exampleGen
            exampleRand 1).rand).2.1 :=
  ⟨⟨by decide, by decide, by decide, by decide, by decide⟩, by decide, by decide, by decide,
    ((BuildForest_carries_buffers_forward exampleMaxLen 3 examplePool exampleAttrs 2 2
      exampleGen exampleRand (by decide) (by decide) (by decide) (by decide) (by decide)).2.1 1).2.1⟩

/-- C16 fails beyond the allocation limit: with valid sizes and `n = 2^62` on a 64-bit
runtime the call consumes no draw, where `n × (nSamples + nAttrs)` is `2^64`. -/
theorem BuildForest_huge_n_draws_nothing :
    ((0 : Int) ≤ 2 ^ 62 ∧ (0 : Int) ≤ 2 ∧ (2 : Int) ≤ (examplePool.length : Int) ∧
      0 ≤ effectiveNAttrs exampleAttrs 2 ∧
      effectiveNAttrs exampleAttrs 2 ≤ (exampleAttrs.length : Int)) ∧
    (BuildForest exampleMaxLen (2 ^ 62) examplePool exampleAttrs 2 2 exampleGen
      exampleRand).2.rand.drawn = exampleRand.drawn ∧
    ((BuildForest exampleMaxLen (2 ^ 62) examplePool exampleAttrs 2 2 exampleGen
      exampleRand).2.rand.drawn : Int)
      ≠ exampleRand.drawn + 2 ^ 62 * (2 + effectiveNAttrs exampleAttrs 2) :=
  ⟨⟨by decide, by decide, by decide, by decide, by decide⟩, rfl, by decide⟩

/-- C16, as the code behaves: for valid sizes and `n ≥ 0` within the length the runtime
allocates for a `Forest`, `BuildForest` consumes exactly `n * (nSamples + nAttrs)` draws,
for the effective `nAttrs`; beyond that length it consumes none.  The draws are taken in
this order: member `i + 1` starts at draw `D = i * (nSamples + nAttrs)`; its sample
resampler runs first, on the draws at positions `D, ..., D + nSamples - 1` of the source,
which decide its sample buffer; its attribute resampler runs next, on the draws at
positions `D + nSamples, ..., D + nSamples + nAttrs - 1`, which decide its attribute
buffer, and ends where the next member starts. -/
theorem BuildForest_draw_count_and_order {Sample Attr Tree : Type} (maxLen : ℕ) (n : Int)
    (samples : List Sample) (attrs : List Attr) (nSamples nAttrs : Int)
    (g : TreeGen Sample Attr Tree) (rand : Rand)
    (hn : 0 ≤ n) (hs0 : 0 ≤ nSamples) (hs : nSamples ≤ (samples.length : Int))
    (ha0 : 0 ≤ effectiveNAttrs attrs nAttrs)
    (ha : effectiveNAttrs attrs nAttrs ≤ (attrs.length : Int)) :
    (n ≤ (maxLen : Int) →
      (BuildForest maxLen n samples attrs nSamples nAttrs g rand).2.rand.source
        = rand.source ∧
      ((BuildForest maxLen n samples attrs nSamples nAttrs g rand).2.rand.drawn : Int)
        = rand.drawn + n * (nSamples + effectiveNAttrs attrs nAttrs) ∧
      (BuildForest maxLen n samples attrs nSamples nAttrs g rand).2
        = BuildForest.stateAfter samples attrs nSamples nAttrs g rand n.toNat) ∧
    ((maxLen : Int) < n →
      (BuildForest maxLen n samples attrs nSamples nAttrs g rand).2.rand = rand) ∧
    ∀ i : ℕ,
      (BuildForest.stateAfter samples attrs nSamples nAttrs g rand i).rand
        = ⟨rand.source,
            rand.drawn + i * (nSamples.toNat + (effectiveNAttrs attrs nAttrs).toNat)⟩ ∧
      randomizeSamples
          (BuildForest.stateAfter samples attrs nSamples nAttrs g rand i).sampleCopy
          nSamples
          ⟨rand.source,
            rand.drawn + i * (nSamples.toNat + (effectiveNAttrs attrs nAttrs).toNat)⟩
        = (none,
            (BuildForest.stateAfter samples attrs nSamples nAttrs g rand (i + 1)).sampleCopy,
            ⟨rand.source,
              rand.drawn + i * (nSamples.toNat + (effectiveNAttrs attrs nAttrs).toNat)
                + nSamples.toNat⟩) ∧
      randomizeAttrs
          (BuildForest.stateAfter samples attrs nSamples nAttrs g rand i).attrCopy
          (effectiveNAttrs attrs nAttrs)
          ⟨rand.source,
            rand.drawn + i * (nSamples.toNat + (effectiveNAttrs attrs nAttrs).toNat)
              + nSamples.toNat⟩
        = (none,
            (BuildForest.stateAfter samples attrs nSamples nAttrs g rand (i + 1)).attrCopy,
            (BuildForest.stateAfter samples attrs nSamples nAttrs g rand (i + 1)).rand) ∧
      (BuildForest.stateAfter samples attrs nSamples nAttrs g rand (i + 1)).sampleCopy
        = applyDraws
            (BuildForest.stateAfter samples attrs nSamples nAttrs g rand i).sampleCopy 0
            ((List.range nSamples.toNat).map (fun t =>
              rand.source (rand.drawn
                  + i * (nSamples.toNat + (effectiveNAttrs attrs nAttrs).toNat) + t)
                % (samples.length - t) + t)) ∧
      (BuildForest.stateAfter samples attrs nSamples nAttrs g rand (i + 1)).attrCopy
        = applyDraws
            (BuildForest.stateAfter samples attrs nSamples nAttrs g rand i).attrCopy 0
            ((List.range (effectiveNAttrs attrs nAttrs).toNat).map (fun t =>
              rand.source (rand.drawn
                  + i * (nSamples.toNat + (effectiveNAttrs attrs nAttrs).toNat)
                  + nSamples.toNat + t)
                % (attrs.length - t) + t)) := by
  have hst := BuildForest_state maxLen n samples attrs nSamples nAttrs g rand hn
  have hc := stateAfter_carried samples attrs nSamples nAttrs g rand hs0 hs ha0 ha
  have hit := iterate_resampleBuffers_spec nSamples (effectiveNAttrs attrs nAttrs)
    (samples, attrs, rand) hs ha
  have hrand : ∀ i : ℕ,
      (BuildForest.stateAfter samples attrs nSamples nAttrs g rand i).rand
        = ⟨rand.source,
            rand.drawn + i * (nSamples.toNat + (effectiveNAttrs attrs nAttrs).toNat)⟩ := by
    intro i
    have h1 := congrArg (fun b => b.2.2) (hc i).1
    simp only at h1
    rw [h1, carriedBuffers]
    exact (hit i).2.2
  refine ⟨?_, ?_, ?_⟩
  · intro hmax
    refine ⟨?_, ?_, hst hmax⟩
    · rw [hst hmax, hrand]
    · rw [hst hmax, hrand]
      push_cast
      rw [Int.toNat_of_nonneg hn, Int.toNat_of_nonneg hs0, Int.toNat_of_nonneg ha0]
  · intro hbig
    rw [BuildForest_make_panics maxLen n samples attrs nSamples nAttrs g rand (Or.inr hbig)]
    rfl
  · intro i
    have h1 := (hc i).1
    have h2 := (hc (i + 1)).1
    rw [carriedBuffers, Function.iterate_succ_apply', ← carriedBuffers, ← h1] at h2
    have hlen := hit i
    rw [← carriedBuffers, ← h1] at hlen
    simp only at hlen
    have hsl : nSamples ≤
        ((BuildForest.stateAfter samples attrs nSamples nAttrs g rand i).sampleCopy.length
          : Int) := by rw [hlen.1]; exact hs
    have hal : effectiveNAttrs attrs nAttrs ≤
        ((BuildForest.stateAfter samples attrs nSamples nAttrs g rand i).attrCopy.length
          : Int) := by rw [hlen.2.1]; exact ha
    have e1 := randomizeSamples_loop_eq_applyDraws nSamples.toNat 0
      (BuildForest.stateAfter samples attrs nSamples nAttrs g rand i).sampleCopy
      ⟨rand.source,
        rand.drawn + i * (nSamples.toNat + (effectiveNAttrs attrs nAttrs).toNat)⟩ (by omega)
    have e2 := randomizeSamples_loop_eq_applyDraws (effectiveNAttrs attrs nAttrs).toNat 0
      (BuildForest.stateAfter samples attrs nSamples nAttrs g rand i).attrCopy
      ⟨rand.source,
        rand.drawn + i * (nSamples.toNat + (effectiveNAttrs attrs nAttrs).toNat)
          + nSamples.toNat⟩ (by omega)
    have hs3 : (BuildForest.stateAfter samples attrs nSamples nAttrs g rand (i + 1)).sampleCopy
        = (randomizeSamples.loop nSamples.toNat 0
            (BuildForest.stateAfter samples attrs nSamples nAttrs g rand i).sampleCopy
            ⟨rand.source,
              rand.drawn
                + i * (nSamples.toNat + (effectiveNAttrs attrs nAttrs).toNat)⟩).2.1 := by
      have h3 := congrArg Prod.fst h2
      simp only [resampleBuffers, hrand i] at h3
      exact h3
    have ha3 : (BuildForest.stateAfter samples attrs nSamples nAttrs g rand (i + 1)).attrCopy
        = (randomizeSamples.loop (effectiveNAttrs attrs nAttrs).toNat 0
            (BuildForest.stateAfter samples attrs nSamples nAttrs g rand i).attrCopy
            ⟨rand.source,
              rand.drawn + i * (nSamples.toNat + (effectiveNAttrs attrs nAttrs).toNat)
                + nSamples.toNat⟩).2.1 := by
      have h3 := congrArg (fun b => b.2.1) h2
      simp only [resampleBuffers, hrand i, randomizeAttrs_eq] at h3
      rw [show randomizeSamples
          (BuildForest.stateAfter samples attrs nSamples nAttrs g rand i).sampleCopy nSamples
          ⟨rand.source,
            rand.drawn + i * (nSamples.toNat + (effectiveNAttrs attrs nAttrs).toNat)⟩
          = _ from e1] at h3
      exact h3
    have hr3 : (BuildForest.stateAfter samples attrs nSamples nAttrs g rand (i + 1)).rand
        = ⟨rand.source,
            rand.drawn + i * (nSamples.toNat + (effectiveNAttrs attrs nAttrs).toNat)
              + nSamples.toNat + (effectiveNAttrs attrs nAttrs).toNat⟩ := by
      rw [hrand (i + 1)]
      simp only [Rand.mk.injEq, true_and]
      ring
    rw [e1] at hs3
    rw [e2] at ha3
    simp only at hs3 ha3
    refine ⟨hrand i, ?_, ?_, ?_, ?_⟩
    · rw [hs3]
      exact e1
    · rw [randomizeAttrs_eq, ha3, hr3]
      exact e2
    · rw [hs3, drawnIndices, hlen.1]
      simp only [Nat.zero_add]
    · rw [ha3, drawnIndices, hlen.2.1]
      simp only [Nat.zero_add, Nat.add_assoc]

/-- C16 as the code behaves, at three members on the pools `[10, 20, 30, 40]` and
`["a", "b", "c", "d"]` with two samples and two attributes each: twelve draws; the first
member's samples are decided by the draws 3 and 1 at positions 0 and 1 of the source and
its attributes by the draws 4 and 1 at positions 2 and 3; the second member starts at
position 4. -/
theorem BuildForest_draws_example :
    ((0 : Int) ≤ 3 ∧ (0 : Int) ≤ 2 ∧ (2 : Int) ≤ (examplePool.length : Int) ∧
      0 ≤ effectiveNAttrs exampleAttrs 2 ∧
      effectiveNAttrs exampleAttrs 2 ≤ (exampleAttrs.length : Int) ∧
      (3 : Int) ≤ (exampleMaxLen : Int)) ∧
    exampleRand.drawn = 0 ∧
    (BuildForest exampleMaxLen 3 examplePool exampleAttrs 2 2 exampleGen
      exampleRand).2.rand.drawn = 12 ∧
    (BuildForest.stateAfter examplePool exampleAttrs 2 2 exampleGen exampleRand 1).rand.drawn
      = 4 ∧
    (BuildForest.stateAfter examplePool exampleAttrs 2 2 exampleGen exampleRand 1).sampleCopy
      = [40, 30, 20, 10] ∧
    (BuildForest.stateAfter examplePool exampleAttrs 2 2 exampleGen exampleRand 1).attrCopy
      = ["a", "c", "b", "d"] ∧
    randomizeSamples examplePool 2 exampleRand
      = (none, [40, 30, 20, 10], ⟨exampleRand.source, 2⟩) ∧
    randomizeAttrs exampleAttrs 2 ⟨exampleRand.source, 2⟩
      = (none, ["a", "c", "b", "d"], ⟨exampleRand.source, 4⟩) ∧
    ((BuildForest exampleMaxLen 3 examplePool exampleAttrs 2 2 exampleGen
      exampleRand).2.rand.drawn : Int)
      = exampleRand.drawn + 3 * (2 + effectiveNAttrs exampleAttrs 2) :=
  ⟨⟨by decide, by decide, by decide, by decide, by decide, by decide⟩, rfl, by decide,
    by decide, by decide, by decide, rfl, rfl,
    ((BuildForest_draw_count_and_order exampleMaxLen 3 examplePool exampleAttrs 2 2
      exampleGen exampleRand (by decide) (by decide) (by decide) (by decide)
      (by decide)).1 (by decide)).2.1⟩

/-- C15: in the resampler, for a pool of length `N`, a count `k ≤ N` and a step `i` of
`[0, k)`: the run reaches step `i` without a panic, the argument `N - i` of the draw is
strictly positive, the drawn index `j` lies in `[i, N - 1]`, the swap is in range, and the
step changes no position other than `i` and `j`; the whole run does not panic.  The two
resamplers are the same function. -/
theorem resampler_step_in_bounds {α : Type} (pool : List α) (k : Int) (r : Rand) (i : ℕ)
    (hk : k ≤ (pool.length : Int)) (hi : (i : Int) < k) :
    (randomizeSamples pool k r).1 = none ∧
    randomizeAttrs pool k r = randomizeSamples pool k r ∧
    ∃ (si : List α) (ri : Rand) (d : ℕ) (s1 : List α),
      randomizeSamples.loop i 0 pool r = (none, si, ri) ∧
      si.length = pool.length ∧
      0 < (si.length : Int) - (i : Int) ∧
      ri.Intn ((si.length : Int) - (i : Int)) = .ok (d, ⟨ri.source, ri.drawn + 1⟩) ∧
      i ≤ d + i ∧ d + i ≤ pool.length - 1 ∧
      swap si i (d + i) = .ok s1 ∧
      randomizeSamples.loop (i + 1) 0 pool r = (none, s1, ⟨ri.source, ri.drawn + 1⟩) ∧
      s1.length = pool.length ∧
      (∀ p, p ≠ i → p ≠ d + i → s1[p]? = si[p]?) ∧
      randomizeSamples pool k r
        = randomizeSamples.loop (k.toNat - (i + 1)) (i + 1) s1
            ⟨ri.source, ri.drawn + 1⟩ := by
  obtain ⟨sk, hk1, _⟩ := randomizeSamples_ok pool k r hk
  obtain ⟨si, h1, h2⟩ := randomizeSamples_loop_ok i 0 pool r (by omega)
  have hlen : si.length = pool.length := h2.1
  have hii : i < si.length := by omega
  obtain ⟨s1, hsw, hone, hl1, hfr⟩ :=
    randomizeSamples_loop_one i si ⟨r.source, r.drawn + i⟩ hii
  have hpos : (0 : Int) < (si.length : Int) - (i : Int) := by omega
  have hj := draw_lt (r.source (r.drawn + i)) si.length i hii
  have hstep : randomizeSamples.loop (i + 1) 0 pool r
      = (none, s1, ⟨r.source, r.drawn + i + 1⟩) := by
    rw [randomizeSamples_loop_add i 1 0 pool r, h1]
    simp only [Nat.zero_add]
    exact hone
  refine ⟨by rw [hk1], randomizeAttrs_eq pool k r, si, ⟨r.source, r.drawn + i⟩,
    r.source (r.drawn + i) % ((si.length : Int) - (i : Int)).toNat, s1,
    h1, hlen, hpos, Rand.Intn_pos _ _ hpos, Nat.le_add_left _ _, by omega, hsw, hstep,
    hl1.trans hlen, hfr, ?_⟩
  have hsplit : k.toNat = (i + 1) + (k.toNat - (i + 1)) := by omega
  rw [randomizeSamples, hsplit, randomizeSamples_loop_add (i + 1) _ 0 pool r, hstep]
  simp only [Nat.zero_add]
  congr 1
  omega

/-- C15, at the pool `[10, 20, 30, 40]` with `k = 2`, at step 1: the draw is taken from
`[0, 3)`, the drawn index is 2, and the swap of positions 1 and 2 turns `[40, 20, 30, 10]`
into `[40, 30, 20, 10]`. -/
theorem resampler_step_example :
    ((2 : Int) ≤ (examplePool.length : Int) ∧ ((1 : ℕ) : Int) < 2) ∧
    randomizeSamples.loop 1 0 examplePool exampleRand
      = (none, [40, 20, 30, 10], ⟨exampleRand.source, 1⟩) ∧
    randomizeSamples.loop 2 0 examplePool exampleRand
      = (none, [40, 30, 20, 10], ⟨exampleRand.source, 2⟩) ∧
    ∃ (si : List ℕ) (ri : Rand) (d : ℕ) (s1 : List ℕ),
      randomizeSamples.loop 1 0 examplePool exampleRand = (none, si, ri) ∧
      si.length = examplePool.length ∧
      0 < (si.length : Int) - ((1 : ℕ) : Int) ∧
      ri.Intn ((si.length : Int) - ((1 : ℕ) : Int)) = .ok (d, ⟨ri.source, ri.drawn + 1⟩) ∧
      1 ≤ d + 1 ∧ d + 1 ≤ examplePool.length - 1 ∧
      swap si 1 (d + 1) = .ok s1 ∧
      randomizeSamples.loop (1 + 1) 0 examplePool exampleRand
        = (none, s1, ⟨ri.source, ri.drawn + 1⟩) ∧
      s1.length = examplePool.length ∧
      (∀ p, p ≠ 1 → p ≠ d + 1 → s1[p]? = si[p]?) ∧
      randomizeSamples examplePool 2 exampleRand
        = randomizeSamples.loop ((2 : Int).toNat - (1 + 1)) (1 + 1) s1
            ⟨ri.source, ri.drawn + 1⟩ :=
  ⟨⟨by decide, by decide⟩, rfl, rfl,
    (resampler_step_in_bounds examplePool 2 exampleRand 1 (by decide) (by decide)).2.2⟩

/-- C12: for a pool of `N` slots and `k ≤ N`, the resampler maps the admissible draw
sequences `(j_0, ..., j_{k-1})`, with `t ≤ j_t ≤ N - 1`, one to one onto the ordered
arrangements of `k` distinct slots in the prefix: the prefix is always such an
arrangement, and every arrangement is produced by exactly one admissible draw sequence.
Every random source delivers an admissible draw sequence and chooses the slots that
sequence chooses; on any pool the prefix holds the items of the chosen slots.  For
`k = 1` each of the `N` slots is chosen by exactly one of the `N` possible draws. -/
theorem resampler_draws_onto_arrangements (N k : ℕ) (hk : k ≤ N) :
    (∀ r : Rand, Arrangement N k (chosenSlots N k r)) ∧
    (∀ l, Arrangement N k l →
      ∃! js : List ℕ, js.length = k ∧ AdmissibleDraws N js ∧
        chosenSlots N k (drawSource js) = l) ∧
    (∀ r : Rand, (drawnIndices r N 0 k).length = k ∧
      AdmissibleDraws N (drawnIndices r N 0 k) ∧
      chosenSlots N k r = chosenSlots N k (drawSource (drawnIndices r N 0 k))) ∧
    (∀ (α : Type) (pool : List α) (r : Rand), pool.length = N →
      ((randomizeSamples pool (k : Int) r).2.1.take k).map some
        = (chosenSlots N k r).map (fun i => pool[i]?)) ∧
    (∀ x, x < N → ∃! j, j < N ∧ chosenSlots N 1 (drawSource [j]) = [x]) := by
  refine ⟨fun r => arrangement_chosenSlots N k r hk,
    fun l hl => chosenSlots_existsUnique N k hk l hl, ?_, ?_, ?_⟩
  · intro r
    obtain ⟨h1, h2⟩ := admissibleDraws_drawnIndices N k r hk
    refine ⟨h1, h2, ?_⟩
    rw [chosenSlots_drawSource N k _ hk h1 h2, chosenSlots_eq N k r hk]
  · intro α pool r hpool
    rw [← hpool]
    exact prefix_eq_chosenSlots pool k r
  · intro x hx
    have hadm : ∀ j, j < N → AdmissibleDraws N [j] := by
      intro j hj t ht
      have ht0 : t = 0 := by simpa using ht
      subst ht0
      exact ⟨Nat.zero_le _, hj⟩
    obtain ⟨js, ⟨h1, h2, h3⟩, huniq⟩ := chosenSlots_existsUnique N 1 (by omega) [x]
      ⟨rfl, List.nodup_singleton x, by
        intro y hy
        rw [List.mem_singleton] at hy
        subst hy
        exact hx⟩
    obtain ⟨j, rfl⟩ := List.length_eq_one.1 h1
    refine ⟨j, ⟨(h2 0 (by simp)).2, h3⟩, ?_⟩
    rintro j2 ⟨h4, h5⟩
    have h6 := huniq [j2] ⟨rfl, hadm j2 h4, h5⟩
    exact List.head_eq_of_cons_eq h6

/-- C12, at a pool of four slots with `k = 2`: the draws 3 and 2 choose the slots 3 and 2,
and no other admissible draw sequence does. -/
theorem resampler_draws_example :
    2 ≤ 4 ∧
    chosenSlots 4 2 (drawSource [3, 2]) = [3, 2] ∧
    (randomizeSamples examplePool 2 (drawSource [3, 2])).2.1.take 2 = [40, 30] ∧
    ∃! js : List ℕ, js.length = 2 ∧ AdmissibleDraws 4 js ∧
      chosenSlots 4 2 (drawSource js) = [3, 2] :=
  ⟨by decide, by decide, by decide,
    (resampler_draws_onto_arrangements 4 2 (by decide)).2.1 [3, 2]
      ⟨rfl, by decide, by decide⟩⟩

end Claims

end idtrees
